import Mathlib

/-!
Verification development for the Broddy v2 site mirroring tool
(`src/index.js`, the revision with collision-handling path allocation).

The JavaScript source is shallowly embedded: each helper of the source
(`assetPath`, `getRelativePath`, `rewriteUrls`, `extractAssets`, the
discovery worklist loop and the phased `broddy` orchestrator) becomes an
executable Lean definition operating on explicit state.  Platform
facilities used by the source (`new URL`, Node's `path` module, the
specific JavaScript regexes, `JSON.parse`, and the cheerio query surface)
are modelled by executable Lean functions that follow the documented
semantics of those facilities on the fragment the source exercises.
-/

namespace Broddy

/-! ### Association lists modelling JavaScript `Map` (insertion ordered) -/

/-- Lookup in an insertion-ordered association list (JS `Map.get`). -/
def alistGet (m : List (String × String)) (k : String) : Option String :=
  match m with
  | [] => none
  | (k', v) :: rest => if k' = k then some v else alistGet rest k

/-- Membership test (JS `Map.has`). -/
def alistHas (m : List (String × String)) (k : String) : Bool :=
  (alistGet m k).isSome

/-- JS `Map.set`: update in place when the key exists (keeping its
position), otherwise append at the end (insertion order). -/
def alistSet (m : List (String × String)) (k v : String) : List (String × String) :=
  match m with
  | [] => [(k, v)]
  | (k', v') :: rest => if k' = k then (k, v) :: rest else (k', v') :: alistSet rest k v

/-- Insertion-ordered set insert (JS `Set.add`): append when absent. -/
def setAdd (s : List String) (x : String) : List String :=
  if x ∈ s then s else s ++ [x]

/-- Fold `setAdd` over a list of elements. -/
def setAddAll (s : List String) (xs : List String) : List String :=
  xs.foldl setAdd s

/-! ### JavaScript 32-bit string hash and base conversion
(`assetPath`'s query-string hash: `hash = (hash << 5) - hash + char; hash = hash & hash`). -/

/-- Wrap an integer to signed 32-bit two's complement, as JavaScript's
bitwise operators do (`ToInt32`). -/
def wrap32 (n : Int) : Int :=
  (n + 2 ^ 31) % 2 ^ 32 - 2 ^ 31

/-- One step of the source's hash loop: `hash = (hash << 5) - hash + char`
followed by `hash = hash & hash` (a 32-bit coercion). -/
def jsHashStep (h : Int) (c : Char) : Int :=
  wrap32 (wrap32 (h * 32) - h + (c.toNat : Int))

/-- The full hash of a string, folding `jsHashStep` from 0 over the
UTF-16 code units (our inputs are ASCII, where code unit = code point). -/
def jsHash (s : String) : Int :=
  s.data.foldl jsHashStep 0

/-- Digit character for `Number.prototype.toString(36)`: 0-9 then a-z. -/
def base36Digit (d : Nat) : Char :=
  if d < 10 then Char.ofNat (48 + d) else Char.ofNat (87 + d)

/-- Base-36 digit accumulation with structural fuel (`fuel ≥ n` makes
the fuel-exhausted base case unreachable). -/
def natToBase36Aux : Nat → Nat → List Char
  | 0, n => [base36Digit (n % 36)]
  | fuel + 1, n =>
    if n < 36 then [base36Digit n]
    else natToBase36Aux fuel (n / 36) ++ [base36Digit (n % 36)]

/-- Base-36 digits of a natural number, most significant first
(JavaScript `n.toString(36)` for a nonnegative integer). -/
def natToBase36 (n : Nat) : List Char :=
  natToBase36Aux n n

/-- String form of `Math.abs(hash).toString(36)`. -/
def absBase36 (h : Int) : String :=
  ⟨natToBase36 h.natAbs⟩

/-- Base-10 digit accumulation with structural fuel. -/
def natToDecAux : Nat → Nat → List Char
  | 0, n => [Char.ofNat (48 + n % 10)]
  | fuel + 1, n =>
    if n < 10 then [Char.ofNat (48 + n)]
    else natToDecAux fuel (n / 10) ++ [Char.ofNat (48 + n % 10)]

/-- Base-10 digits of a natural number, most significant first
(JavaScript template interpolation of a number). -/
def natToDec (n : Nat) : List Char :=
  natToDecAux n n

/-- Decimal rendering of a natural number as a string. -/
def decStr (n : Nat) : String :=
  ⟨natToDec n⟩

theorem toNat_ofNat_small (n : Nat) (h : n < 55296) : (Char.ofNat n).toNat = n := by
  unfold Char.ofNat Char.toNat
  split
  · simp [Char.ofNatAux, UInt32.toNat, BitVec.toNat_ofNat]
  · rename_i hv
    exact absurd (Or.inl h) hv

/-- Value of a base-10 digit list (inverse of `natToDec`, used to prove
injectivity of decimal rendering). -/
def decVal (l : List Char) : Nat :=
  l.foldl (fun a c => a * 10 + (c.toNat - 48)) 0

theorem decVal_append (l : List Char) (c : Char) :
    decVal (l ++ [c]) = decVal l * 10 + (c.toNat - 48) := by
  simp [decVal]

theorem decVal_natToDecAux (fuel : Nat) :
    ∀ n, n ≤ fuel → decVal (natToDecAux fuel n) = n := by
  induction fuel with
  | zero =>
    intro n hn
    have : n = 0 := by omega
    subst this
    simp only [natToDecAux, decVal, List.foldl]
    rw [toNat_ofNat_small 48 (by omega)]
  | succ f ih =>
    intro n hn
    simp only [natToDecAux]
    by_cases h : n < 10
    · simp only [if_pos h, decVal, List.foldl]
      rw [toNat_ofNat_small (48 + n) (by omega)]
      omega
    · simp only [if_neg h]
      rw [decVal_append]
      have h10 : 10 ≤ n := Nat.le_of_not_lt h
      have hle : n / 10 ≤ f := by omega
      rw [ih (n / 10) hle]
      rw [toNat_ofNat_small (48 + n % 10) (by omega)]
      omega

theorem decVal_natToDec (n : Nat) : decVal (natToDec n) = n :=
  decVal_natToDecAux n n (Nat.le_refl n)

theorem natToDec_injective : Function.Injective natToDec := by
  intro a b h
  have := decVal_natToDec a
  rw [h, decVal_natToDec] at this
  omega

/-! ### Character-list split and join (the workhorse for the path model) -/

/-- Split a character list at every occurrence of `sep`.  `[]` yields
`[[]]`, and separators at the ends yield empty parts, matching
JavaScript's `String.prototype.split` with a single-character separator. -/
def chSplit (sep : Char) : List Char → List (List Char)
  | [] => [[]]
  | c :: cs =>
    let r := chSplit sep cs
    if c = sep then [] :: r
    else
      match r with
      | [] => [[c]]
      | p :: ps => (c :: p) :: ps

/-- Join character-list parts with `sep` between them. -/
def chJoin (sep : Char) : List (List Char) → List Char
  | [] => []
  | [p] => p
  | p :: ps => p ++ sep :: chJoin sep ps

theorem chSplit_ne_nil (sep : Char) (l : List Char) : chSplit sep l ≠ [] := by
  cases l with
  | nil => simp [chSplit]
  | cons c cs =>
    simp only [chSplit]
    by_cases h : c = sep
    · simp [h]
    · simp only [if_neg h]
      cases chSplit sep cs with
      | nil => simp
      | cons p ps => simp

theorem chJoin_chSplit (sep : Char) (l : List Char) :
    chJoin sep (chSplit sep l) = l := by
  induction l with
  | nil => simp [chSplit, chJoin]
  | cons c cs ih =>
    simp only [chSplit]
    by_cases h : c = sep
    · simp only [if_pos h]
      have hne := chSplit_ne_nil sep cs
      cases hsplit : chSplit sep cs with
      | nil => exact absurd hsplit hne
      | cons p ps =>
        rw [hsplit] at ih
        simp only [chJoin]
        rw [ih, h]
        simp
    · simp only [if_neg h]
      have hne := chSplit_ne_nil sep cs
      cases hsplit : chSplit sep cs with
      | nil => exact absurd hsplit hne
      | cons p ps =>
        rw [hsplit] at ih
        cases ps with
        | nil => simp only [chJoin] at ih ⊢; rw [ih]
        | cons q qs =>
          simp only [chJoin] at ih ⊢
          rw [List.cons_append, ih]

theorem chSplit_chJoin_single (sep : Char) (p : List Char) (hp : sep ∉ p) :
    chSplit sep (chJoin sep [p]) = [p] := by
  simp only [chJoin]
  induction p with
  | nil => simp [chSplit]
  | cons c cs ihp =>
    have hc : ¬c = sep := fun h => hp (h ▸ List.mem_cons_self c cs)
    have hcs : sep ∉ cs := fun h => hp (List.mem_cons_of_mem c h)
    simp only [chSplit, if_neg hc, ihp hcs]

theorem chSplit_chJoin (sep : Char) (ps : List (List Char))
    (hne : ps ≠ []) (hsep : ∀ p ∈ ps, sep ∉ p) :
    chSplit sep (chJoin sep ps) = ps := by
  induction ps with
  | nil => exact absurd rfl hne
  | cons p rest ih =>
    cases rest with
    | nil => exact chSplit_chJoin_single sep p (hsep p (by simp))
    | cons q qs =>
      have hrest : chSplit sep (chJoin sep (q :: qs)) = q :: qs :=
        ih (by simp) (fun r hr => hsep r (List.mem_cons_of_mem p hr))
      have hp : sep ∉ p := hsep p (by simp)
      clear ih hne hsep
      show chSplit sep (p ++ sep :: chJoin sep (q :: qs)) = p :: q :: qs
      induction p with
      | nil =>
        simp only [List.nil_append, chSplit, if_pos rfl, hrest]
        simp
      | cons c cs ihp =>
        have hc : ¬c = sep := fun h => hp (h ▸ List.mem_cons_self c cs)
        have hcs : sep ∉ cs := fun h => hp (List.mem_cons_of_mem c h)
        have ih2 := ihp hcs
        rw [List.cons_append]
        simp only [chSplit, if_neg hc]
        rw [ih2]

end Broddy

namespace Broddy

/-! ### Node `path` (POSIX) model
The source runs `path` in POSIX mode (`path.sep = "/"`); the working
directory, which `path.resolve`/`path.relative` consult for relative
inputs, is modelled as `/` (the source only resolves already absolute
paths on the reachable branches). -/

/-- Segment `.` as a character list. -/
def dotSeg : List Char := ['.']

/-- Segment `..` as a character list. -/
def dotDotSeg : List Char := ['.', '.']

/-- Dot-segment elimination for `path.resolve`/`path.normalize`:
empty and `.` segments are dropped, `..` pops (saturating at the root).
The accumulator holds processed segments in reverse. -/
def elimDotsGo (acc : List (List Char)) : List (List Char) → List (List Char)
  | [] => acc.reverse
  | s :: rest =>
    if s = [] ∨ s = dotSeg then elimDotsGo acc rest
    else if s = dotDotSeg then elimDotsGo acc.tail rest
    else elimDotsGo (s :: acc) rest

/-- Segments of a path after full resolution against the root working
directory (used by `path.resolve` and `path.relative`). -/
def resolveSegsList (p : String) : List (List Char) :=
  elimDotsGo [] (chSplit '/' p.data)

/-- Node `path.posix.resolve` with one argument (working directory `/`). -/
def pathResolve1 (p : String) : String :=
  match resolveSegsList p with
  | [] => "/"
  | segs => ⟨'/' :: chJoin '/' segs⟩

/-- Resolution of a possibly relative path `rel` against a directory
`dir`, i.e. `path.posix.resolve(dir, rel)`.  This is the resolution
operation the relative-path round-trip property (claim C4) speaks about. -/
def pathResolve2 (dir rel : String) : String :=
  match rel.data with
  | '/' :: _ => pathResolve1 rel
  | _ => pathResolve1 ⟨dir.data ++ '/' :: rel.data⟩

/-- Node `path.posix.dirname`, following the reference implementation
(scan from the right past trailing slashes and the basename; special
cases for root and a `//` prefix). -/
def pathDirname (p : String) : String :=
  match p.data with
  | [] => "."
  | c0 :: rest =>
    let hasRoot := c0 = '/'
    let r := rest.reverse
    let r1 := r.dropWhile (fun c => c = '/')
    let r2 := r1.dropWhile (fun c => c ≠ '/')
    if r2.isEmpty then (if hasRoot then "/" else ".")
    else if hasRoot ∧ r2.length = 1 then "//"
    else ⟨p.data.take r2.length⟩

/-- Extension of a basename: from the last dot, empty when the dot is
the first character or the name is `..` (Node `path.extname` rules). -/
def extnameOf (b : List Char) : List Char :=
  if b = dotDotSeg then []
  else
    let tl := b.reverse.takeWhile (fun c => c ≠ '.')
    if tl.length = b.length then []
    else if tl.length + 1 = b.length then []
    else '.' :: tl.reverse

/-- Node `path.posix.extname`. -/
def pathExtname (p : String) : String :=
  let noTrail := (p.data.reverse.dropWhile (fun c => c = '/')).reverse
  let b := (noTrail.reverse.takeWhile (fun c => c ≠ '/')).reverse
  ⟨extnameOf b⟩

/-- Node `path.posix.basename` (no extension argument). -/
def pathBasename (p : String) : String :=
  let noTrail := (p.data.reverse.dropWhile (fun c => c = '/')).reverse
  ⟨(noTrail.reverse.takeWhile (fun c => c ≠ '/')).reverse⟩

/-- Length of the common leading run of two lists. -/
def commonCount : List (List Char) → List (List Char) → Nat
  | a :: as, b :: bs => if a = b then commonCount as bs + 1 else 0
  | _, _ => 0

/-- Node `path.posix.relative`: resolve both arguments, drop the common
leading segments, go up with `..` for what remains of `from` and descend
into what remains of `to`. -/
def pathRelative (f t : String) : String :=
  let fs := resolveSegsList f
  let ts := resolveSegsList t
  let c := commonCount fs ts
  ⟨chJoin '/' (List.replicate (fs.length - c) dotDotSeg ++ ts.drop c)⟩

/-- Source `getRelativePath` (src/index.js lines 632-638):
`path.relative(path.dirname(fromFilePath), toFilePath)`, split on
`path.sep` and joined with `/` (forward slashes regardless of platform). -/
def getRelativePath (fromFilePath toFilePath : String) : String :=
  let fromDir := pathDirname fromFilePath
  let relative := pathRelative fromDir toFilePath
  ⟨chJoin '/' (chSplit '/' relative.data)⟩

end Broddy

namespace Broddy

/-! ### WHATWG `new URL` model
Models the fragment of the WHATWG URL parser that the source exercises:
absolute `scheme://host/path?query#frag` URLs (http/https treated as
special schemes with non-empty hosts and `/`-rooted normalized paths),
opaque-path non-special URLs (`data:...`, `zz://w`), and relative
resolution against an absolute base.  Percent-encoding normalization and
default-port handling are not modelled (the inputs the claims exercise
do not use them).  `none` models a thrown `TypeError`. -/

structure Url where
  scheme : String
  hasAuth : Bool
  host : String
  path : String
  query : String
  frag : String
deriving DecidableEq, Repr

/-- Characters allowed in a scheme after the initial letter. -/
def isSchemeChar (c : Char) : Bool :=
  c.isAlphanum ∨ c = '+' ∨ c = '-' ∨ c = '.'

/-- Split `scheme:` off the front of a reference; `none` when the
reference does not begin with a valid scheme followed by a colon. -/
def schemeSplit (s : List Char) : Option (List Char × List Char) :=
  match s with
  | [] => none
  | c :: rest =>
    if c.isAlpha then
      let run := rest.takeWhile isSchemeChar
      match rest.drop run.length with
      | ':' :: after => some (c :: run, after)
      | _ => none
    else none

/-- Lowercase a character list. -/
def lowerChars (s : List Char) : List Char :=
  s.map Char.toLower

/-- The special schemes the source can meet (http and https; the other
WHATWG special schemes never arise). -/
def specialScheme (s : String) : Bool :=
  s = "http" ∨ s = "https"

/-- RFC 3986 dot-segment removal over the segments of a rooted path,
preserving empty segments and the trailing-slash effect of a final `.`
or `..` segment.  The accumulator is reversed. -/
def remDots (acc : List (List Char)) : List (List Char) → List (List Char)
  | [] => acc.reverse
  | s :: rest =>
    if s = dotSeg then
      (if rest = [] then ([] :: acc).reverse else remDots acc rest)
    else if s = dotDotSeg then
      (if rest = [] then ([] :: acc.tail).reverse else remDots acc.tail rest)
    else remDots (s :: acc) rest

/-- Normalize a raw rooted path (leading `/`) by dot-segment removal.
Empty segments (`//`) are preserved, as the WHATWG parser does. -/
def normRootedPath (raw : List Char) : String :=
  match raw with
  | [] => "/"
  | _ :: tail => ⟨'/' :: chJoin '/' (remDots [] (chSplit '/' tail))⟩

/-- Parse an absolute URL (`new URL(s)` with one argument). -/
def parseAbs (s : String) : Option Url :=
  match schemeSplit s.data with
  | none => none
  | some (sch, rest) =>
    let scheme : String := ⟨lowerChars sch⟩
    match rest with
    | '/' :: '/' :: r1 =>
      let host := r1.takeWhile (fun c => c ≠ '/' ∧ c ≠ '?' ∧ c ≠ '#')
      let r2 := r1.drop host.length
      if specialScheme scheme ∧ host = [] then none
      else
        let rawPath := r2.takeWhile (fun c => c ≠ '?' ∧ c ≠ '#')
        let r3 := r2.drop rawPath.length
        let query := r3.takeWhile (fun c => c ≠ '#')
        let frag := r3.drop query.length
        let path : String :=
          if rawPath = [] then (if specialScheme scheme then "/" else "")
          else normRootedPath rawPath
        some { scheme := scheme, hasAuth := true, host := ⟨lowerChars host⟩,
               path := path, query := ⟨query⟩, frag := ⟨frag⟩ }
    | _ =>
      if specialScheme scheme then none
      else
        let rawPath := rest.takeWhile (fun c => c ≠ '?' ∧ c ≠ '#')
        let r3 := rest.drop rawPath.length
        let query := r3.takeWhile (fun c => c ≠ '#')
        let frag := r3.drop query.length
        some { scheme := scheme, hasAuth := false, host := "",
               path := ⟨rawPath⟩, query := ⟨query⟩, frag := ⟨frag⟩ }

/-- Directory part of a base path for relative-reference merging: up to
and including the last `/`. -/
def baseDirOf (p : List Char) : List Char :=
  ((p.reverse.dropWhile (fun c => c ≠ '/'))).reverse

/-- Parse a reference against a base (`new URL(ref, base)`). -/
def parseWith (ref base : String) : Option Url :=
  match parseAbs ref with
  | some u => some u
  | none =>
    match parseAbs base with
    | none => none
    | some b =>
      if ¬b.hasAuth then none
      else
        match ref.data with
        | [] => some { b with frag := "" }
        | '/' :: '/' :: _ => parseAbs ⟨b.scheme.data ++ ':' :: ref.data⟩
        | '/' :: _ =>
          let rawPath := ref.data.takeWhile (fun c => c ≠ '?' ∧ c ≠ '#')
          let r3 := ref.data.drop rawPath.length
          let query := r3.takeWhile (fun c => c ≠ '#')
          let frag := r3.drop query.length
          some { b with path := normRootedPath rawPath,
                        query := ⟨query⟩, frag := ⟨frag⟩ }
        | '?' :: _ =>
          let query := ref.data.takeWhile (fun c => c ≠ '#')
          let frag := ref.data.drop query.length
          some { b with query := ⟨query⟩, frag := ⟨frag⟩ }
        | '#' :: _ => some { b with frag := ⟨ref.data⟩ }
        | _ =>
          let rawPath := ref.data.takeWhile (fun c => c ≠ '?' ∧ c ≠ '#')
          let r3 := ref.data.drop rawPath.length
          let query := r3.takeWhile (fun c => c ≠ '#')
          let frag := r3.drop query.length
          some { b with path := normRootedPath (baseDirOf b.path.data ++ rawPath),
                        query := ⟨query⟩, frag := ⟨frag⟩ }

/-- Serialized form (`url.href`). -/
def Url.href (u : Url) : String :=
  ⟨u.scheme.data ++ ':' ::
    ((if u.hasAuth then '/' :: '/' :: u.host.data else []) ++
      u.path.data ++ u.query.data ++ u.frag.data)⟩

/-- Origin (`url.origin`): a scheme/host tuple for http(s), the literal
string `null` for non-special schemes. -/
def Url.origin (u : Url) : String :=
  if specialScheme u.scheme then ⟨u.scheme.data ++ ':' :: '/' :: '/' :: u.host.data⟩
  else "null"

/-- Pathname accessor (`url.pathname`). -/
def Url.pathname (u : Url) : String := u.path

/-- Search accessor (`url.search`, including the leading `?` when
non-empty). -/
def Url.search (u : Url) : String := u.query

end Broddy

namespace Broddy

/-! ### Path allocator (`assetPath`, src/index.js lines 554-596) -/

/-- Allocator state: `filePathMap` (url → final file path) and
`usedPaths` (all claimed path strings), as in the source. -/
structure AllocState where
  filePathMap : List (String × String)
  usedPaths : List String
deriving DecidableEq, Repr

/-- The empty state a run starts with. -/
def emptyAlloc : AllocState := ⟨[], []⟩

/-- Collision candidate `${nameWithoutExt}-${counter}${ext}`. -/
def collideCand (nameWithoutExt ext : String) (counter : Nat) : String :=
  ⟨nameWithoutExt.data ++ '-' :: (natToDec counter ++ ext.data)⟩

/-- The source's collision `while` loop: try counters `counter`,
`counter+1`, … until an unclaimed path is found.  The loop always
terminates in at most `usedPaths.length + 1` steps (pigeonhole, proved
below); the fuel argument makes that bound explicit. -/
def findFreeAux (name ext : String) (used : List String) : Nat → Nat → String
  | 0, counter => collideCand name ext counter
  | fuel + 1, counter =>
    let cand := collideCand name ext counter
    if cand ∈ used then findFreeAux name ext used fuel (counter + 1) else cand

/-- Query-string disambiguation (source lines 563-578): append
`-${Math.abs(hash).toString(36)}` before the extension if present,
after the path otherwise. -/
def hashSuffixed (p : String) (search : String) : String :=
  let hash := jsHash search
  let ext := pathExtname p
  if ext.data.length ≠ 0 then
    ⟨p.data.take (p.data.length - ext.data.length) ++ '-' :: (natToBase36 hash.natAbs ++ ext.data)⟩
  else
    ⟨p.data ++ '-' :: natToBase36 hash.natAbs⟩

/-- Source `assetPath`: return the cached path when present; otherwise
derive the path from the URL's pathname, disambiguate a query string by
hash, resolve collisions with the numeric-suffix loop, and record the
claim.  `none` models the `new URL(url, baseUrl)` `TypeError` (in which
case the JS function throws before mutating any state). -/
def assetPath (baseUrl : String) (st : AllocState) (url : String) :
    Option (String × AllocState) :=
  match alistGet st.filePathMap url with
  | some p => some (p, st)
  | none =>
    match parseWith url baseUrl with
    | none => none
    | some u =>
      let p0 := u.pathname
      let p1 := if u.search.data.length ≠ 0 then hashSuffixed p0 u.search else p0
      let p2 :=
        if p1 ∈ st.usedPaths then
          let ext := pathExtname p1
          let name : String :=
            if ext.data.length = 0 then ""
            else ⟨p1.data.take (p1.data.length - ext.data.length)⟩
          findFreeAux name ext st.usedPaths (st.usedPaths.length + 1) 1
        else p1
      some (p2, ⟨alistSet st.filePathMap url p2, p2 :: st.usedPaths⟩)

/-- A sequence of allocator calls; a call that would throw leaves the
state unchanged (the JS exception propagates before any mutation). -/
def allocFold (baseUrl : String) (st : AllocState) (urls : List String) : AllocState :=
  urls.foldl
    (fun s u =>
      match assetPath baseUrl s u with
      | some (_, s') => s'
      | none => s) st

end Broddy

namespace Broddy

theorem alistGet_alistSet_self (m : List (String × String)) (k v : String) :
    alistGet (alistSet m k v) k = some v := by
  induction m with
  | nil => simp [alistSet, alistGet]
  | cons hd tl ih =>
    obtain ⟨k', v'⟩ := hd
    simp only [alistSet]
    by_cases h : k' = k
    · simp [alistGet, h]
    · simp [alistGet, h, ih]

theorem alistGet_alistSet_ne (m : List (String × String)) (k v k' : String)
    (h : k' ≠ k) : alistGet (alistSet m k v) k' = alistGet m k' := by
  have hne : ¬k = k' := fun hh => h hh.symm
  induction m with
  | nil => simp [alistSet, alistGet, hne]
  | cons hd tl ih =>
    obtain ⟨k0, v0⟩ := hd
    simp only [alistSet]
    by_cases h0 : k0 = k
    · subst h0
      simp [alistGet, hne]
    · simp only [if_neg h0, alistGet]
      by_cases h1 : k0 = k'
      · simp [h1]
      · simp [h1, ih]

theorem collideCand_injective (name ext : String) :
    Function.Injective (collideCand name ext) := by
  intro a b h
  simp only [collideCand] at h
  have hdata : name.data ++ '-' :: (natToDec a ++ ext.data) =
      name.data ++ '-' :: (natToDec b ++ ext.data) := congrArg String.data h
  have h1 := List.append_cancel_left hdata
  have h2 : natToDec a ++ ext.data = natToDec b ++ ext.data := by
    injection h1
  have hlen : (natToDec a).length = (natToDec b).length := by
    have := congrArg List.length h2
    simp at this
    omega
  have := (List.append_inj h2 hlen).1
  exact natToDec_injective this

theorem findFreeAux_not_mem (name ext : String) (used : List String) :
    ∀ fuel counter,
      (∃ i < fuel, collideCand name ext (counter + i) ∉ used) →
      findFreeAux name ext used fuel counter ∉ used := by
  intro fuel
  induction fuel with
  | zero =>
    intro counter ⟨i, hi, _⟩
    omega
  | succ n ih =>
    intro counter ⟨i, hi, hfree⟩
    simp only [findFreeAux]
    by_cases hmem : collideCand name ext counter ∈ used
    · simp only [if_pos hmem]
      apply ih
      rcases Nat.eq_zero_or_pos i with h0 | hpos
      · subst h0; simp at hfree; exact absurd hmem hfree
      · exact ⟨i - 1, by omega, by
          have : counter + 1 + (i - 1) = counter + i := by omega
          rw [this]; exact hfree⟩
    · simp only [if_neg hmem]
      exact hmem

theorem exists_free_cand (name ext : String) (used : List String) :
    ∃ i < used.length + 1, collideCand name ext (1 + i) ∉ used := by
  by_contra hall
  push_neg at hall
  have hsub : ((List.range (used.length + 1)).map
      (fun i => collideCand name ext (1 + i))) ⊆ used := by
    intro x hx
    simp only [List.mem_map, List.mem_range] at hx
    obtain ⟨i, hi, rfl⟩ := hx
    exact hall i hi
  have hnd : ((List.range (used.length + 1)).map
      (fun i => collideCand name ext (1 + i))).Nodup := by
    refine List.Nodup.map ?_ (List.nodup_range _)
    intro a b hab
    have := collideCand_injective name ext hab
    omega
  have hcard1 : ((List.range (used.length + 1)).map
      (fun i => collideCand name ext (1 + i))).toFinset.card = used.length + 1 := by
    rw [List.toFinset_card_of_nodup hnd]
    simp
  have hsubf : ((List.range (used.length + 1)).map
      (fun i => collideCand name ext (1 + i))).toFinset ⊆ used.toFinset := by
    intro x hx
    rw [List.mem_toFinset] at hx ⊢
    exact hsub hx
  have := Finset.card_le_card hsubf
  have hle := List.toFinset_card_le used
  omega

theorem assetPath_fresh (baseUrl : String) (st : AllocState) (url p : String)
    (st' : AllocState)
    (hnew : alistGet st.filePathMap url = none)
    (h : assetPath baseUrl st url = some (p, st')) : p ∉ st.usedPaths := by
  simp only [assetPath, hnew] at h
  cases hparse : parseWith url baseUrl with
  | none => rw [hparse] at h; exact absurd h (by simp)
  | some u =>
    rw [hparse] at h
    simp only [Option.some.injEq, Prod.mk.injEq] at h
    obtain ⟨hp, _⟩ := h
    subst hp
    set p1 := if u.search.data.length ≠ 0 then hashSuffixed u.pathname u.search
      else u.pathname with hp1
    by_cases hmem : p1 ∈ st.usedPaths
    · simp only [if_pos hmem]
      apply findFreeAux_not_mem
      obtain ⟨i, hi, hfree⟩ := exists_free_cand
        (if (pathExtname p1).data.length = 0 then ""
          else ⟨p1.data.take (p1.data.length - (pathExtname p1).data.length)⟩)
        (pathExtname p1) st.usedPaths
      exact ⟨i, hi, hfree⟩
    · simp only [if_neg hmem]
      exact hmem

/-- Soundness invariant of the allocator state: every recorded path is
claimed in `usedPaths`, and no two URLs share a recorded path. -/
def AllocInv (st : AllocState) : Prop :=
  (∀ k p, alistGet st.filePathMap k = some p → p ∈ st.usedPaths) ∧
  (∀ k1 k2 p, alistGet st.filePathMap k1 = some p →
      alistGet st.filePathMap k2 = some p → k1 = k2)

theorem allocInv_empty : AllocInv emptyAlloc := by
  constructor
  · intro k p h; simp [emptyAlloc, alistGet] at h
  · intro k1 k2 p h1 h2; simp [emptyAlloc, alistGet] at h1

theorem allocInv_step (baseUrl : String) (st : AllocState) (url : String)
    (hinv : AllocInv st) (p : String) (st' : AllocState)
    (h : assetPath baseUrl st url = some (p, st')) : AllocInv st' := by
  cases hc : alistGet st.filePathMap url with
  | some q =>
    have : st' = st := by
      simp only [assetPath, hc, Option.some.injEq, Prod.mk.injEq] at h
      exact h.2.symm
    rw [this]; exact hinv
  | none =>
    have hfresh := assetPath_fresh baseUrl st url p st' hc h
    simp only [assetPath, hc] at h
    cases hparse : parseWith url baseUrl with
    | none => rw [hparse] at h; exact absurd h (by simp)
    | some u =>
      rw [hparse] at h
      simp only [Option.some.injEq, Prod.mk.injEq] at h
      obtain ⟨hp, hst⟩ := h
      subst hst
      constructor
      · intro k q hk
        by_cases hku : k = url
        · subst hku
          rw [alistGet_alistSet_self] at hk
          simp only [Option.some.injEq] at hk
          subst hk
          rw [hp]
          exact List.mem_cons_self _ _
        · rw [alistGet_alistSet_ne _ _ _ _ hku] at hk
          exact List.mem_cons_of_mem _ (hinv.1 k q hk)
      · intro k1 k2 q h1 h2
        by_cases h1u : k1 = url <;> by_cases h2u : k2 = url
        · rw [h1u, h2u]
        · subst h1u
          rw [alistGet_alistSet_self] at h1
          rw [alistGet_alistSet_ne _ _ _ _ h2u] at h2
          simp only [Option.some.injEq] at h1
          have := hinv.1 k2 q h2
          rw [← h1, hp] at this
          exact absurd this hfresh
        · subst h2u
          rw [alistGet_alistSet_self] at h2
          rw [alistGet_alistSet_ne _ _ _ _ h1u] at h1
          simp only [Option.some.injEq] at h2
          have := hinv.1 k1 q h1
          rw [← h2, hp] at this
          exact absurd this hfresh
        · rw [alistGet_alistSet_ne _ _ _ _ h1u] at h1
          rw [alistGet_alistSet_ne _ _ _ _ h2u] at h2
          exact hinv.2 k1 k2 q h1 h2

theorem allocInv_fold (baseUrl : String) (st : AllocState) (urls : List String)
    (hinv : AllocInv st) : AllocInv (allocFold baseUrl st urls) := by
  induction urls generalizing st with
  | nil => exact hinv
  | cons u rest ih =>
    simp only [allocFold, List.foldl]
    cases h : assetPath baseUrl st u with
    | none =>
      exact ih st hinv
    | some r =>
      obtain ⟨p, st'⟩ := r
      exact ih st' (allocInv_step baseUrl st u hinv p st' h)

end Broddy

namespace Broddy

/-- C2: for every pair of distinct asset URLs that are both successfully
allocated a local path during a run (any sequence of allocator calls
starting from the empty state), the allocated paths differ — every local
path is claimed by exactly one URL. -/
theorem assetPath_collision_free (baseUrl : String) (urls : List String)
    (u v pu pv : String) (hne : u ≠ v)
    (hu : alistGet (allocFold baseUrl emptyAlloc urls).filePathMap u = some pu)
    (hv : alistGet (allocFold baseUrl emptyAlloc urls).filePathMap v = some pv) :
    pu ≠ pv := by
  intro heq
  have hinv := allocInv_fold baseUrl emptyAlloc urls allocInv_empty
  subst heq
  exact hne (hinv.2 u v pu hu hv)

/-- Witness for C2 at the spec's scenario: `https://x.test/img?a=1` and
`https://x.test/img?a=2` receive the distinct local paths `/img-169li`
and `/img-169lj` (distinct query hashes), so neither overwrites the
other. -/
theorem assetPath_collision_free_witness :
    alistGet (allocFold "https://x.test" emptyAlloc
        ["https://x.test/img?a=1", "https://x.test/img?a=2"]).filePathMap
      "https://x.test/img?a=1" = some "/img-169li" ∧
    alistGet (allocFold "https://x.test" emptyAlloc
        ["https://x.test/img?a=1", "https://x.test/img?a=2"]).filePathMap
      "https://x.test/img?a=2" = some "/img-169lj" ∧
    ("/img-169li" : String) ≠ "/img-169lj" :=
  ⟨by decide, by decide,
    assetPath_collision_free "https://x.test"
      ["https://x.test/img?a=1", "https://x.test/img?a=2"]
      "https://x.test/img?a=1" "https://x.test/img?a=2"
      "/img-169li" "/img-169lj" (by decide) (by decide) (by decide)⟩

theorem assetPath_lookup_after (baseUrl : String) (st : AllocState)
    (u p : String) (st1 : AllocState)
    (h : assetPath baseUrl st u = some (p, st1)) :
    alistGet st1.filePathMap u = some p := by
  cases hc : alistGet st.filePathMap u with
  | some q =>
    simp only [assetPath, hc, Option.some.injEq, Prod.mk.injEq] at h
    rw [← h.2, hc, h.1]
  | none =>
    simp only [assetPath, hc] at h
    cases hparse : parseWith u baseUrl with
    | none => rw [hparse] at h; exact absurd h (by simp)
    | some w =>
      rw [hparse] at h
      simp only [Option.some.injEq, Prod.mk.injEq] at h
      rw [← h.2, ← h.1]
      exact alistGet_alistSet_self _ _ _

theorem assetPath_preserves_lookup (baseUrl : String) (st : AllocState)
    (u p v : String)
    (h : alistGet st.filePathMap u = some p) :
    alistGet (match assetPath baseUrl st v with
      | some (_, s') => s'
      | none => st).filePathMap u = some p := by
  cases hc : alistGet st.filePathMap v with
  | some q =>
    simp only [assetPath, hc]
    exact h
  | none =>
    have hvu : v ≠ u := by
      intro heq; rw [heq, h] at hc; exact Option.noConfusion hc
    simp only [assetPath, hc]
    cases hparse : parseWith v baseUrl with
    | none => exact h
    | some w =>
      simp only
      rw [alistGet_alistSet_ne _ _ _ _ (fun hh => hvu hh.symm)]
      exact h

theorem allocFold_preserves_lookup (baseUrl : String) (st : AllocState)
    (u p : String) (others : List String)
    (h : alistGet st.filePathMap u = some p) :
    alistGet (allocFold baseUrl st others).filePathMap u = some p := by
  induction others generalizing st with
  | nil => exact h
  | cons v rest ih =>
    simp only [allocFold, List.foldl]
    have step := assetPath_preserves_lookup baseUrl st u p v h
    cases hc : assetPath baseUrl st v with
    | none =>
      rw [hc] at step
      exact ih st step
    | some r =>
      obtain ⟨q, st'⟩ := r
      rw [hc] at step
      exact ih st' step

/-- C3: once the allocator assigns URL `u` the path `p`, calling it on
`u` again at any later point — after any interleaved allocations of other
URLs — returns exactly `p` again and leaves the state unchanged: the
assignment is stable for the remainder of the run. -/
theorem assetPath_idempotent (baseUrl : String) (st : AllocState)
    (u p : String) (st1 : AllocState)
    (h : assetPath baseUrl st u = some (p, st1)) (others : List String) :
    assetPath baseUrl (allocFold baseUrl st1 others) u =
      some (p, allocFold baseUrl st1 others) := by
  have h1 := assetPath_lookup_after baseUrl st u p st1 h
  have h2 := allocFold_preserves_lookup baseUrl st1 u p others h1
  simp only [assetPath, h2]

/-- Witness for C3: allocating `https://x.test/app.js`, then two other
URLs (one of which collides on the same pathname), then asking for
`app.js` again still yields the original `/app.js`. -/
theorem assetPath_idempotent_witness :
    (assetPath "https://x.test"
      (allocFold "https://x.test"
        ((assetPath "https://x.test" emptyAlloc "https://x.test/app.js").getD
            ("", emptyAlloc)).2
        ["https://x.test/img", "https://x.test/app.js?v=2"])
      "https://x.test/app.js").map Prod.fst = some "/app.js" := by
  have h := assetPath_idempotent "https://x.test" emptyAlloc
    "https://x.test/app.js" "/app.js"
    ((assetPath "https://x.test" emptyAlloc "https://x.test/app.js").getD
        ("", emptyAlloc)).2
    (by decide) ["https://x.test/img", "https://x.test/app.js?v=2"]
  rw [h]
  decide

end Broddy

namespace Broddy

/-! ### Relative-path round trip (claim C4) -/

/-- A path segment is good when it is nonempty, not a dot segment, and
slash-free. -/
def goodSegB (s : List Char) : Bool :=
  s ≠ [] ∧ s ≠ dotSeg ∧ s ≠ dotDotSeg ∧ '/' ∉ s

/-- Normalized absolute path: `/` followed by slash-joined good
segments.  Allocated paths of URLs without empty path segments are of
this form. -/
def wfAbsPath (p : String) : Bool :=
  match p.data with
  | c :: rest => decide (c = '/') && (chSplit '/' rest).all goodSegB
  | [] => false

theorem chJoin_cons_ne (sep : Char) (a : List Char) (rest : List (List Char))
    (h : rest ≠ []) : chJoin sep (a :: rest) = a ++ sep :: chJoin sep rest := by
  cases rest with
  | nil => exact absurd rfl h
  | cons b bs => rfl

theorem chSplit_cons_sep (sep : Char) (cs : List Char) :
    chSplit sep (sep :: cs) = [] :: chSplit sep cs := by
  simp [chSplit]

theorem chSplit_cons_ne (sep c : Char) (cs : List Char) (p : List Char)
    (ps : List (List Char)) (h : ¬c = sep) (hs : chSplit sep cs = p :: ps) :
    chSplit sep (c :: cs) = (c :: p) :: ps := by
  simp only [chSplit, if_neg h, hs]

theorem chJoin_append_last (sep : Char) (S : List (List Char)) (s : List Char)
    (hne : S ≠ []) : chJoin sep (S ++ [s]) = chJoin sep S ++ sep :: s := by
  induction S with
  | nil => exact absurd rfl hne
  | cons a as ih =>
    cases as with
    | nil => simp [chJoin]
    | cons b bs =>
      rw [List.cons_append, chJoin_cons_ne sep a ((b :: bs) ++ [s]) (by simp),
        ih (by simp), chJoin_cons_ne sep a (b :: bs) (by simp)]
      simp

theorem chSplit_append (sep : Char) (a b : List Char) :
    chSplit sep (a ++ sep :: b) = chSplit sep a ++ chSplit sep b := by
  induction a with
  | nil =>
    rw [List.nil_append, chSplit_cons_sep]
    rfl
  | cons c cs ih =>
    by_cases h : c = sep
    · subst h
      rw [List.cons_append, chSplit_cons_sep, chSplit_cons_sep, ih, List.cons_append]
    · have hne := chSplit_ne_nil sep cs
      cases hs : chSplit sep cs with
      | nil => exact absurd hs hne
      | cons p ps =>
        have hs2 : chSplit sep (cs ++ sep :: b) = p :: (ps ++ chSplit sep b) := by
          rw [ih, hs, List.cons_append]
        rw [List.cons_append, chSplit_cons_ne sep c _ _ _ h hs2,
          chSplit_cons_ne sep c _ _ _ h hs, List.cons_append]

theorem chJoin_good_ne_nil (S : List (List Char)) (hne : S ≠ [])
    (hgood : ∀ s ∈ S, goodSegB s) : chJoin '/' S ≠ [] := by
  cases S with
  | nil => exact absurd rfl hne
  | cons s rest =>
    have hs : goodSegB s = true := hgood s (by simp)
    simp only [goodSegB, Bool.and_eq_true, decide_eq_true_eq] at hs
    cases rest with
    | nil =>
      simpa [chJoin] using hs.1
    | cons b bs =>
      rw [chJoin_cons_ne _ _ _ (by simp)]
      intro hh
      have := congrArg List.length hh
      simp at this

theorem elimDotsGo_cons_empty (acc : List (List Char)) (rest : List (List Char)) :
    elimDotsGo acc ([] :: rest) = elimDotsGo acc rest := by
  simp [elimDotsGo]

theorem elimDotsGo_cons_dots (acc : List (List Char)) (rest : List (List Char)) :
    elimDotsGo acc (dotDotSeg :: rest) = elimDotsGo acc.tail rest := by
  have h1 : ¬(dotDotSeg = [] ∨ dotDotSeg = dotSeg) := by simp [dotDotSeg, dotSeg]
  simp [elimDotsGo, h1]

theorem elimDotsGo_cons_good (acc : List (List Char)) (s : List Char)
    (rest : List (List Char)) (h : goodSegB s) :
    elimDotsGo acc (s :: rest) = elimDotsGo (s :: acc) rest := by
  simp only [goodSegB, Bool.and_eq_true, decide_eq_true_eq] at h
  have h1 : ¬(s = [] ∨ s = dotSeg) := by simp [h.1, h.2.1]
  simp [elimDotsGo, h1, h.2.2.1]

theorem elimDotsGo_good (acc : List (List Char)) (S rest : List (List Char))
    (hgood : ∀ s ∈ S, goodSegB s) :
    elimDotsGo acc (S ++ rest) = elimDotsGo (S.reverse ++ acc) rest := by
  induction S generalizing acc with
  | nil => simp
  | cons s ss ih =>
    rw [List.cons_append, elimDotsGo_cons_good acc s _ (hgood s (by simp)),
      ih (s :: acc) (fun x hx => hgood x (by simp [hx]))]
    simp

theorem elimDotsGo_dots (acc : List (List Char)) (u : Nat)
    (rest : List (List Char)) :
    elimDotsGo acc (List.replicate u dotDotSeg ++ rest) =
      elimDotsGo (acc.drop u) rest := by
  induction u generalizing acc with
  | zero => simp
  | succ n ih =>
    rw [List.replicate_succ, List.cons_append, elimDotsGo_cons_dots, ih acc.tail]
    congr 1
    rw [← List.drop_one, List.drop_drop]
    congr 1
    omega

theorem commonCount_le_left (a b : List (List Char)) :
    commonCount a b ≤ a.length := by
  induction a generalizing b with
  | nil => simp [commonCount]
  | cons x xs ih =>
    cases b with
    | nil => simp [commonCount]
    | cons y ys =>
      simp only [commonCount]
      by_cases h : x = y
      · simp only [if_pos h, List.length_cons]
        have := ih ys
        omega
      · simp [if_neg h]

theorem commonCount_take (a b : List (List Char)) :
    a.take (commonCount a b) = b.take (commonCount a b) := by
  induction a generalizing b with
  | nil => simp [commonCount]
  | cons x xs ih =>
    cases b with
    | nil => simp [commonCount]
    | cons y ys =>
      by_cases h : x = y
      · subst h
        have hc : commonCount (x :: xs) (x :: ys) = commonCount xs ys + 1 := by
          simp [commonCount]
        rw [hc, List.take_succ_cons, List.take_succ_cons, ih ys]
      · simp [commonCount, if_neg h]
end Broddy

namespace Broddy

theorem commonCount_le_right (a b : List (List Char)) :
    commonCount a b ≤ b.length := by
  induction a generalizing b with
  | nil => simp [commonCount]
  | cons x xs ih =>
    cases b with
    | nil => simp [commonCount]
    | cons y ys =>
      simp only [commonCount]
      by_cases h : x = y
      · simp only [if_pos h, List.length_cons]
        have := ih ys
        omega
      · simp [if_neg h]

theorem elimDotsGo_nil (acc : List (List Char)) : elimDotsGo acc [] = acc.reverse := rfl

theorem chSplit_wf (S : List (List Char)) (hne : S ≠ [])
    (hgood : ∀ s ∈ S, goodSegB s) :
    chSplit '/' ('/' :: chJoin '/' S) = [] :: S := by
  rw [chSplit_cons_sep]
  congr 1
  apply chSplit_chJoin _ _ hne
  intro p hp
  have := hgood p hp
  simp only [goodSegB, Bool.and_eq_true, decide_eq_true_eq] at this
  exact this.2.2.2

theorem resolveSegsList_wf (S : List (List Char)) (hne : S ≠ [])
    (hgood : ∀ s ∈ S, goodSegB s) :
    resolveSegsList ⟨'/' :: chJoin '/' S⟩ = S := by
  show elimDotsGo [] (chSplit '/' ('/' :: chJoin '/' S)) = S
  rw [chSplit_wf S hne hgood, elimDotsGo_cons_empty]
  have := elimDotsGo_good [] S [] hgood
  simp only [List.append_nil] at this
  rw [this, elimDotsGo_nil]
  simp

theorem resolveSegsList_root : resolveSegsList "/" = [] := by decide

theorem dropWhile_all_false (p : Char → Bool) (l : List Char)
    (h : ∀ x ∈ l, p x = false) : List.dropWhile p l = l := by
  cases l with
  | nil => rfl
  | cons c cs => simp [List.dropWhile, h c (by simp)]

theorem pathDirname_wf (S : List (List Char)) (hne : S ≠ [])
    (hgood : ∀ s ∈ S, goodSegB s) :
    pathDirname ⟨'/' :: chJoin '/' S⟩ =
      if S.dropLast = [] then "/" else ⟨'/' :: chJoin '/' S.dropLast⟩ := by
  obtain ⟨sl, S₁, rfl⟩ : ∃ sl S₁, S = S₁ ++ [sl] := by
    refine ⟨S.getLast hne, S.dropLast, ?_⟩
    rw [List.dropLast_append_getLast hne]
  have hsl : goodSegB sl = true := hgood sl (by simp)
  simp only [goodSegB, Bool.and_eq_true, decide_eq_true_eq] at hsl
  have hslne : sl ≠ [] := hsl.1
  have hslnoslash : '/' ∉ sl := hsl.2.2.2
  cases hS₁ : S₁ with
  | nil =>
    subst hS₁
    simp only [List.nil_append, List.dropLast_single, if_pos rfl]
    show pathDirname ⟨'/' :: chJoin '/' [sl]⟩ = "/"
    simp only [chJoin, pathDirname]
    have h1 : sl.reverse.dropWhile (fun c => c = '/') = sl.reverse := by
      apply dropWhile_all_false
      intro x hx
      simp only [List.mem_reverse] at hx
      have hxne : x ≠ '/' := fun hEq => hslnoslash (hEq ▸ hx)
      simp [hxne]
    have h2 : sl.reverse.dropWhile (fun c => ¬(c = '/')) = [] := by
      rw [List.dropWhile_eq_nil_iff]
      intro x hx
      simp only [List.mem_reverse] at hx
      have hxne : x ≠ '/' := fun hEq => hslnoslash (hEq ▸ hx)
      simp [hxne]
    rw [h1, h2]
    simp
  | cons a as =>
    rw [← hS₁]
    have hS₁ne : S₁ ≠ [] := by rw [hS₁]; simp
    have hgood₁ : ∀ s ∈ S₁, goodSegB s :=
      fun s hs => hgood s (by simp [hs])
    have hjoin : chJoin '/' (S₁ ++ [sl]) = chJoin '/' S₁ ++ '/' :: sl :=
      chJoin_append_last '/' S₁ sl hS₁ne
    have hjne : chJoin '/' S₁ ≠ [] := chJoin_good_ne_nil S₁ hS₁ne hgood₁
    simp only [hjoin, pathDirname]
    have hrev : (chJoin '/' S₁ ++ '/' :: sl).reverse =
        sl.reverse ++ '/' :: (chJoin '/' S₁).reverse := by
      simp
    rw [hrev]
    have h1 : (sl.reverse ++ '/' :: (chJoin '/' S₁).reverse).dropWhile
        (fun c => c = '/') = sl.reverse ++ '/' :: (chJoin '/' S₁).reverse := by
      cases hr : sl.reverse with
      | nil => exact absurd (by simpa using congrArg List.reverse hr) hslne
      | cons c cs =>
        have hc : c ∈ sl := by
          have : c ∈ sl.reverse := by rw [hr]; simp
          simpa using this
        have hcne : c ≠ '/' := fun hEq => hslnoslash (hEq ▸ hc)
        rw [List.cons_append]
        simp [List.dropWhile, hcne]
    rw [h1]
    have h2 : (sl.reverse ++ '/' :: (chJoin '/' S₁).reverse).dropWhile
        (fun c => ¬(c = '/')) = '/' :: (chJoin '/' S₁).reverse := by
      rw [List.dropWhile_append]
      have he : (sl.reverse.dropWhile (fun c => ¬(c = '/'))) = [] := by
        rw [List.dropWhile_eq_nil_iff]
        intro x hx
        simp only [List.mem_reverse] at hx
        have hxne : x ≠ '/' := fun hEq => hslnoslash (hEq ▸ hx)
        simp [hxne]
      rw [he]
      simp [List.dropWhile]
    rw [h2]
    have hdl : (S₁ ++ [sl]).dropLast = S₁ := by simp
    rw [hdl, if_neg hS₁ne]
    have hjlen : (chJoin '/' S₁).length ≠ 0 := by
      intro h0
      exact hjne (List.eq_nil_of_length_eq_zero h0)
    have htake : List.take (('/' :: (chJoin '/' S₁).reverse).length)
        (String.data ⟨'/' :: (chJoin '/' S₁ ++ '/' :: sl)⟩) = '/' :: chJoin '/' S₁ := by
      show List.take ((chJoin '/' S₁).reverse.length + 1)
        ('/' :: (chJoin '/' S₁ ++ '/' :: sl)) = '/' :: chJoin '/' S₁
      rw [List.length_reverse, List.take_succ_cons]
      congr 1
      exact List.take_left _ _
    simp only [List.isEmpty_cons, Bool.false_eq_true, if_false, List.length_cons,
      List.length_reverse, htake]
    rw [if_neg (fun hcon => by omega)]
    congr 1
    rw [List.take_succ_cons]
    congr 1
    exact List.take_left _ _

end Broddy

namespace Broddy

theorem getRelativePath_eq (f t : String) :
    getRelativePath f t = pathRelative (pathDirname f) t := by
  unfold getRelativePath
  have h := chJoin_chSplit '/' (pathRelative (pathDirname f) t).data
  exact congrArg String.mk h

theorem chJoin_head_ne_slash (R : List (List Char))
    (hgood : ∀ r ∈ R, r ≠ [] ∧ '/' ∉ r) :
    ∀ rest, chJoin '/' R ≠ '/' :: rest := by
  intro rest hh
  cases R with
  | nil => exact List.noConfusion hh
  | cons r rs =>
    have hr := hgood r (by simp)
    obtain ⟨c, cr, hrc⟩ : ∃ c cr, r = c :: cr := by
      cases r with
      | nil => exact absurd rfl hr.1
      | cons c cr => exact ⟨c, cr, rfl⟩
    have hcne : c ≠ '/' := fun hEq => hr.2 (by rw [hrc, hEq]; simp)
    cases rs with
    | nil =>
      have h2 : c :: cr = '/' :: rest := by rw [← hrc]; exact hh
      injection h2 with h1 h1r
      exact hcne h1
    | cons q qs =>
      have h2 : (c :: cr) ++ '/' :: chJoin '/' (q :: qs) = '/' :: rest := by
        rw [← hrc]; exact hh
      rw [List.cons_append] at h2
      injection h2 with h1 h1r
      exact hcne h1

theorem mem_chJoin_of_mem_part (sep : Char) :
    ∀ (R : List (List Char)) (r : List Char), r ∈ R → ∀ ch ∈ r, ch ∈ chJoin sep R := by
  intro R
  induction R with
  | nil =>
    intro r hr
    exact absurd hr (by simp)
  | cons a as ih =>
    intro r hr ch hch
    cases as with
    | nil =>
      simp only [List.mem_singleton] at hr
      subst hr
      exact hch
    | cons b bs =>
      rw [chJoin_cons_ne _ _ _ (by simp), List.mem_append, List.mem_cons]
      rcases List.mem_cons.mp hr with h | h
      · exact Or.inl (h ▸ hch)
      · exact Or.inr (Or.inr (ih r h ch hch))

theorem mem_of_mem_chJoin (sep : Char) :
    ∀ (R : List (List Char)) (ch : Char), ch ∈ chJoin sep R →
      ch = sep ∨ ∃ r ∈ R, ch ∈ r := by
  intro R
  induction R with
  | nil =>
    intro ch hch
    exact absurd hch (by simp [chJoin])
  | cons a as ih =>
    intro ch hch
    cases as with
    | nil => exact Or.inr ⟨a, by simp, hch⟩
    | cons b bs =>
      rw [chJoin_cons_ne _ _ _ (by simp), List.mem_append, List.mem_cons] at hch
      rcases hch with h | h | h
      · exact Or.inr ⟨a, by simp, h⟩
      · exact Or.inl h
      · rcases ih ch h with h3 | ⟨r, hmem, hcr⟩
        · exact Or.inl h3
        · exact Or.inr ⟨r, by simp [hmem], hcr⟩
end Broddy

namespace Broddy

theorem wf_decomp (p : String) (hp : wfAbsPath p = true) :
    ∃ S, S ≠ [] ∧ (∀ s ∈ S, goodSegB s) ∧ p.data = '/' :: chJoin '/' S := by
  obtain ⟨pd⟩ := p
  cases pd with
  | nil => exact absurd hp (by simp [wfAbsPath])
  | cons c rest =>
    have hp2 : (decide (c = '/') && (chSplit '/' rest).all goodSegB) = true := hp
    simp only [Bool.and_eq_true, decide_eq_true_eq] at hp2
    obtain ⟨hc, hall⟩ := hp2
    subst hc
    refine ⟨chSplit '/' rest, chSplit_ne_nil _ _, ?_, ?_⟩
    · intro s hs
      exact List.all_eq_true.mp hall s hs
    · show '/' :: rest = '/' :: chJoin '/' (chSplit '/' rest)
      rw [chJoin_chSplit]

theorem elimDots_merge (D St : List (List Char))
    (hDgood : ∀ s ∈ D, goodSegB s) (hStgood : ∀ s ∈ St, goodSegB s) :
    elimDotsGo [] (D ++ (List.replicate (D.length - commonCount D St) dotDotSeg ++
      St.drop (commonCount D St))) = St := by
  rw [elimDotsGo_good [] D _ hDgood, List.append_nil, elimDotsGo_dots]
  have hgd : ∀ s ∈ St.drop (commonCount D St), goodSegB s :=
    fun s hs => hStgood s (List.drop_subset _ _ hs)
  have h1 : elimDotsGo (D.reverse.drop (D.length - commonCount D St))
      (St.drop (commonCount D St)) =
      elimDotsGo ((St.drop (commonCount D St)).reverse ++
        D.reverse.drop (D.length - commonCount D St)) [] := by
    have := elimDotsGo_good (D.reverse.drop (D.length - commonCount D St))
      (St.drop (commonCount D St)) [] hgd
    simpa using this
  rw [h1, elimDotsGo_nil, List.reverse_append, List.reverse_reverse]
  have h2 : (D.reverse.drop (D.length - commonCount D St)).reverse =
      D.take (commonCount D St) := by
    rw [List.reverse_drop, List.reverse_reverse, List.length_reverse]
    congr 1
    have := commonCount_le_left D St
    omega
  rw [h2, commonCount_take, List.take_append_drop]

/-- C4 (amended): for files and targets whose allocated local paths are
normalized absolute paths (no empty, `.` or `..` segments — i.e. URL
pathnames without `//` runs or trailing slashes), the relative path the
rewriter computes round-trips: resolving `getRelativePath f t` against
`dirname f` yields exactly `t`; moreover the relative path is built only
from forward slashes, dots, and characters of the target path. -/
theorem getRelativePath_roundtrip (f t : String)
    (hf : wfAbsPath f = true) (ht : wfAbsPath t = true) :
    pathResolve2 (pathDirname f) (getRelativePath f t) = t ∧
    (∀ ch ∈ (getRelativePath f t).data, ch = '/' ∨ ch = '.' ∨ ch ∈ t.data) := by
  obtain ⟨Sf, hSfne, hSfgood, hfd⟩ := wf_decomp f hf
  obtain ⟨St, hStne, hStgood, htd⟩ := wf_decomp t ht
  have hfeq : f = ⟨'/' :: chJoin '/' Sf⟩ := by
    cases f; exact congrArg String.mk hfd
  have hteq : t = ⟨'/' :: chJoin '/' St⟩ := by
    cases t; exact congrArg String.mk htd
  set D := Sf.dropLast with hD
  have hDgood : ∀ s ∈ D, goodSegB s := by
    intro s hs
    exact hSfgood s (List.dropLast_subset _ hs)
  have hdirsegs : resolveSegsList (pathDirname f) = D := by
    rw [hfeq, pathDirname_wf Sf hSfne hSfgood]
    by_cases hDnil : Sf.dropLast = []
    · rw [if_pos hDnil, resolveSegsList_root, hD, hDnil]
    · rw [if_neg hDnil]
      exact resolveSegsList_wf _ hDnil hDgood
  have htsegs : resolveSegsList t = St := by
    rw [hteq]
    exact resolveSegsList_wf _ hStne hStgood
  set c := commonCount D St with hc
  set u := D.length - c with hu
  set R := List.replicate u dotDotSeg ++ St.drop c with hR
  have hrel : getRelativePath f t = ⟨chJoin '/' R⟩ := by
    rw [getRelativePath_eq]
    unfold pathRelative
    rw [hdirsegs, htsegs]
  have hRgood : ∀ r ∈ R, r ≠ [] ∧ '/' ∉ r := by
    intro r hr
    rcases List.mem_append.mp hr with h | h
    · have : r = dotDotSeg := List.eq_of_mem_replicate h
      subst this
      exact ⟨by simp [dotDotSeg], by simp [dotDotSeg]⟩
    · have hg := hStgood r (List.drop_subset _ _ h)
      simp only [goodSegB, Bool.and_eq_true, decide_eq_true_eq] at hg
      exact ⟨hg.1, hg.2.2.2⟩
  constructor
  · rw [hrel]
    unfold pathResolve2
    split
    · rename_i rest heq
      exact absurd heq (chJoin_head_ne_slash R hRgood rest)
    · show pathResolve1 ⟨(pathDirname f).data ++ '/' :: chJoin '/' R⟩ = t
      have hsegs : resolveSegsList
          ⟨(pathDirname f).data ++ '/' :: chJoin '/' R⟩ = St := by
        show elimDotsGo []
          (chSplit '/' ((pathDirname f).data ++ '/' :: chJoin '/' R)) = St
        rw [chSplit_append]
        have hsplitR : chSplit '/' (chJoin '/' R) =
            if R = [] then [[]] else R := by
          by_cases hRnil : R = []
          · rw [if_pos hRnil, hRnil]
            rfl
          · rw [if_neg hRnil]
            exact chSplit_chJoin '/' R hRnil (fun p hp => (hRgood p hp).2)
        have hsplitD : chSplit '/' (pathDirname f).data =
            if D = [] then [[], []] else [] :: D := by
          rw [hfeq, pathDirname_wf Sf hSfne hSfgood]
          by_cases hDnil : Sf.dropLast = []
          · rw [if_pos hDnil]
            rw [hD, if_pos hDnil]
            rfl
          · rw [if_neg hDnil, if_neg (hD ▸ hDnil)]
            exact chSplit_wf _ hDnil hDgood
        rw [hsplitD, hsplitR]
        by_cases hDnil : D = []
        · have hc0 : c = 0 := by
            rw [hc, hDnil]
            rfl
          have hRSt : R = St := by
            rw [hR, hu, hc0, hDnil]
            simp
          rw [if_pos hDnil, if_neg (hRSt ▸ hStne)]
          rw [show ([[], []] : List (List Char)) ++ R = [] :: [] :: R from rfl,
            elimDotsGo_cons_empty, elimDotsGo_cons_empty, hRSt]
          have := elimDots_merge [] St (by simp) hStgood
          simpa using this
        · rw [if_neg hDnil]
          by_cases hRnil : R = []
          · rw [if_pos hRnil]
            have hu0 : List.replicate u dotDotSeg = [] ∧ St.drop c = [] := by
              constructor
              · cases hrep : List.replicate u dotDotSeg with
                | nil => rfl
                | cons a as =>
                  rw [hR, hrep] at hRnil
                  exact absurd hRnil (by simp)
              · cases hdr : St.drop c with
                | nil => rfl
                | cons a as =>
                  rw [hR, hdr] at hRnil
                  exact absurd hRnil (by simp)
            have hcD : c = D.length := by
              have h1 := commonCount_le_left D St
              have h2 : u = 0 := by
                have := congrArg List.length hu0.1
                simpa using this
              omega
            have hcSt : c = St.length := by
              have h1 := commonCount_le_right D St
              have h2 := congrArg List.length hu0.2
              simp only [List.length_drop, List.length_nil] at h2
              omega
            have hDSt : D = St := by
              have h1 : D.take c = D := by
                rw [hcD]
                exact List.take_length ..
              have h2 : St.take c = St := by
                rw [hcSt]
                exact List.take_length ..
              rw [← h1, commonCount_take, h2]
            rw [show ([] :: D) ++ [[]] = [] :: (D ++ [[]]) from rfl,
              elimDotsGo_cons_empty, elimDotsGo_good [] D _ hDgood,
              List.append_nil, elimDotsGo_cons_empty, elimDotsGo_nil,
              List.reverse_reverse]
            exact hDSt
          · rw [if_neg hRnil]
            rw [show ([] :: D) ++ R = [] :: (D ++ R) from rfl,
              elimDotsGo_cons_empty]
            exact elimDots_merge D St hDgood hStgood
      unfold pathResolve1
      rw [hsegs]
      cases hStc : St with
      | nil => exact absurd hStc hStne
      | cons a as =>
        rw [hteq, hStc]
  · intro ch hch
    rw [hrel] at hch
    rcases mem_of_mem_chJoin '/' R ch hch with h | ⟨r, hr, hcr⟩
    · exact Or.inl h
    · rcases List.mem_append.mp hr with h | h
      · have : r = dotDotSeg := List.eq_of_mem_replicate h
        subst this
        right; left
        simpa [dotDotSeg] using hcr
      · right; right
        rw [hteq]
        show ch ∈ '/' :: chJoin '/' St
        right
        exact mem_chJoin_of_mem_part '/' St r (List.drop_subset _ _ h) ch hcr

end Broddy

namespace Broddy

/-- C4 counterexample: the URL `https://x.test/a//b.js` (empty path
segment) is allocated the local path `/a//b.js` verbatim, but resolving
the computed relative path `a/b.js` from `/app.js`'s directory yields
the normalized `/a/b.js`, not the assigned `/a//b.js` — the round trip
is not exact for every allocated path. -/
theorem getRelativePath_roundtrip_cex :
    (assetPath "https://x.test" emptyAlloc "https://x.test/a//b.js").map
      Prod.fst = some "/a//b.js" ∧
    getRelativePath "/app.js" "/a//b.js" = "a/b.js" ∧
    pathResolve2 (pathDirname "/app.js")
      (getRelativePath "/app.js" "/a//b.js") = "/a/b.js" ∧
    pathResolve2 (pathDirname "/app.js")
      (getRelativePath "/app.js" "/a//b.js") ≠ "/a//b.js" :=
  ⟨by decide, by decide, by decide, by decide⟩

/-- Witness for the amended C4 at a concrete pair of normalized paths. -/
theorem getRelativePath_roundtrip_witness :
    wfAbsPath "/js/app.js" = true ∧ wfAbsPath "/chunk.js" = true ∧
    pathResolve2 (pathDirname "/js/app.js")
      (getRelativePath "/js/app.js" "/chunk.js") = "/chunk.js" :=
  ⟨by decide, by decide,
    (getRelativePath_roundtrip "/js/app.js" "/chunk.js" (by decide) (by decide)).1⟩

end Broddy

namespace Broddy

/-! ### JavaScript regex scanners for `rewriteUrls` (src/index.js 641-772)
Each JS regex the source uses is deterministic on its own character
classes (lazy/greedy runs are forced by excluded delimiters), so each is
modelled by an executable scanner.  `scanPass` replays `String.replace`
with a global regex: try a match at every position, left to right,
continuing after each match. -/

/-- Single-quote character (`'`). -/
def quoteSingle : Char := Char.ofNat 39

/-- Double-quote character (`"`). -/
def quoteDouble : Char := Char.ofNat 34

/-- Backtick character. -/
def backQuote : Char := Char.ofNat 96

/-- The three JS quote characters (the `['"\x60]` class). -/
def isQuote3 (c : Char) : Bool :=
  c = quoteSingle ∨ c = quoteDouble ∨ c = backQuote

/-- JS `\s` on the inputs we model (ASCII whitespace). -/
def isJsSpace (c : Char) : Bool :=
  c = ' ' ∨ c = '\t' ∨ c = '\n' ∨ c = '\r' ∨ c = Char.ofNat 11 ∨ c = Char.ofNat 12

/-- Characters allowed in the URL body class `[^'"\x60\s]`. -/
def urlBodyChar (c : Char) : Bool :=
  ¬isQuote3 c ∧ ¬isJsSpace c

/-- Matcher for the quoted-URL core `[a-zA-Z][a-zA-Z0-9+.-]*:\/\/[^'"\x60\s]+`
followed by the back-referenced closing quote `q`.  `cs` is the text
after the opening quote; on success returns the captured URL and the
number of characters consumed from `cs` (URL plus closing quote). -/
def tryMatch (q : Char) (cs : List Char) : Option (List Char × Nat) :=
  match cs with
  | [] => none
  | c0 :: rest0 =>
    if c0.isAlpha then
      let run := rest0.takeWhile isSchemeChar
      match rest0.drop run.length with
      | ':' :: '/' :: '/' :: rest1 =>
        let body := rest1.takeWhile urlBodyChar
        if body.isEmpty then none
        else
          match rest1.drop body.length with
          | c2 :: _ =>
            if c2 = q then
              some (c0 :: (run ++ ':' :: '/' :: '/' :: body),
                1 + run.length + 3 + body.length + 1)
            else none
          | [] => none
      | _ => none
    else none

/-- One replace pass of a global regex: at each position try the
matcher, which yields the consumed length and the replacement text
(equal to the matched text when the callback returns `match`); continue
scanning after the consumed span.  Structural fuel; `scanPass` supplies
`s.length`, which is always sufficient. -/
def scanPassGo (try1 : List Char → Option (Nat × List Char)) :
    Nat → List Char → List Char
  | 0, s => s
  | fuel + 1, s =>
    match s with
    | [] => []
    | c :: cs =>
      match try1 (c :: cs) with
      | some (k, r) => r ++ scanPassGo try1 fuel ((c :: cs).drop k)
      | none => c :: scanPassGo try1 fuel cs

/-- `String.prototype.replace` with a global regex (all occurrences). -/
def scanPass (try1 : List Char → Option (Nat × List Char))
    (s : List Char) : List Char :=
  scanPassGo try1 s.length s

/-- `String.prototype.replace` with a non-global regex: first
occurrence only. -/
def replaceFirstGo (try1 : List Char → Option (Nat × List Char)) :
    Nat → List Char → List Char
  | 0, s => s
  | fuel + 1, s =>
    match s with
    | [] => []
    | c :: cs =>
      match try1 (c :: cs) with
      | some (k, r) => r ++ (c :: cs).drop k
      | none => c :: replaceFirstGo try1 fuel cs

/-- Replace the first match of a pattern. -/
def replaceFirst (try1 : List Char → Option (Nat × List Char))
    (s : List Char) : List Char :=
  replaceFirstGo try1 s.length s

/-- First match payload of a pattern (`String.prototype.match` with a
non-global regex, returning the first capture). -/
def firstMatchGo (try1 : List Char → Option (Nat × List Char)) :
    Nat → List Char → Option (List Char)
  | 0, _ => none
  | fuel + 1, s =>
    match s with
    | [] => none
    | c :: cs =>
      match try1 (c :: cs) with
      | some (_, payload) => some payload
      | none => firstMatchGo try1 fuel cs

/-- First capture of a pattern anywhere in `s`. -/
def firstMatch (try1 : List Char → Option (Nat × List Char))
    (s : List Char) : Option (List Char) :=
  firstMatchGo try1 s.length s

/-- All captures of a global pattern, in match order (`matchAll`). -/
def matchAllGo (try1 : List Char → Option (Nat × List Char)) :
    Nat → List Char → List (List Char)
  | 0, _ => []
  | fuel + 1, s =>
    match s with
    | [] => []
    | c :: cs =>
      match try1 (c :: cs) with
      | some (k, payload) =>
        payload :: matchAllGo try1 fuel ((c :: cs).drop (max k 1))
      | none => matchAllGo try1 fuel cs

/-- All captures of a global pattern. -/
def matchAll (try1 : List Char → Option (Nat × List Char))
    (s : List Char) : List (List Char) :=
  matchAllGo try1 s.length s

/-- Strip a literal prefix. -/
def stripLit (lit : List Char) (s : List Char) : Option (List Char) :=
  if s.take lit.length = lit then some (s.drop lit.length) else none

/-- JS `String.prototype.trim` (whitespace at both ends). -/
def trimChars (s : List Char) : List Char :=
  ((s.dropWhile isJsSpace).reverse.dropWhile isJsSpace).reverse

/-- The shared replacement decision of `rewriteUrls`: parse the captured
URL with one-argument `new URL`, require same origin as the base URL and
membership in `filePathMap`, and compute the relative path from the
rewriter's own file path to the target's path.  `none` means the match
is left untouched. -/
def urlRepl (baseO : Url) (fpm : List (String × String)) (filePath : String)
    (url : List Char) : Option String :=
  match parseAbs ⟨url⟩ with
  | none => none
  | some u =>
    if u.origin = baseO.origin ∧ alistHas fpm ⟨url⟩ then
      match alistGet fpm ⟨url⟩ with
      | some targetPath => some (getRelativePath filePath targetPath)
      | none => none
    else none

/-- JS pattern 1 (`(['"\x60])(scheme:\/\/...)\1`, src line 656):
quoted absolute URL anywhere; replacement `quote + relative + quote`. -/
def jsGenericTry (baseO : Url) (fpm : List (String × String))
    (filePath : String) (s : List Char) : Option (Nat × List Char) :=
  match s with
  | [] => none
  | c :: cs =>
    if isQuote3 c then
      match tryMatch c cs with
      | some (url, k) =>
        some (k + 1,
          match urlRepl baseO fpm filePath url with
          | some rel => c :: (rel.data ++ [c])
          | none => c :: (url ++ [c]))
      | none => none
    else none

/-- JS pattern 2 (`fetch\s*\(\s*(['"\x60])(scheme:\/\/...)\1`, src line
674): replacement normalizes to `fetch(` + quoted relative path. -/
def tryFetch (baseO : Url) (fpm : List (String × String))
    (filePath : String) (s : List Char) : Option (Nat × List Char) :=
  match stripLit "fetch".data s with
  | none => none
  | some r1 =>
    let ws1 := r1.takeWhile isJsSpace
    match r1.drop ws1.length with
    | '(' :: r2 =>
      let ws2 := r2.takeWhile isJsSpace
      match r2.drop ws2.length with
      | q :: r3 =>
        if isQuote3 q then
          match tryMatch q r3 with
          | some (url, k) =>
            let consumed := 5 + ws1.length + 1 + ws2.length + 1 + k
            some (consumed,
              match urlRepl baseO fpm filePath url with
              | some rel => "fetch(".data ++ q :: (rel.data ++ [q])
              | none => s.take consumed)
          | none => none
        else none
      | [] => none
    | _ => none

/-- JS pattern 3 (`new\s+URL\s*\(\s*(['"\x60])(scheme:\/\/...)\1`, src
line 692): replacement normalizes to `new URL(` + quoted relative path. -/
def tryNewUrl (baseO : Url) (fpm : List (String × String))
    (filePath : String) (s : List Char) : Option (Nat × List Char) :=
  match stripLit "new".data s with
  | none => none
  | some r1 =>
    let ws1 := r1.takeWhile isJsSpace
    if ws1.isEmpty then none
    else
      match stripLit "URL".data (r1.drop ws1.length) with
      | none => none
      | some r2 =>
        let ws2 := r2.takeWhile isJsSpace
        match r2.drop ws2.length with
        | '(' :: r3 =>
          let ws3 := r3.takeWhile isJsSpace
          match r3.drop ws3.length with
          | q :: r4 =>
            if isQuote3 q then
              match tryMatch q r4 with
              | some (url, k) =>
                let consumed := 3 + ws1.length + 3 + ws2.length + 1 +
                  ws3.length + 1 + k
                some (consumed,
                  match urlRepl baseO fpm filePath url with
                  | some rel => "new URL(".data ++ q :: (rel.data ++ [q])
                  | none => s.take consumed)
              | none => none
            else none
          | [] => none
        | _ => none

end Broddy

namespace Broddy

/-- Close check for the quoted CSS `url()` body: the rest must begin
with the back-referenced quote, whitespace, then `)`; returns the
whitespace length. -/
def closeCheckQ (q : Char) (s : List Char) : Option Nat :=
  match s with
  | [] => none
  | c :: cs =>
    if c = q then
      let ws := cs.takeWhile isJsSpace
      match cs.drop ws.length with
      | ')' :: _ => some ws.length
      | _ => none
    else none

/-- Close check for the unquoted CSS `url()` body: whitespace then `)`. -/
def closeCheckNoQ (s : List Char) : Option Nat :=
  let ws := s.takeWhile isJsSpace
  match s.drop ws.length with
  | ')' :: _ => some ws.length
  | _ => none

/-- Lazy body `[^)]+?` before `\1\s*\)` with a present quote: shortest
non-empty run of non-`)` characters whose continuation closes.  Returns
the body and the characters consumed from the input (body, quote,
whitespace, `)`). -/
def cssLazyBodyQ (q : Char) : List Char → Option (List Char × Nat)
  | [] => none
  | c :: cs =>
    if c = ')' then none
    else
      match closeCheckQ q cs with
      | some w => some ([c], 1 + 1 + w + 1)
      | none =>
        match cssLazyBodyQ q cs with
        | some (b, k) => some (c :: b, k + 1)
        | none => none

/-- Lazy body `[^)]+?` before `\s*\)` with an empty quote group. -/
def cssLazyBodyNoQ : List Char → Option (List Char × Nat)
  | [] => none
  | c :: cs =>
    if c = ')' then none
    else
      match closeCheckNoQ cs with
      | some w => some ([c], 1 + w + 1)
      | none =>
        match cssLazyBodyNoQ cs with
        | some (b, k) => some (c :: b, k + 1)
        | none => none

/-- Scheme head `[a-zA-Z][a-zA-Z0-9+.-]*:\/\/` of a capture; returns the
scheme text (including `://`) and the rest. -/
def schemeHead (s : List Char) : Option (List Char × List Char) :=
  match s with
  | [] => none
  | c0 :: rest0 =>
    if c0.isAlpha then
      let run := rest0.takeWhile isSchemeChar
      match rest0.drop run.length with
      | ':' :: '/' :: '/' :: rest1 =>
        some (c0 :: (run ++ [':', '/', '/']), rest1)
      | _ => none
    else none

/-- CSS pattern `url\s*\(\s*(['"]?)(scheme:\/\/[^)]+?)\1\s*\)` (src line
712).  The callback trims the capture before the map lookup and the
replacement normalizes to `url(` + quote + relative + quote + `)`. -/
def tryCssUrl (baseO : Url) (fpm : List (String × String))
    (filePath : String) (s : List Char) : Option (Nat × List Char) :=
  match stripLit "url".data s with
  | none => none
  | some r1 =>
    let ws1 := r1.takeWhile isJsSpace
    match r1.drop ws1.length with
    | '(' :: r2 =>
      let ws2 := r2.takeWhile isJsSpace
      match r2.drop ws2.length with
      | [] => none
      | q :: r3 =>
        if q = quoteSingle ∨ q = quoteDouble then
          match schemeHead r3 with
          | none => none
          | some (sch, r4) =>
            if sch.any (fun c => c = ')') then none
            else
              match cssLazyBodyQ q r4 with
              | none => none
              | some (body, k) =>
                let url := sch ++ body
                let consumed := 3 + ws1.length + 1 + ws2.length + 1 +
                  sch.length + k
                some (consumed,
                  match urlRepl baseO fpm filePath (trimChars url) with
                  | some rel => "url(".data ++ q :: (rel.data ++ [q, ')'])
                  | none => s.take consumed)
        else
          match schemeHead (q :: r3) with
          | none => none
          | some (sch, r4) =>
            if sch.any (fun c => c = ')') then none
            else
              match cssLazyBodyNoQ r4 with
              | none => none
              | some (body, k) =>
                let url := sch ++ body
                let consumed := 3 + ws1.length + 1 + ws2.length +
                  sch.length + k
                some (consumed,
                  match urlRepl baseO fpm filePath (trimChars url) with
                  | some rel => "url(".data ++ (rel.data ++ [')'])
                  | none => s.take consumed)
    | _ => none

/-- CSS pattern
`@import\s+(?:url\s*\(\s*)?(['"])(scheme:\/\/[^'"]+?)\1(?:\s*\))?` (src
line 734); replacement normalizes to `@import url(` + quoted relative +
`)`. -/
def tryImport (baseO : Url) (fpm : List (String × String))
    (filePath : String) (s : List Char) : Option (Nat × List Char) :=
  match stripLit "@import".data s with
  | none => none
  | some r1 =>
    let ws1 := r1.takeWhile isJsSpace
    if ws1.isEmpty then none
    else
      let r2 := r1.drop ws1.length
      let urlPart : Option (Nat × List Char) :=
        match stripLit "url".data r2 with
        | none => none
        | some r3 =>
          let wsa := r3.takeWhile isJsSpace
          match r3.drop wsa.length with
          | '(' :: r4 =>
            let wsb := r4.takeWhile isJsSpace
            some (3 + wsa.length + 1 + wsb.length, r4.drop wsb.length)
          | _ => none
      let startLen := 7 + ws1.length + (urlPart.map Prod.fst).getD 0
      let r5 := (urlPart.map Prod.snd).getD r2
      match r5 with
      | [] => none
      | q :: r6 =>
        if q = quoteSingle ∨ q = quoteDouble then
          match schemeHead r6 with
          | none => none
          | some (sch, r7) =>
            let body := r7.takeWhile
              (fun c => ¬(c = quoteSingle ∨ c = quoteDouble))
            if body.isEmpty then none
            else
              match r7.drop body.length with
              | c2 :: r8 =>
                if c2 = q then
                  let tailWs := r8.takeWhile isJsSpace
                  let closeLen :=
                    match r8.drop tailWs.length with
                    | ')' :: _ => tailWs.length + 1
                    | _ => 0
                  let url := sch ++ body
                  let consumed := startLen + 1 + sch.length + body.length +
                    1 + closeLen
                  some (consumed,
                    match urlRepl baseO fpm filePath url with
                    | some rel =>
                      "@import url(".data ++ q :: (rel.data ++ [q, ')'])
                    | none => s.take consumed)
                else none
              | [] => none
        else none

/-- JSON pattern `:\s*"(scheme:\/\/[^"]+?)"` (src line 754); replacement
normalizes to `: "` + relative + `"`. -/
def tryJson (baseO : Url) (fpm : List (String × String))
    (filePath : String) (s : List Char) : Option (Nat × List Char) :=
  match s with
  | [] => none
  | c :: cs =>
    if c = ':' then
      let ws := cs.takeWhile isJsSpace
      match cs.drop ws.length with
      | q :: r1 =>
        if q = quoteDouble then
          match schemeHead r1 with
          | none => none
          | some (sch, r2) =>
            let body := r2.takeWhile (fun c => ¬(c = quoteDouble))
            if body.isEmpty then none
            else
              match r2.drop body.length with
              | c2 :: _ =>
                if c2 = quoteDouble then
                  let url := sch ++ body
                  let consumed := 1 + ws.length + 1 + sch.length +
                    body.length + 1
                  some (consumed,
                    match urlRepl baseO fpm filePath url with
                    | some rel =>
                      ':' :: ' ' :: quoteDouble :: (rel.data ++ [quoteDouble])
                    | none => s.take consumed)
                else none
              | [] => none
        else none
      | [] => none
    else none

/-- Source `rewriteUrls` (src/index.js lines 641-772): parse the base
and file URLs, allocate (or look up) the file's own path, return the
content unchanged for cross-origin files, and otherwise run the
type-specific regex replaces in source order.  `none` models an
uncaught `TypeError` from URL parsing (the caller catches it and keeps
the original content). -/
def rewriteUrls (st : AllocState) (baseUrl fileUrl : String)
    (content : String) (fileType : String) : Option (String × AllocState) :=
  match parseAbs baseUrl with
  | none => none
  | some baseO =>
    match parseWith fileUrl baseUrl with
    | none => none
    | some fileO =>
      match assetPath baseUrl st fileUrl with
      | none => none
      | some (filePath, st') =>
        if fileO.origin ≠ baseO.origin then some (content, st')
        else
          let fpm := st'.filePathMap
          let c1 :=
            if fileType = "js" ∨ fileType = "mjs" then
              scanPass (tryNewUrl baseO fpm filePath)
                (scanPass (tryFetch baseO fpm filePath)
                  (scanPass (jsGenericTry baseO fpm filePath) content.data))
            else content.data
          let c2 :=
            if fileType = "css" then
              scanPass (tryImport baseO fpm filePath)
                (scanPass (tryCssUrl baseO fpm filePath) c1)
            else c1
          let c3 :=
            if fileType = "json" then
              scanPass (tryJson baseO fpm filePath) c2
            else c2
          some (⟨c3⟩, st')

end Broddy

namespace Broddy

/-- C10: for every file whose own URL's origin differs from the target
site's origin, `rewriteUrls` returns the content completely unchanged
(the guard at src/index.js 647-649) — no reference inside a
cross-origin file is ever rewritten, even one present in the map. -/
theorem rewriteUrls_cross_origin (st : AllocState)
    (baseUrl fileUrl content fileType : String) (baseO fileO : Url)
    (hb : parseAbs baseUrl = some baseO)
    (hf : parseWith fileUrl baseUrl = some fileO)
    (hne : fileO.origin ≠ baseO.origin)
    (p : String) (st' : AllocState)
    (hap : assetPath baseUrl st fileUrl = some (p, st')) :
    rewriteUrls st baseUrl fileUrl content fileType = some (content, st') := by
  unfold rewriteUrls
  rw [hb, hf, hap]
  simp [hne]

/-- Witness for C10: a file served from `https://cdn.other` keeps its
reference to `https://x.test/chunk.js` verbatim even though that URL is
in the map. -/
theorem rewriteUrls_cross_origin_witness :
    rewriteUrls (allocFold "https://x.test" emptyAlloc
        ["https://x.test/chunk.js", "https://cdn.other/lib.js"])
      "https://x.test" "https://cdn.other/lib.js"
      "import(\"https://x.test/chunk.js\")" "js" =
    some ("import(\"https://x.test/chunk.js\")",
      allocFold "https://x.test" emptyAlloc
        ["https://x.test/chunk.js", "https://cdn.other/lib.js"]) := by
  have h := rewriteUrls_cross_origin
    (allocFold "https://x.test" emptyAlloc
      ["https://x.test/chunk.js", "https://cdn.other/lib.js"])
    "https://x.test" "https://cdn.other/lib.js"
    "import(\"https://x.test/chunk.js\")" "js"
    ((parseAbs "https://x.test").getD ⟨"", false, "", "", "", ""⟩)
    ((parseWith "https://cdn.other/lib.js" "https://x.test").getD ⟨"", false, "", "", "", ""⟩)
    (by decide) (by decide) (by decide)
    "/lib.js"
    (allocFold "https://x.test" emptyAlloc
      ["https://x.test/chunk.js", "https://cdn.other/lib.js"])
    (by decide)
  exact h

/-- C5 counterexample: on script content where a quoted mapped URL is
immediately followed by an unquoted mapped URL and a dangling quote, the
first pass consumes the middle quote as a closing delimiter, and the
second pass then matches the remaining absolute URL against the reused
quote, so applying the rewriter twice differs from applying it once. -/
theorem rewriteUrls_not_idempotent_cex :
    rewriteUrls (allocFold "https://x.test" emptyAlloc
        ["https://x.test/app.js", "https://x.test/a.js", "https://x.test/b.js"])
      "https://x.test" "https://x.test/app.js"
      "x=\"https://x.test/a.js\"https://x.test/b.js\"" "js" =
    some ("x=\"a.js\"https://x.test/b.js\"",
      allocFold "https://x.test" emptyAlloc
        ["https://x.test/app.js", "https://x.test/a.js", "https://x.test/b.js"]) ∧
    rewriteUrls (allocFold "https://x.test" emptyAlloc
        ["https://x.test/app.js", "https://x.test/a.js", "https://x.test/b.js"])
      "https://x.test" "https://x.test/app.js"
      "x=\"a.js\"https://x.test/b.js\"" "js" =
    some ("x=\"a.js\"b.js\"",
      allocFold "https://x.test" emptyAlloc
        ["https://x.test/app.js", "https://x.test/a.js", "https://x.test/b.js"]) ∧
    ("x=\"a.js\"b.js\"" : String) ≠ "x=\"a.js\"https://x.test/b.js\"" :=
  ⟨by decide, by decide, by decide⟩

end Broddy

namespace Broddy

/-! ### Rewrite idempotence (claim C5)
Content is decomposed into chunks: quote-free text runs and quoted
literals.  On such content the generic quoted-URL pass acts
literal-by-literal, and the `fetch`/`new URL` passes change nothing, so
the full `rewriteUrls` is idempotent (the counterexample above shows a
dangling quote breaks this in general). -/

/-- A chunk of script content: quote-free text, or a quoted literal. -/
inductive Chunk
  | text (t : List Char)
  | lit (q : Char) (body : List Char)
deriving DecidableEq, Repr

/-- Concrete text of one chunk. -/
def renderChunk : Chunk → List Char
  | .text t => t
  | .lit q b => q :: (b ++ [q])

/-- Concrete text of a chunk list. -/
def renderChunks (cs : List Chunk) : List Char :=
  (cs.map renderChunk).flatten

/-- No contiguous `://` occurrence. -/
def noSchemeMark : List Char → Bool
  | [] => true
  | c :: rest => !(decide (c = ':') && decide (rest.take 2 = ['/', '/'])) && noSchemeMark rest

/-- Well-formed chunk: text is quote-free and contains no `://`;
a literal has a quote delimiter and a quote-free body. -/
def wfChunk : Chunk → Bool
  | .text t => t.all (fun c => !isQuote3 c) && noSchemeMark t
  | .lit q b => isQuote3 q && b.all (fun c => !isQuote3 c)

/-- Whether a chunk is a text chunk. -/
def Chunk.isText : Chunk → Bool
  | .text _ => true
  | .lit _ _ => false

/-- Well-formed chunk list; adjacent text chunks are merged (so a `://`
can never straddle two text chunks). -/
def noAdjTexts : List Chunk → Bool
  | [] => true
  | [_] => true
  | c1 :: c2 :: rest => !(c1.isText && c2.isText) && noAdjTexts (c2 :: rest)

/-- Path characters that can never re-trigger the URL detection:
no quotes, no whitespace, no colon. -/
def pathSafeChar (c : Char) : Bool :=
  ¬isQuote3 c ∧ ¬isJsSpace c ∧ ¬(c = ':')

/-- The chunk-level effect of the generic quoted-URL replace: a literal
whose body is a well-shaped absolute URL with same origin and a map
entry becomes the quoted relative path; everything else is untouched. -/
def litMatchUrl (body : List Char) : Option (List Char) :=
  match schemeHead body with
  | none => none
  | some (_, tail) =>
    if tail ≠ [] ∧ tail.all urlBodyChar then some body else none

/-- Chunk-level rewrite mirroring `jsGenericTry`. -/
def rewriteChunk (baseO : Url) (fpm : List (String × String))
    (filePath : String) : Chunk → Chunk
  | .text t => .text t
  | .lit q b =>
    match litMatchUrl b with
    | none => .lit q b
    | some url =>
      match urlRepl baseO fpm filePath url with
      | some rel => .lit q rel.data
      | none => .lit q b

theorem drop_length_takeWhile (p : Char → Bool) (l : List Char) :
    l.drop (l.takeWhile p).length = l.dropWhile p := by
  induction l with
  | nil => rfl
  | cons c cs ih =>
    by_cases h : p c
    · simp [List.takeWhile, List.dropWhile, h, ih]
    · simp only [Bool.not_eq_true] at h
      simp [List.takeWhile, List.dropWhile, h]

theorem takeWhile_append_stop (p : Char → Bool) (a : List Char) (x : Char)
    (r : List Char) (hx : p x = false) :
    (a ++ x :: r).takeWhile p = a.takeWhile p := by
  induction a with
  | nil => simp [List.takeWhile, hx]
  | cons c cs ih =>
    by_cases h : p c
    · simp [List.takeWhile, h, ih]
    · simp only [Bool.not_eq_true] at h
      simp [List.takeWhile, h]

theorem dropWhile_append_stop (p : Char → Bool) (a : List Char) (x : Char)
    (r : List Char) (hx : p x = false) :
    (a ++ x :: r).dropWhile p = a.dropWhile p ++ x :: r := by
  induction a with
  | nil => simp [List.dropWhile, hx]
  | cons c cs ih =>
    by_cases h : p c
    · simp [List.dropWhile, h, ih]
    · simp only [Bool.not_eq_true] at h
      simp [List.dropWhile, h]

end Broddy

namespace Broddy

theorem isQuote3_cases (c : Char) (h : isQuote3 c = true) :
    c = quoteSingle ∨ c = quoteDouble ∨ c = backQuote := by
  simp only [isQuote3, Bool.or_eq_true, decide_eq_true_eq] at h
  exact h

theorem isQuote3_not_alpha (c : Char) (h : isQuote3 c = true) :
    c.isAlpha = false := by
  rcases isQuote3_cases c h with h | h | h <;> subst h <;> decide

theorem isQuote3_not_scheme (c : Char) (h : isQuote3 c = true) :
    isSchemeChar c = false := by
  rcases isQuote3_cases c h with h | h | h <;> subst h <;> decide

theorem isQuote3_not_urlBody (c : Char) (h : isQuote3 c = true) :
    urlBodyChar c = false := by
  rcases isQuote3_cases c h with h | h | h <;> subst h <;> decide

theorem isQuote3_ne_colon (c : Char) (h : isQuote3 c = true) : c ≠ ':' := by
  rcases isQuote3_cases c h with h | h | h <;> subst h <;> decide

theorem isQuote3_ne_slash (c : Char) (h : isQuote3 c = true) : c ≠ '/' := by
  rcases isQuote3_cases c h with h | h | h <;> subst h <;> decide

theorem dropWhile_head_false (p : Char → Bool) (l : List Char) (f : Char)
    (fs : List Char) (h : l.dropWhile p = f :: fs) : p f = false := by
  induction l with
  | nil => exact absurd h (by simp [List.dropWhile])
  | cons c cs ih =>
    by_cases hc : p c
    · rw [List.dropWhile_cons_of_pos hc] at h
      exact ih h
    · rw [List.dropWhile_cons_of_neg hc] at h
      injection h with h1 _
      subst h1
      exact Bool.not_eq_true _ |>.mp hc

theorem takeWhile_eq_self_of_dropWhile_nil (p : Char → Bool) (l : List Char)
    (h : l.dropWhile p = []) : l.takeWhile p = l := by
  have := List.takeWhile_append_dropWhile (p := p) (l := l)
  rw [h, List.append_nil] at this
  exact this

theorem takeWhile_length_le (p : Char → Bool) (l : List Char) :
    (l.takeWhile p).length ≤ l.length := by
  induction l with
  | nil => simp
  | cons c cs ih =>
    by_cases h : p c
    · simp [List.takeWhile, h]
      omega
    · simp only [Bool.not_eq_true] at h
      simp [List.takeWhile, h]

/-- The quoted-URL matcher on a quote-free literal body followed by the
closing quote: it succeeds exactly when the body is a well-shaped
absolute URL, capturing the whole body and consuming it plus the
closing quote. -/
theorem tryMatch_lit (q : Char) (hq : isQuote3 q = true) (body rest : List Char)
    (hbody : ∀ c ∈ body, isQuote3 c = false) :
    tryMatch q (body ++ q :: rest) =
      (litMatchUrl body).map (fun url => (url, body.length + 1)) := by
  cases body with
  | nil =>
    simp [tryMatch, litMatchUrl, schemeHead, isQuote3_not_alpha q hq]
  | cons c0 rest0 =>
    rw [List.cons_append]
    show tryMatch q (c0 :: (rest0 ++ q :: rest)) = _
    unfold tryMatch litMatchUrl schemeHead
    by_cases ha : c0.isAlpha
    · simp only [ha, if_true]
      have hrun : (rest0 ++ q :: rest).takeWhile isSchemeChar =
          rest0.takeWhile isSchemeChar :=
        takeWhile_append_stop _ _ _ _ (isQuote3_not_scheme q hq)
      have hlen : (rest0.takeWhile isSchemeChar).length ≤ rest0.length :=
        takeWhile_length_le _ _
      have hdrop : (rest0 ++ q :: rest).drop
          (rest0.takeWhile isSchemeChar).length =
          rest0.dropWhile isSchemeChar ++ q :: rest := by
        rw [List.drop_append_of_le_length hlen, drop_length_takeWhile]
      rw [hrun, hdrop, drop_length_takeWhile]
      cases hdw : rest0.dropWhile isSchemeChar with
      | nil =>
        simp only [List.nil_append]
        have hqc := isQuote3_ne_colon q hq
        cases hq2 : (q :: rest) with
        | nil => exact absurd hq2 (by simp)
        | cons a as =>
          injection hq2 with ha2 has2
          subst ha2
          subst has2
          simp [hqc]
      | cons d0 ds =>
        rw [List.cons_append]
        cases hd0 : decide (d0 = ':') with
        | false =>
          have hne : d0 ≠ ':' := by simpa using hd0
          cases ds with
          | nil =>
            simp [hne]
          | cons d1 ds1 =>
            cases ds1 with
            | nil => simp [hne]
            | cons d2 ds2 => simp [hne]
        | true =>
          have heq : d0 = ':' := by simpa using hd0
          subst heq
          cases ds with
          | nil =>
            have hqs := isQuote3_ne_slash q hq
            simp [hqs]
          | cons d1 ds1 =>
            cases hd1 : decide (d1 = '/') with
            | false =>
              have hne : d1 ≠ '/' := by simpa using hd1
              cases ds1 with
              | nil => simp [hne]
              | cons d2 ds2 => simp [hne]
            | true =>
              have heq : d1 = '/' := by simpa using hd1
              subst heq
              cases ds1 with
              | nil =>
                have hqs := isQuote3_ne_slash q hq
                simp [hqs]
              | cons d2 ds2 =>
                cases hd2 : decide (d2 = '/') with
                | false =>
                  have hne : d2 ≠ '/' := by simpa using hd2
                  simp [hne]
                | true =>
                  have heq : d2 = '/' := by simpa using hd2
                  subst heq
                  show (if ((ds2 ++ q :: rest).takeWhile urlBodyChar).isEmpty = true
                      then none
                      else
                        match (ds2 ++ q :: rest).drop
                            ((ds2 ++ q :: rest).takeWhile urlBodyChar).length with
                        | c2 :: _ =>
                          if c2 = q then
                            some (c0 :: (rest0.takeWhile isSchemeChar ++
                                ':' :: '/' :: '/' ::
                                  (ds2 ++ q :: rest).takeWhile urlBodyChar),
                              1 + (rest0.takeWhile isSchemeChar).length + 3 +
                                ((ds2 ++ q :: rest).takeWhile urlBodyChar).length + 1)
                          else none
                        | [] => none) =
                    Option.map (fun url => (url, (c0 :: rest0).length + 1))
                      (if ds2 ≠ [] ∧ ds2.all urlBodyChar = true
                        then some (c0 :: rest0) else none)
                  have hbody2 : (ds2 ++ q :: rest).takeWhile urlBodyChar =
                      ds2.takeWhile urlBodyChar :=
                    takeWhile_append_stop _ _ _ _ (isQuote3_not_urlBody q hq)
                  have hlen2 : (ds2.takeWhile urlBodyChar).length ≤ ds2.length :=
                    takeWhile_length_le _ _
                  have hdrop2 : (ds2 ++ q :: rest).drop
                      (ds2.takeWhile urlBodyChar).length =
                      ds2.dropWhile urlBodyChar ++ q :: rest := by
                    rw [List.drop_append_of_le_length hlen2,
                      drop_length_takeWhile]
                  rw [hbody2, hdrop2]
                  have hr0 : rest0 = rest0.takeWhile isSchemeChar ++
                      ':' :: '/' :: '/' :: ds2 := by
                    have h0 := List.takeWhile_append_dropWhile
                      (p := isSchemeChar) (l := rest0)
                    rw [hdw] at h0
                    exact h0.symm
                  cases hdw2 : ds2.dropWhile urlBodyChar with
                  | nil =>
                    have htk : ds2.takeWhile urlBodyChar = ds2 :=
                      takeWhile_eq_self_of_dropWhile_nil _ _ hdw2
                    have hall2 : ∀ x ∈ ds2, urlBodyChar x :=
                      List.dropWhile_eq_nil_iff.mp hdw2
                    rw [htk]
                    show (if ds2.isEmpty = true then none
                        else
                          if q = q then
                            some (c0 :: (rest0.takeWhile isSchemeChar ++
                                ':' :: '/' :: '/' :: ds2),
                              1 + (rest0.takeWhile isSchemeChar).length + 3 +
                                ds2.length + 1)
                          else none) = _
                    cases hds2c : ds2 with
                    | nil => simp
                    | cons e es =>
                      rw [← hds2c]
                      rw [if_neg (by rw [hds2c]; simp), if_pos rfl]
                      have hcond : ds2 ≠ [] ∧ ds2.all urlBodyChar = true := by
                        constructor
                        · rw [hds2c]; simp
                        · rw [List.all_eq_true]
                          exact hall2
                      rw [if_pos hcond, Option.map_some']
                      have hlenr : rest0.length =
                          (rest0.takeWhile isSchemeChar).length + 3 + ds2.length := by
                        have := congrArg List.length hr0
                        simp at this
                        omega
                      have hcnt : 1 + (rest0.takeWhile isSchemeChar).length + 3 +
                          ds2.length + 1 = (c0 :: rest0).length + 1 := by
                        simp [hlenr]
                        omega
                      rw [hcnt]
                      have hcap : c0 :: (rest0.takeWhile isSchemeChar ++
                          ':' :: '/' :: '/' :: ds2) = c0 :: rest0 := by
                        rw [← hr0]
                      rw [hcap]
                  | cons f fs =>
                    have hf : urlBodyChar f = false :=
                      dropWhile_head_false _ _ _ _ hdw2
                    have hfq : f ≠ q := by
                      intro hEq
                      have hfmem : f ∈ ds2 := by
                        have hsuf : ds2.dropWhile urlBodyChar <:+ ds2 :=
                          List.dropWhile_suffix _
                        have : f ∈ ds2.dropWhile urlBodyChar := by
                          rw [hdw2]; simp
                        exact hsuf.subset this
                      have : f ∈ (c0 :: rest0) := by
                        rw [hr0]
                        simp [hfmem]
                      have hres := hbody f this
                      rw [hEq, hq] at hres
                      exact Bool.noConfusion hres
                    show (if (ds2.takeWhile urlBodyChar).isEmpty = true then none
                        else
                          if f = q then
                            some (c0 :: (rest0.takeWhile isSchemeChar ++
                                ':' :: '/' :: '/' :: ds2.takeWhile urlBodyChar),
                              1 + (rest0.takeWhile isSchemeChar).length + 3 +
                                (ds2.takeWhile urlBodyChar).length + 1)
                          else none) = _
                    have hrhs : ¬(ds2 ≠ [] ∧ ds2.all urlBodyChar = true) := by
                      intro ⟨hne2, hall⟩
                      have hnil : ds2.dropWhile urlBodyChar = [] := by
                        rw [List.dropWhile_eq_nil_iff]
                        intro x hx
                        rw [List.all_eq_true] at hall
                        exact hall x hx
                      rw [hdw2] at hnil
                      exact List.noConfusion hnil
                    rw [if_neg hrhs]
                    by_cases hemp : (ds2.takeWhile urlBodyChar).isEmpty = true
                    · rw [if_pos hemp]
                      rfl
                    · rw [if_neg hemp, if_neg hfq]
                      rfl
    · have ha2 : c0.isAlpha = false := by simpa using ha
      simp [ha2]

end Broddy

namespace Broddy

theorem noSchemeMark_tail (c : Char) (rest : List Char)
    (h : noSchemeMark (c :: rest) = true) : noSchemeMark rest = true := by
  simp only [noSchemeMark, Bool.and_eq_true] at h
  exact h.2

theorem noSchemeMark_no_suffix (l : List Char) (h : noSchemeMark l = true) :
    ∀ s, s <:+ l → ∀ b, s ≠ ':' :: '/' :: '/' :: b := by
  induction l with
  | nil =>
    intro s hs b heq
    rw [List.suffix_nil.mp hs] at heq
    exact List.noConfusion heq
  | cons c rest ih =>
    intro s hs b heq
    rcases List.suffix_cons_iff.mp hs with h1 | h1
    · rw [h1] at heq
      injection heq with hc hrest
      subst hc
      subst hrest
      simp [noSchemeMark] at h
    · exact ih (noSchemeMark_tail c rest h) s h1 b heq

/-- Well-formedness of a chunk list. -/
def wfChunks (cs : List Chunk) : Bool := cs.all wfChunk

theorem noAdjTexts_tail (c : Chunk) (rest : List Chunk)
    (h : noAdjTexts (c :: rest) = true) : noAdjTexts rest = true := by
  cases rest with
  | nil => rfl
  | cons c2 rest2 =>
    simp only [noAdjTexts, Bool.and_eq_true] at h
    exact h.2

theorem wfChunks_tail (c : Chunk) (rest : List Chunk)
    (h : wfChunks (c :: rest) = true) : wfChunks rest = true := by
  simp only [wfChunks, List.all_cons, Bool.and_eq_true] at h
  exact (List.all_eq_true.mpr (fun x hx =>
    (List.all_eq_true.mp h.2) x hx))

theorem wfChunks_head (c : Chunk) (rest : List Chunk)
    (h : wfChunks (c :: rest) = true) : wfChunk c = true := by
  simp only [wfChunks, List.all_cons, Bool.and_eq_true] at h
  exact h.1

theorem renderChunks_cons (c : Chunk) (rest : List Chunk) :
    renderChunks (c :: rest) = renderChunk c ++ renderChunks rest := by
  simp [renderChunks]

/-- A well-formed, text-merged chunk render never matches the quoted-URL
core from its very beginning. -/
theorem tryMatch_none_of_text (q' : Char) (t tail2 : List Char)
    (hts : noSchemeMark t = true)
    (htail : tail2 = [] ∨ ∃ q2 r2, isQuote3 q2 = true ∧ tail2 = q2 :: r2) :
    tryMatch q' (t ++ tail2) = none := by
  cases t with
  | nil =>
    rcases htail with h | ⟨q2, r2, hq2, h⟩
    · rw [h]; rfl
    · rw [h]
      simp [tryMatch, isQuote3_not_alpha q2 hq2]
  | cons c0 t0 =>
    rw [List.cons_append]
    show tryMatch q' (c0 :: (t0 ++ tail2)) = none
    unfold tryMatch
    by_cases ha : c0.isAlpha
    · simp only [ha, if_true]
      have hstop : ∀ x, tail2 = x ∨ True → True := fun _ _ => trivial
      have hrun : (t0 ++ tail2).takeWhile isSchemeChar =
          t0.takeWhile isSchemeChar := by
        rcases htail with h | ⟨q2, r2, hq2, h⟩
        · rw [h, List.append_nil]
        · rw [h]
          exact takeWhile_append_stop _ _ _ _ (isQuote3_not_scheme q2 hq2)
      have hlen : (t0.takeWhile isSchemeChar).length ≤ t0.length :=
        takeWhile_length_le _ _
      have hdrop : (t0 ++ tail2).drop (t0.takeWhile isSchemeChar).length =
          t0.dropWhile isSchemeChar ++ tail2 := by
        rw [List.drop_append_of_le_length hlen, drop_length_takeWhile]
      rw [hrun, hdrop]
      have hsuft0 : t0.dropWhile isSchemeChar <:+ t0 := List.dropWhile_suffix _
      have hsuft : t0.dropWhile isSchemeChar <:+ (c0 :: t0) :=
        hsuft0.trans (List.suffix_cons c0 t0)
      cases hdw : t0.dropWhile isSchemeChar with
      | nil =>
        rcases htail with h | ⟨q2, r2, hq2, h⟩
        · rw [h]; rfl
        · rw [h]
          simp [isQuote3_ne_colon q2 hq2]
      | cons d0 ds =>
        rw [List.cons_append]
        by_cases hd0 : d0 = ':'
        · subst hd0
          cases ds with
          | nil =>
            rcases htail with h | ⟨q2, r2, hq2, h⟩
            · rw [h]; rfl
            · rw [h]
              simp [isQuote3_ne_slash q2 hq2]
          | cons d1 ds1 =>
            by_cases hd1 : d1 = '/'
            · subst hd1
              cases ds1 with
              | nil =>
                rcases htail with h | ⟨q2, r2, hq2, h⟩
                · rw [h]; rfl
                · rw [h]
                  simp [isQuote3_ne_slash q2 hq2]
              | cons d2 ds2 =>
                by_cases hd2 : d2 = '/'
                · subst hd2
                  exfalso
                  rw [hdw] at hsuft
                  have := noSchemeMark_no_suffix (c0 :: t0) ?hns
                    (':' :: '/' :: '/' :: ds2) hsuft ds2
                  · exact this rfl
                  case hns => exact hts
                · simp [hd2]
            · simp [hd1]
        · simp [hd0]
    · have ha2 : c0.isAlpha = false := by simpa using ha
      simp [ha2]

end Broddy

namespace Broddy

/-- No well-formed chunk render matches the quoted-URL core from its
start. -/
theorem tryMatch_none_render (q' : Char) (cs : List Chunk)
    (hwf : wfChunks cs = true) (hadj : noAdjTexts cs = true) :
    tryMatch q' (renderChunks cs) = none := by
  cases cs with
  | nil => rfl
  | cons c0 rest =>
    rw [renderChunks_cons]
    cases c0 with
    | lit q0 b =>
      show tryMatch q' (q0 :: ((b ++ [q0]) ++ renderChunks rest)) = none
      have hq0 : isQuote3 q0 = true := by
        have := wfChunks_head _ _ hwf
        simp only [wfChunk, Bool.and_eq_true] at this
        exact this.1
      simp [tryMatch, isQuote3_not_alpha q0 hq0]
    | text t =>
      have hts : noSchemeMark t = true := by
        have := wfChunks_head _ _ hwf
        simp only [wfChunk, Bool.and_eq_true] at this
        exact this.2
      apply tryMatch_none_of_text q' t (renderChunks rest) hts
      cases rest with
      | nil => exact Or.inl rfl
      | cons c1 rest1 =>
        cases c1 with
        | text t1 =>
          exfalso
          simp [noAdjTexts, Chunk.isText] at hadj
        | lit q1 b1 =>
          right
          refine ⟨q1, (b1 ++ [q1]) ++ renderChunks rest1, ?_, ?_⟩
          · have := wfChunks_head _ _ (wfChunks_tail _ _ hwf)
            simp only [wfChunk, Bool.and_eq_true] at this
            exact this.1
          · rw [renderChunks_cons]
            rfl

theorem suffix_append_cases {α : Type} (t a b : List α) (h : t <:+ a ++ b) :
    t <:+ b ∨ ∃ s, s <:+ a ∧ s ≠ [] ∧ t = s ++ b := by
  induction a with
  | nil => exact Or.inl (by simpa using h)
  | cons x a' ih =>
    rw [List.cons_append] at h
    rcases List.suffix_cons_iff.mp h with h1 | h1
    · exact Or.inr ⟨x :: a', List.suffix_rfl, by simp, by rw [h1, List.cons_append]⟩
    · rcases ih h1 with h2 | ⟨s, hs, hne, heq⟩
      · exact Or.inl h2
      · exact Or.inr ⟨s, hs.trans (List.suffix_cons x a'), hne, heq⟩

/-- Bounds on the quoted-URL matcher: it consumes at least one and at
most all of the remaining characters. -/
theorem tryMatch_bounds (q : Char) (cs url : List Char) (k : Nat)
    (h : tryMatch q cs = some (url, k)) : 1 ≤ k ∧ k ≤ cs.length := by
  cases cs with
  | nil => exact absurd h (by simp [tryMatch])
  | cons c0 rest0 =>
    unfold tryMatch at h
    by_cases ha : c0.isAlpha
    · simp only [ha, if_true] at h
      cases hdw : rest0.drop ((rest0.takeWhile isSchemeChar).length) with
      | nil =>
        rw [hdw] at h
        exact absurd h (by simp)
      | cons d0 ds =>
        rw [hdw] at h
        have hsplit : rest0.length =
            (rest0.takeWhile isSchemeChar).length + (d0 :: ds).length := by
          have h1 := congrArg List.length
            (List.takeWhile_append_dropWhile (p := isSchemeChar) (l := rest0))
          rw [drop_length_takeWhile] at hdw
          rw [hdw] at h1
          simp at h1
          simp
          omega
        by_cases h0 : d0 = ':'
        · subst h0
          cases ds with
          | nil => exact absurd h (by simp)
          | cons d1 ds1 =>
            by_cases h1 : d1 = '/'
            · subst h1
              cases ds1 with
              | nil => exact absurd h (by simp)
              | cons d2 ds2 =>
                by_cases h2 : d2 = '/'
                · subst h2
                  simp only at h
                  by_cases hemp : (ds2.takeWhile urlBodyChar).isEmpty = true
                  · rw [if_pos hemp] at h
                    exact absurd h (by simp)
                  · rw [if_neg hemp] at h
                    cases hdw2 : ds2.drop ((ds2.takeWhile urlBodyChar).length) with
                    | nil =>
                      rw [hdw2] at h
                      exact absurd h (by simp)
                    | cons c2 tl2 =>
                      rw [hdw2] at h
                      have h' : (if c2 = q then
                          some ((c0 :: (rest0.takeWhile isSchemeChar ++
                              ':' :: '/' :: '/' :: ds2.takeWhile urlBodyChar)),
                            1 + (rest0.takeWhile isSchemeChar).length + 3 +
                              (ds2.takeWhile urlBodyChar).length + 1)
                          else none) = some (url, k) := h
                      clear h
                      have h := h'
                      by_cases hc2 : c2 = q
                      · rw [if_pos hc2] at h
                        injection h with h3
                        injection h3 with _ h4
                        have hsplit2 : ds2.length =
                            (ds2.takeWhile urlBodyChar).length + (c2 :: tl2).length := by
                          have h5 := congrArg List.length
                            (List.takeWhile_append_dropWhile
                              (p := urlBodyChar) (l := ds2))
                          rw [drop_length_takeWhile] at hdw2
                          rw [hdw2] at h5
                          simp at h5
                          simp
                          omega
                        constructor
                        · omega
                        · simp only [List.length_cons]
                          simp only [List.length_cons] at hsplit hsplit2
                          omega
                      · rw [if_neg hc2] at h
                        exact absurd h (by simp)
                · split at h
                  · rename_i rest1 heqm
                    injection heqm with e1 hm1
                    injection hm1 with e2 hm2
                    injection hm2 with hm3 e3
                    exact absurd hm3 h2
                  · exact absurd h (by simp)
            · split at h
              · rename_i rest1 heqm
                injection heqm with e1 hm1
                injection hm1 with hm3 e2
                exact absurd hm3 h1
              · exact absurd h (by simp)
        · split at h
          · rename_i rest1 heqm
            injection heqm with hm3 e1
            exact absurd hm3 h0
          · exact absurd h (by simp)
    · have ha2 : c0.isAlpha = false := by simpa using ha
      simp [ha2] at h

end Broddy

namespace Broddy

/-- Fuel irrelevance for `scanPassGo` under a consume-at-least-one
matcher. -/
theorem scanPassGo_fuel (try1 : List Char → Option (Nat × List Char))
    (htry : ∀ t k r, try1 t = some (k, r) → 1 ≤ k) :
    ∀ f1 f2 s, s.length ≤ f1 → s.length ≤ f2 →
      scanPassGo try1 f1 s = scanPassGo try1 f2 s := by
  intro f1
  induction f1 with
  | zero =>
    intro f2 s h1 _
    have : s = [] := List.eq_nil_of_length_eq_zero (by omega)
    subst this
    cases f2 <;> rfl
  | succ f ih =>
    intro f2 s h1 h2
    cases s with
    | nil => cases f2 <;> rfl
    | cons c cs =>
      cases f2 with
      | zero => simp at h2
      | succ f2' =>
        show (match try1 (c :: cs) with
          | some (k, r) => r ++ scanPassGo try1 f ((c :: cs).drop k)
          | none => c :: scanPassGo try1 f cs) =
          (match try1 (c :: cs) with
          | some (k, r) => r ++ scanPassGo try1 f2' ((c :: cs).drop k)
          | none => c :: scanPassGo try1 f2' cs)
        cases htr : try1 (c :: cs) with
        | none =>
          simp only
          congr 1
          exact ih f2' cs (by simpa using h1) (by simpa using h2)
        | some kr =>
          obtain ⟨k, r⟩ := kr
          have hk := htry _ _ _ htr
          simp only
          congr 1
          apply ih
          · rw [List.length_drop]
            simp only [List.length_cons] at h1 ⊢
            omega
          · rw [List.length_drop]
            simp only [List.length_cons] at h2 ⊢
            omega

theorem scanPass_nil (try1 : List Char → Option (Nat × List Char)) :
    scanPass try1 [] = [] := rfl

theorem scanPass_cons_none (try1 : List Char → Option (Nat × List Char))
    (htry : ∀ t k r, try1 t = some (k, r) → 1 ≤ k)
    (c : Char) (cs : List Char) (h : try1 (c :: cs) = none) :
    scanPass try1 (c :: cs) = c :: scanPass try1 cs := by
  show scanPassGo try1 (cs.length + 1) (c :: cs) = c :: scanPassGo try1 cs.length cs
  show (match try1 (c :: cs) with
    | some (k, r) => r ++ scanPassGo try1 cs.length ((c :: cs).drop k)
    | none => c :: scanPassGo try1 cs.length cs) = _
  rw [h]

theorem scanPass_cons_some (try1 : List Char → Option (Nat × List Char))
    (htry : ∀ t k r, try1 t = some (k, r) → 1 ≤ k)
    (c : Char) (cs : List Char) (k : Nat) (r : List Char)
    (h : try1 (c :: cs) = some (k, r)) :
    scanPass try1 (c :: cs) = r ++ scanPass try1 ((c :: cs).drop k) := by
  show scanPassGo try1 (cs.length + 1) (c :: cs) = _
  show (match try1 (c :: cs) with
    | some (k, r) => r ++ scanPassGo try1 cs.length ((c :: cs).drop k)
    | none => c :: scanPassGo try1 cs.length cs) = _
  rw [h]
  show r ++ scanPassGo try1 cs.length ((c :: cs).drop k) =
    r ++ scanPassGo try1 ((c :: cs).drop k).length ((c :: cs).drop k)
  congr 1
  apply scanPassGo_fuel try1 htry
  · have hk := htry _ _ _ h
    rw [List.length_drop]
    simp only [List.length_cons]
    omega
  · exact Nat.le_refl _

/-- A pass whose matcher fails whenever the head is not a quote skips
quote-free text. -/
theorem scanPass_skip (try1 : List Char → Option (Nat × List Char))
    (htry : ∀ t k r, try1 t = some (k, r) → 1 ≤ k)
    (hq : ∀ c cs, isQuote3 c = false → try1 (c :: cs) = none)
    (t z : List Char) (ht : ∀ c ∈ t, isQuote3 c = false) :
    scanPass try1 (t ++ z) = t ++ scanPass try1 z := by
  induction t with
  | nil => simp
  | cons c t' ih =>
    rw [List.cons_append,
      scanPass_cons_none try1 htry c (t' ++ z) (hq c _ (ht c (by simp))),
      ih (fun x hx => ht x (by simp [hx]))]
    rfl

/-- A pass every match of which replaces the matched text by itself is
the identity. -/
theorem scanPass_id (try1 : List Char → Option (Nat × List Char)) :
    ∀ (s : List Char),
      (∀ t, t <:+ s → ∀ k r, try1 t = some (k, r) →
        r = t.take k ∧ 1 ≤ k) →
      scanPass try1 s = s := by
  have main : ∀ fuel s, s.length ≤ fuel →
      (∀ t, t <:+ s → ∀ k r, try1 t = some (k, r) →
        r = t.take k ∧ 1 ≤ k) →
      scanPassGo try1 fuel s = s := by
    intro fuel
    induction fuel with
    | zero =>
      intro s h1 _
      have : s = [] := List.eq_nil_of_length_eq_zero (by omega)
      subst this
      rfl
    | succ f ih =>
      intro s hlen hcond
      cases s with
      | nil => rfl
      | cons c cs =>
        show (match try1 (c :: cs) with
          | some (k, r) => r ++ scanPassGo try1 f ((c :: cs).drop k)
          | none => c :: scanPassGo try1 f cs) = c :: cs
        cases htr : try1 (c :: cs) with
        | none =>
          simp only
          congr 1
          apply ih cs (by simpa using hlen)
          intro t hsuf k r htt
          exact hcond t (hsuf.trans (List.suffix_cons c cs)) k r htt
        | some kr =>
          obtain ⟨k, r⟩ := kr
          obtain ⟨hr, hk⟩ := hcond (c :: cs) List.suffix_rfl k r htr
          simp only
          rw [hr]
          have hrec : scanPassGo try1 f ((c :: cs).drop k) = (c :: cs).drop k := by
            apply ih
            · rw [List.length_drop]
              simp only [List.length_cons] at hlen ⊢
              omega
            · intro t hsuf k' r' htt
              exact hcond t (hsuf.trans (List.drop_suffix k (c :: cs))) k' r' htt
          rw [hrec, List.take_append_drop]
  intro s hcond
  exact main s.length s (Nat.le_refl _) hcond

end Broddy

namespace Broddy

theorem alistGet_mem (m : List (String × String)) (k v : String)
    (h : alistGet m k = some v) : (k, v) ∈ m := by
  induction m with
  | nil => simp [alistGet] at h
  | cons hd tl ih =>
    obtain ⟨k0, v0⟩ := hd
    simp only [alistGet] at h
    by_cases h0 : k0 = k
    · rw [if_pos h0] at h
      injection h with h1
      subst h0
      subst h1
      exact List.mem_cons_self _ _
    · rw [if_neg h0] at h
      exact List.mem_cons_of_mem _ (ih h)

theorem assetPath_cached (baseUrl : String) (st : AllocState) (url p : String)
    (h : alistGet st.filePathMap url = some p) :
    assetPath baseUrl st url = some (p, st) := by
  unfold assetPath
  rw [h]

theorem assetPath_hit (baseUrl : String) (st : AllocState) (url p : String)
    (st' : AllocState) (h : assetPath baseUrl st url = some (p, st')) :
    alistGet st'.filePathMap url = some p := by
  unfold assetPath at h
  cases hc : alistGet st.filePathMap url with
  | some q =>
    rw [hc] at h
    simp only [Option.some.injEq, Prod.mk.injEq] at h
    obtain ⟨hp, hst⟩ := h
    subst hp
    subst hst
    exact hc
  | none =>
    rw [hc] at h
    cases hparse : parseWith url baseUrl with
    | none => rw [hparse] at h; exact absurd h (by simp)
    | some u =>
      rw [hparse] at h
      simp only [Option.some.injEq, Prod.mk.injEq] at h
      obtain ⟨hp, hst⟩ := h
      rw [← hst]
      show alistGet (alistSet st.filePathMap url _) url = some p
      rw [← hp]
      exact alistGet_alistSet_self _ _ _

theorem litMatchUrl_eq (b url : List Char) (h : litMatchUrl b = some url) :
    url = b := by
  unfold litMatchUrl at h
  cases hs : schemeHead b with
  | none => rw [hs] at h; exact absurd h (by simp)
  | some pr =>
    obtain ⟨sch, tail⟩ := pr
    rw [hs] at h
    have h2 : (if tail ≠ [] ∧ tail.all urlBodyChar = true then some b
        else none) = some url := h
    by_cases hc : tail ≠ [] ∧ tail.all urlBodyChar = true
    · rw [if_pos hc] at h2
      injection h2 with h1
      exact h1.symm
    · rw [if_neg hc] at h2
      exact absurd h2 (by simp)

theorem litMatchUrl_none_no_colon (b : List Char) (h : ':' ∉ b) :
    litMatchUrl b = none := by
  unfold litMatchUrl
  cases hs : schemeHead b with
  | none => rfl
  | some pr =>
    exfalso
    obtain ⟨sch, tail⟩ := pr
    unfold schemeHead at hs
    cases b with
    | nil => exact absurd hs (by simp)
    | cons c0 rest0 =>
      by_cases ha : c0.isAlpha
      · simp only [ha, if_true] at hs
        cases hdw : rest0.drop (rest0.takeWhile isSchemeChar).length with
        | nil => rw [hdw] at hs; exact absurd hs (by simp)
        | cons d ds =>
          rw [hdw] at hs
          split at hs
          · rename_i rest1 heq
            apply h
            right
            have hd : d ∈ rest0.drop (rest0.takeWhile isSchemeChar).length := by
              rw [hdw]
              exact List.mem_cons_self _ _
            have hd2 := List.drop_subset _ rest0 hd
            injection heq with h1 _
            rw [h1] at hd2
            exact hd2
          · exact absurd hs (by simp)
      · simp [ha] at hs

theorem chSplit_subset (sep : Char) :
    ∀ (l : List Char) (r : List Char), r ∈ chSplit sep l → ∀ ch ∈ r, ch ∈ l := by
  intro l
  induction l with
  | nil =>
    intro r hr ch hch
    simp only [chSplit, List.mem_singleton] at hr
    subst hr
    exact absurd hch (by simp)
  | cons c cs ih =>
    intro r hr ch hch
    simp only [chSplit] at hr
    by_cases hcs : c = sep
    · rw [if_pos hcs] at hr
      rcases List.mem_cons.mp hr with h | h
      · subst h; exact absurd hch (by simp)
      · exact List.mem_cons_of_mem _ (ih r h ch hch)
    · rw [if_neg hcs] at hr
      cases hspl : chSplit sep cs with
      | nil => exact absurd hspl (chSplit_ne_nil sep cs)
      | cons p ps =>
        rw [hspl] at hr
        rcases List.mem_cons.mp hr with h | h
        · subst h
          rcases List.mem_cons.mp hch with h2 | h2
          · subst h2; exact List.mem_cons_self _ _
          · exact List.mem_cons_of_mem _
              (ih p (hspl ▸ List.mem_cons_self _ _) ch h2)
        · exact List.mem_cons_of_mem _
            (ih r (hspl ▸ List.mem_cons_of_mem _ h) ch hch)

theorem elimDotsGo_subset :
    ∀ (L : List (List Char)) (acc : List (List Char)) (r : List Char),
      r ∈ elimDotsGo acc L → r ∈ acc ∨ r ∈ L := by
  intro L
  induction L with
  | nil =>
    intro acc r hr
    simp only [elimDotsGo, List.mem_reverse] at hr
    exact Or.inl hr
  | cons s rest ih =>
    intro acc r hr
    simp only [elimDotsGo] at hr
    by_cases h1 : s = [] ∨ s = dotSeg
    · rw [if_pos h1] at hr
      rcases ih acc r hr with h | h
      · exact Or.inl h
      · exact Or.inr (List.mem_cons_of_mem _ h)
    · rw [if_neg h1] at hr
      by_cases h2 : s = dotDotSeg
      · rw [if_pos h2] at hr
        rcases ih acc.tail r hr with h | h
        · exact Or.inl (List.mem_of_mem_tail h)
        · exact Or.inr (List.mem_cons_of_mem _ h)
      · rw [if_neg h2] at hr
        rcases ih (s :: acc) r hr with h | h
        · rcases List.mem_cons.mp h with h3 | h3
          · exact Or.inr (h3 ▸ List.mem_cons_self _ _)
          · exact Or.inl h3
        · exact Or.inr (List.mem_cons_of_mem _ h)

theorem getRelativePath_chars (f t : String) :
    ∀ ch ∈ (getRelativePath f t).data, ch = '/' ∨ ch = '.' ∨ ch ∈ t.data := by
  intro ch hch
  rw [getRelativePath_eq] at hch
  simp only [pathRelative] at hch
  rcases mem_of_mem_chJoin '/' _ ch hch with h | ⟨r, hr, hcr⟩
  · exact Or.inl h
  · rcases List.mem_append.mp hr with h | h
    · have hdd : r = dotDotSeg := List.eq_of_mem_replicate h
      subst hdd
      right; left
      simpa [dotDotSeg] using hcr
    · right; right
      have hrs : r ∈ resolveSegsList t := List.drop_subset _ _ h
      unfold resolveSegsList at hrs
      rcases elimDotsGo_subset _ _ _ hrs with h2 | h2
      · exact absurd h2 (by simp)
      · exact chSplit_subset '/' t.data r h2 ch hcr

end Broddy

namespace Broddy

/-- Safe map values: every local path recorded in `filePathMap` is free
of quotes, whitespace and colons (true of all paths the allocator
derives from URL pathnames). -/
def mapPathsSafe (fpm : List (String × String)) : Bool :=
  fpm.all (fun p => p.2.data.all pathSafeChar)

/-- A literal body the generic quoted-URL pass leaves alone: it is not
shaped like an absolute URL, or the replacement decision declines it. -/
def stableLit (baseO : Url) (fpm : List (String × String)) (filePath : String)
    (b : List Char) : Prop :=
  litMatchUrl b = none ∨ urlRepl baseO fpm filePath b = none

/-- A chunk no pass can change. -/
def stableChunk (baseO : Url) (fpm : List (String × String))
    (filePath : String) : Chunk → Prop
  | .text _ => True
  | .lit _ b => stableLit baseO fpm filePath b

theorem urlRepl_shape (baseO : Url) (fpm : List (String × String))
    (filePath : String) (url : List Char) (rel : String)
    (h : urlRepl baseO fpm filePath url = some rel) :
    ∃ tp, alistGet fpm ⟨url⟩ = some tp ∧ rel = getRelativePath filePath tp := by
  unfold urlRepl at h
  cases hp : parseAbs ⟨url⟩ with
  | none => rw [hp] at h; exact absurd h (by simp)
  | some u =>
    rw [hp] at h
    have h2 : (if u.origin = baseO.origin ∧ alistHas fpm ⟨url⟩ = true then
        match alistGet fpm ⟨url⟩ with
        | some targetPath => some (getRelativePath filePath targetPath)
        | none => none
      else none) = some rel := h
    split at h2
    · cases hg : alistGet fpm ⟨url⟩ with
      | none => rw [hg] at h2; exact absurd h2 (by simp)
      | some tp =>
        rw [hg] at h2
        injection h2 with h1
        exact ⟨tp, rfl, h1.symm⟩
    · exact absurd h2 (by simp)

theorem rel_chars_safe (fpm : List (String × String))
    (hsafe : mapPathsSafe fpm = true) (s tp : String)
    (hg : alistGet fpm s = some tp) (filePath : String) :
    ∀ c ∈ (getRelativePath filePath tp).data,
      isQuote3 c = false ∧ c ≠ ':' := by
  intro c hc
  have hmem := alistGet_mem fpm s tp hg
  have htp : ∀ x ∈ tp.data, pathSafeChar x = true := by
    have h1 := List.all_eq_true.mp hsafe _ hmem
    exact fun x hx => List.all_eq_true.mp h1 x hx
  rcases getRelativePath_chars filePath tp c hc with h | h | h
  · subst h; constructor <;> decide
  · subst h; constructor <;> decide
  · have h2 : pathSafeChar c = true := htp c h
    simp only [pathSafeChar, decide_eq_true_eq] at h2
    refine ⟨?_, h2.2.2⟩
    cases hq : isQuote3 c
    · rfl
    · exact absurd hq h2.1

theorem rewriteChunk_lit (baseO : Url) (fpm : List (String × String))
    (filePath : String) (q : Char) (b : List Char) :
    rewriteChunk baseO fpm filePath (.lit q b) =
      (match litMatchUrl b with
      | none => Chunk.lit q b
      | some url =>
        match urlRepl baseO fpm filePath url with
        | some rel => Chunk.lit q rel.data
        | none => Chunk.lit q b) := rfl

theorem rewriteChunk_isText (baseO : Url) (fpm : List (String × String))
    (filePath : String) (c : Chunk) :
    (rewriteChunk baseO fpm filePath c).isText = c.isText := by
  cases c with
  | text t => rfl
  | lit q b =>
    rw [rewriteChunk_lit]
    cases litMatchUrl b with
    | none => rfl
    | some url =>
      show (match urlRepl baseO fpm filePath url with
        | some rel => Chunk.lit q rel.data
        | none => Chunk.lit q b).isText = (Chunk.lit q b).isText
      cases urlRepl baseO fpm filePath url with
      | none => rfl
      | some rel => rfl

theorem noAdjTexts_map (baseO : Url) (fpm : List (String × String))
    (filePath : String) :
    ∀ cs, noAdjTexts cs = true →
      noAdjTexts (cs.map (rewriteChunk baseO fpm filePath)) = true := by
  intro cs
  induction cs with
  | nil => intro _; rfl
  | cons c1 rest ih =>
    intro h
    cases rest with
    | nil => rfl
    | cons c2 rest2 =>
      simp only [noAdjTexts, Bool.and_eq_true] at h
      simp only [List.map_cons]
      show (!((rewriteChunk baseO fpm filePath c1).isText &&
          (rewriteChunk baseO fpm filePath c2).isText) &&
        noAdjTexts (rewriteChunk baseO fpm filePath c2 ::
          rest2.map (rewriteChunk baseO fpm filePath))) = true
      rw [Bool.and_eq_true]
      constructor
      · rw [rewriteChunk_isText, rewriteChunk_isText]
        exact h.1
      · have h2 := ih h.2
        simpa using h2

theorem wfChunk_rewrite (baseO : Url) (fpm : List (String × String))
    (filePath : String) (hsafe : mapPathsSafe fpm = true) (c : Chunk)
    (h : wfChunk c = true) :
    wfChunk (rewriteChunk baseO fpm filePath c) = true := by
  cases c with
  | text t => exact h
  | lit q b =>
    rw [rewriteChunk_lit]
    cases hm : litMatchUrl b with
    | none => exact h
    | some url =>
      show wfChunk (match urlRepl baseO fpm filePath url with
        | some rel => Chunk.lit q rel.data
        | none => Chunk.lit q b) = true
      cases hr : urlRepl baseO fpm filePath url with
      | none => exact h
      | some rel =>
        obtain ⟨tp, hg, hrel⟩ := urlRepl_shape baseO fpm filePath url rel hr
        simp only [wfChunk, Bool.and_eq_true] at h ⊢
        refine ⟨h.1, ?_⟩
        rw [List.all_eq_true]
        intro x hx
        have hx2 : x ∈ (getRelativePath filePath tp).data := hrel ▸ hx
        have h3 := (rel_chars_safe fpm hsafe _ tp hg filePath x hx2).1
        simp [h3]

theorem rewriteChunk_stable (baseO : Url) (fpm : List (String × String))
    (filePath : String) (hsafe : mapPathsSafe fpm = true) (c : Chunk) :
    stableChunk baseO fpm filePath (rewriteChunk baseO fpm filePath c) := by
  cases c with
  | text t => trivial
  | lit q b =>
    rw [rewriteChunk_lit]
    cases hm : litMatchUrl b with
    | none => exact Or.inl hm
    | some url =>
      show stableChunk baseO fpm filePath
        (match urlRepl baseO fpm filePath url with
        | some rel => Chunk.lit q rel.data
        | none => Chunk.lit q b)
      cases hr : urlRepl baseO fpm filePath url with
      | none =>
        have hub := litMatchUrl_eq b url hm
        right
        rw [← hub]
        exact hr
      | some rel =>
        left
        obtain ⟨tp, hg, hrel⟩ := urlRepl_shape baseO fpm filePath url rel hr
        have hcol : ':' ∉ (getRelativePath filePath tp).data := by
          intro hc
          exact (rel_chars_safe fpm hsafe _ tp hg filePath ':' hc).2 rfl
        show litMatchUrl rel.data = none
        rw [hrel]
        exact litMatchUrl_none_no_colon _ hcol

theorem rewriteChunk_of_stable (baseO : Url) (fpm : List (String × String))
    (filePath : String) (c : Chunk)
    (h : stableChunk baseO fpm filePath c) :
    rewriteChunk baseO fpm filePath c = c := by
  cases c with
  | text t => rfl
  | lit q b =>
    have h2 : litMatchUrl b = none ∨ urlRepl baseO fpm filePath b = none := h
    rw [rewriteChunk_lit]
    rcases h2 with h2 | h2
    · rw [h2]
    · cases hm : litMatchUrl b with
      | none => rfl
      | some url =>
        show (match urlRepl baseO fpm filePath url with
          | some rel => Chunk.lit q rel.data
          | none => Chunk.lit q b) = Chunk.lit q b
        rw [litMatchUrl_eq b url hm, h2]

theorem map_fix {α : Type} (f : α → α) :
    ∀ (l : List α), (∀ x ∈ l, f x = x) → l.map f = l := by
  intro l
  induction l with
  | nil => intro _; rfl
  | cons a as ih =>
    intro h
    simp only [List.map_cons]
    rw [h a (List.mem_cons_self _ _),
      ih (fun x hx => h x (List.mem_cons_of_mem _ hx))]

theorem wfChunks_map (baseO : Url) (fpm : List (String × String))
    (filePath : String) (hsafe : mapPathsSafe fpm = true) (cs : List Chunk)
    (h : wfChunks cs = true) :
    wfChunks (cs.map (rewriteChunk baseO fpm filePath)) = true := by
  rw [wfChunks, List.all_eq_true]
  intro x hx
  rcases List.mem_map.mp hx with ⟨y, hy, rfl⟩
  exact wfChunk_rewrite _ _ _ hsafe y
    (List.all_eq_true.mp (h : cs.all wfChunk = true) y hy)

theorem stable_map (baseO : Url) (fpm : List (String × String))
    (filePath : String) (hsafe : mapPathsSafe fpm = true) (cs : List Chunk) :
    ∀ x ∈ cs.map (rewriteChunk baseO fpm filePath),
      stableChunk baseO fpm filePath x := by
  intro x hx
  rcases List.mem_map.mp hx with ⟨y, hy, rfl⟩
  exact rewriteChunk_stable _ _ _ hsafe y

end Broddy

namespace Broddy

theorem jsGenericTry_cons (baseO : Url) (fpm : List (String × String))
    (filePath : String) (c : Char) (cs : List Char) :
    jsGenericTry baseO fpm filePath (c :: cs) =
      (if isQuote3 c = true then
        match tryMatch c cs with
        | some (url, k) =>
          some (k + 1,
            match urlRepl baseO fpm filePath url with
            | some rel => c :: (rel.data ++ [c])
            | none => c :: (url ++ [c]))
        | none => none
      else none) := rfl

theorem jsGenericTry_nonquote (baseO : Url) (fpm : List (String × String))
    (filePath : String) :
    ∀ c cs, isQuote3 c = false →
      jsGenericTry baseO fpm filePath (c :: cs) = none := by
  intro c cs hq
  rw [jsGenericTry_cons, if_neg]
  simp [hq]

theorem jsGenericTry_min (baseO : Url) (fpm : List (String × String))
    (filePath : String) :
    ∀ t k r, jsGenericTry baseO fpm filePath t = some (k, r) → 1 ≤ k := by
  intro t k r h
  cases t with
  | nil => exact absurd h (by simp [jsGenericTry])
  | cons c cs =>
    rw [jsGenericTry_cons] at h
    by_cases hq : isQuote3 c = true
    · rw [if_pos hq] at h
      cases htm : tryMatch c cs with
      | none => rw [htm] at h; exact absurd h (by simp)
      | some p =>
        obtain ⟨url, k2⟩ := p
        rw [htm] at h
        injection h with h1
        injection h1 with hk hr
        omega
    · rw [if_neg hq] at h
      exact absurd h (by simp)

theorem renderChunks_lit_cons (q : Char) (b : List Char) (rest : List Chunk) :
    renderChunks (Chunk.lit q b :: rest) = q :: (b ++ q :: renderChunks rest) := by
  rw [renderChunks_cons]
  show (q :: (b ++ [q])) ++ renderChunks rest = _
  simp

/-- The generic quoted-URL pass acts chunk-by-chunk on well-formed,
text-merged content: it is the render of the chunkwise rewrite. -/
theorem genericPass_hom (baseO : Url) (fpm : List (String × String))
    (filePath : String) :
    ∀ cs : List Chunk, wfChunks cs = true → noAdjTexts cs = true →
      scanPass (jsGenericTry baseO fpm filePath) (renderChunks cs) =
        renderChunks (cs.map (rewriteChunk baseO fpm filePath)) := by
  intro cs
  induction cs with
  | nil => intro _ _; rfl
  | cons c0 rest ih =>
    intro hwf hadj
    have hwfr := wfChunks_tail _ _ hwf
    have hadjr := noAdjTexts_tail _ _ hadj
    cases c0 with
    | text t =>
      rw [renderChunks_cons]
      show scanPass (jsGenericTry baseO fpm filePath)
        (t ++ renderChunks rest) = _
      have ht : ∀ c ∈ t, isQuote3 c = false := by
        have h1 := wfChunks_head _ _ hwf
        simp only [wfChunk, Bool.and_eq_true] at h1
        intro c hc
        have h2 := List.all_eq_true.mp h1.1 c hc
        simpa using h2
      rw [scanPass_skip _ (jsGenericTry_min baseO fpm filePath)
        (jsGenericTry_nonquote baseO fpm filePath) t _ ht]
      rw [ih hwfr hadjr, List.map_cons, renderChunks_cons]
      rfl
    | lit q b =>
      have hq : isQuote3 q = true := by
        have h1 := wfChunks_head _ _ hwf
        simp only [wfChunk, Bool.and_eq_true] at h1
        exact h1.1
      have hbq : ∀ c ∈ b, isQuote3 c = false := by
        have h1 := wfChunks_head _ _ hwf
        simp only [wfChunk, Bool.and_eq_true] at h1
        intro c hc
        have h2 := List.all_eq_true.mp h1.2 c hc
        simpa using h2
      rw [renderChunks_lit_cons]
      have htm := tryMatch_lit q hq b (renderChunks rest) hbq
      cases hm : litMatchUrl b with
      | none =>
        rw [hm] at htm
        have hg1 : jsGenericTry baseO fpm filePath
            (q :: (b ++ q :: renderChunks rest)) = none := by
          rw [jsGenericTry_cons, if_pos hq, htm]
          rfl
        rw [scanPass_cons_none _ (jsGenericTry_min baseO fpm filePath) _ _ hg1]
        rw [scanPass_skip _ (jsGenericTry_min baseO fpm filePath)
          (jsGenericTry_nonquote baseO fpm filePath) b _ hbq]
        have htm2 : tryMatch q (renderChunks rest) = none :=
          tryMatch_none_render q rest hwfr hadjr
        have hg2 : jsGenericTry baseO fpm filePath
            (q :: renderChunks rest) = none := by
          rw [jsGenericTry_cons, if_pos hq, htm2]
        rw [scanPass_cons_none _ (jsGenericTry_min baseO fpm filePath) _ _ hg2]
        rw [ih hwfr hadjr]
        have hfix : rewriteChunk baseO fpm filePath (Chunk.lit q b) =
            Chunk.lit q b := by
          rw [rewriteChunk_lit, hm]
        rw [List.map_cons, hfix, renderChunks_lit_cons]
      | some url =>
        have hub := litMatchUrl_eq b url hm
        rw [hub] at hm
        rw [hm] at htm
        have hg1 : jsGenericTry baseO fpm filePath
            (q :: (b ++ q :: renderChunks rest)) =
            some (b.length + 1 + 1,
              match urlRepl baseO fpm filePath b with
              | some rel => q :: (rel.data ++ [q])
              | none => q :: (b ++ [q])) := by
          rw [jsGenericTry_cons, if_pos hq, htm]
          rfl
        rw [scanPass_cons_some _ (jsGenericTry_min baseO fpm filePath) _ _ _ _ hg1]
        have hdrop : (q :: (b ++ q :: renderChunks rest)).drop (b.length + 1 + 1) =
            renderChunks rest := by
          rw [List.drop_succ_cons]
          rw [show b ++ q :: renderChunks rest =
            (b ++ [q]) ++ renderChunks rest by simp]
          exact List.drop_left' (by simp)
        rw [hdrop, ih hwfr hadjr]
        have hfix : rewriteChunk baseO fpm filePath (Chunk.lit q b) =
            (match urlRepl baseO fpm filePath b with
            | some rel => Chunk.lit q rel.data
            | none => Chunk.lit q b) := by
          rw [rewriteChunk_lit, hm]
        rw [List.map_cons, hfix, renderChunks_cons]
        cases hr : urlRepl baseO fpm filePath b with
        | none => rfl
        | some rel => rfl

end Broddy

namespace Broddy

theorem append_cons_split {α : Type} :
    ∀ (a w z : List α) (q : α) (u : List α),
      a ++ z = w ++ q :: u →
      (∃ u1, a = w ++ q :: u1 ∧ u = u1 ++ z) ∨
      (∃ w2, w = a ++ w2 ∧ z = w2 ++ q :: u) := by
  intro a
  induction a with
  | nil =>
    intro w z q u h
    right
    exact ⟨w, rfl, h⟩
  | cons x a2 ih =>
    intro w z q u h
    cases w with
    | nil =>
      left
      simp only [List.nil_append] at h ⊢
      rw [List.cons_append] at h
      injection h with h1 h2
      subst h1
      exact ⟨a2, rfl, h2.symm⟩
    | cons y w2 =>
      rw [List.cons_append, List.cons_append] at h
      injection h with h1 h2
      subst h1
      rcases ih w2 z q u h2 with ⟨u1, ha, hu⟩ | ⟨w3, hw, hz⟩
      · left
        exact ⟨u1, by rw [List.cons_append, ha], hu⟩
      · right
        exact ⟨w3, by rw [List.cons_append, hw], hz⟩

/-- In the render of well-formed, text-merged, stable chunks, every
quote character is a literal delimiter: the text after it is either a
whole-chunk render (closing quote) or a quote-free stable body followed
by the same quote and a whole-chunk render (opening quote). -/
theorem render_after_quote (baseO : Url) (fpm : List (String × String))
    (filePath : String) :
    ∀ (cs : List Chunk), wfChunks cs = true → noAdjTexts cs = true →
      (∀ x ∈ cs, stableChunk baseO fpm filePath x) →
      ∀ (w : List Char) (q : Char) (u : List Char), isQuote3 q = true →
        renderChunks cs = w ++ q :: u →
        (∃ rest, u = renderChunks rest ∧ wfChunks rest = true ∧
          noAdjTexts rest = true ∧
          (∀ x ∈ rest, stableChunk baseO fpm filePath x)) ∨
        (∃ b rest, u = b ++ q :: renderChunks rest ∧
          (∀ c ∈ b, isQuote3 c = false) ∧
          stableLit baseO fpm filePath b ∧
          wfChunks rest = true ∧ noAdjTexts rest = true ∧
          (∀ x ∈ rest, stableChunk baseO fpm filePath x)) := by
  intro cs
  induction cs with
  | nil =>
    intro _ _ _ w q u _ h
    exact absurd h (by simp [renderChunks])
  | cons c0 rest ih =>
    intro hwf hadj hst w q u hq h
    have hwfr := wfChunks_tail _ _ hwf
    have hadjr := noAdjTexts_tail _ _ hadj
    have hstr : ∀ x ∈ rest, stableChunk baseO fpm filePath x :=
      fun x hx => hst x (List.mem_cons_of_mem _ hx)
    cases c0 with
    | text t =>
      rw [renderChunks_cons] at h
      have h2 : t ++ renderChunks rest = w ++ q :: u := h
      rcases append_cons_split t w (renderChunks rest) q u h2 with
        ⟨u1, hteq, hu⟩ | ⟨w2, hw, hz⟩
      · exfalso
        have hqt : q ∈ t := by rw [hteq]; simp
        have h1 := wfChunks_head _ _ hwf
        simp only [wfChunk, Bool.and_eq_true] at h1
        have h3 := List.all_eq_true.mp h1.1 q hqt
        simp [hq] at h3
      · exact ih hwfr hadjr hstr w2 q u hq hz
    | lit q0 b =>
      rw [renderChunks_lit_cons] at h
      have hbq : ∀ c ∈ b, isQuote3 c = false := by
        have h1 := wfChunks_head _ _ hwf
        simp only [wfChunk, Bool.and_eq_true] at h1
        intro c hc
        have h3 := List.all_eq_true.mp h1.2 c hc
        simpa using h3
      have hsl : stableLit baseO fpm filePath b :=
        hst _ (List.mem_cons_self _ _)
      cases w with
      | nil =>
        simp only [List.nil_append] at h
        injection h with h1 h2
        subst h1
        right
        exact ⟨b, rest, h2.symm, hbq, hsl, hwfr, hadjr, hstr⟩
      | cons y w2 =>
        rw [List.cons_append] at h
        injection h with h1 h2
        rcases append_cons_split b w2 (q0 :: renderChunks rest) q u h2 with
          ⟨u1, hbeq, hu⟩ | ⟨w3, hw, hz⟩
        · exfalso
          have hqb : q ∈ b := by rw [hbeq]; simp
          have h3 := hbq q hqb
          simp [hq] at h3
        · cases w3 with
          | nil =>
            simp only [List.nil_append] at hz
            injection hz with hz1 hz2
            left
            exact ⟨rest, hz2.symm, hwfr, hadjr, hstr⟩
          | cons y2 w4 =>
            rw [List.cons_append] at hz
            injection hz with hz1 hz2
            exact ih hwfr hadjr hstr w4 q u hq hz2

end Broddy

namespace Broddy

theorem stripLit_eq (lit s r : List Char) (h : stripLit lit s = some r) :
    s = lit ++ r := by
  unfold stripLit at h
  split at h
  · rename_i htake
    injection h with h1
    rw [← htake, ← h1]
    exact (List.take_append_drop _ s).symm
  · exact absurd h (by simp)

theorem takeWhile_drop_decomp (p : Char → Bool) (l m : List Char)
    (h : l.drop (l.takeWhile p).length = m) :
    l = l.takeWhile p ++ m := by
  rw [← h, drop_length_takeWhile]
  exact (List.takeWhile_append_dropWhile _ _).symm

/-- Any successful quoted-URL core match right after a quote character
inside a stable render captures a full literal body that the replacement
decision declines. -/
theorem tryMatch_stable_render (baseO : Url) (fpm : List (String × String))
    (filePath : String) (cs : List Chunk) (hwf : wfChunks cs = true)
    (hadj : noAdjTexts cs = true)
    (hst : ∀ x ∈ cs, stableChunk baseO fpm filePath x)
    (w : List Char) (q : Char) (r3 : List Char) (hq : isQuote3 q = true)
    (hsplit : renderChunks cs = w ++ q :: r3)
    (url : List Char) (k : Nat) (htm : tryMatch q r3 = some (url, k)) :
    urlRepl baseO fpm filePath url = none := by
  rcases render_after_quote baseO fpm filePath cs hwf hadj hst w q r3 hq hsplit
    with ⟨rest, hu, hwfr, hadjr, _⟩ | ⟨b, rest, hu, hbq, hsl, _, _, _⟩
  · rw [hu, tryMatch_none_render q rest hwfr hadjr] at htm
    exact absurd htm (by simp)
  · rw [hu, tryMatch_lit q hq b _ hbq] at htm
    cases hm : litMatchUrl b with
    | none =>
      rw [hm] at htm
      exact absurd htm (by simp)
    | some url2 =>
      rw [hm] at htm
      have h1 : (some (url2, b.length + 1) : Option (List Char × Nat)) =
          some (url, k) := htm
      injection h1 with h2
      injection h2 with h3 h4
      have hb2 := litMatchUrl_eq b url2 hm
      rcases hsl with h5 | h5
      · rw [hm] at h5
        exact absurd h5 (by simp)
      · rw [← h3, hb2]
        exact h5

/-- The generic pass is the identity on a stable render. -/
theorem genericPass_id_stable (baseO : Url) (fpm : List (String × String))
    (filePath : String) (cs : List Chunk) (hwf : wfChunks cs = true)
    (hadj : noAdjTexts cs = true)
    (hst : ∀ x ∈ cs, stableChunk baseO fpm filePath x) :
    scanPass (jsGenericTry baseO fpm filePath) (renderChunks cs) =
      renderChunks cs := by
  rw [genericPass_hom baseO fpm filePath cs hwf hadj,
    map_fix _ cs (fun x hx => rewriteChunk_of_stable _ _ _ x (hst x hx))]

theorem tryFetch_some (baseO : Url) (fpm : List (String × String))
    (filePath : String) (t : List Char) (k : Nat) (r : List Char)
    (h : tryFetch baseO fpm filePath t = some (k, r)) :
    ∃ r1 r2 r3 q url k2,
      stripLit "fetch".data t = some r1 ∧
      r1.drop (r1.takeWhile isJsSpace).length = '(' :: r2 ∧
      r2.drop (r2.takeWhile isJsSpace).length = q :: r3 ∧
      isQuote3 q = true ∧
      tryMatch q r3 = some (url, k2) ∧
      k = 5 + (r1.takeWhile isJsSpace).length + 1 +
        (r2.takeWhile isJsSpace).length + 1 + k2 ∧
      r = (match urlRepl baseO fpm filePath url with
        | some rel => "fetch(".data ++ q :: (rel.data ++ [q])
        | none => t.take k) := by
  unfold tryFetch at h
  cases hs1 : stripLit "fetch".data t with
  | none => rw [hs1] at h; exact absurd h (by simp)
  | some r1 =>
    rw [hs1] at h
    have hA : (match r1.drop (r1.takeWhile isJsSpace).length with
      | '(' :: r2 =>
        match r2.drop (r2.takeWhile isJsSpace).length with
        | q :: r3 =>
          if isQuote3 q = true then
            match tryMatch q r3 with
            | some (url, k2) =>
              some (5 + (r1.takeWhile isJsSpace).length + 1 +
                  (r2.takeWhile isJsSpace).length + 1 + k2,
                match urlRepl baseO fpm filePath url with
                | some rel => "fetch(".data ++ q :: (rel.data ++ [q])
                | none => t.take (5 + (r1.takeWhile isJsSpace).length + 1 +
                    (r2.takeWhile isJsSpace).length + 1 + k2))
            | none => none
          else none
        | [] => none
      | _ => none) = some (k, r) := h
    clear h
    cases hd1 : r1.drop (r1.takeWhile isJsSpace).length with
    | nil => rw [hd1] at hA; exact absurd hA (by simp)
    | cons c1 r2 =>
      rw [hd1] at hA
      split at hA
      · rename_i r2x heq
        injection heq with hc1 hr2x
        subst hc1
        subst hr2x
        cases hd2 : r2.drop (r2.takeWhile isJsSpace).length with
        | nil => rw [hd2] at hA; exact absurd hA (by simp)
        | cons q r3 =>
          rw [hd2] at hA
          have h2 : (if isQuote3 q = true then
              match tryMatch q r3 with
              | some (url, k2) =>
                some (5 + (r1.takeWhile isJsSpace).length + 1 +
                    (r2.takeWhile isJsSpace).length + 1 + k2,
                  match urlRepl baseO fpm filePath url with
                  | some rel => "fetch(".data ++ q :: (rel.data ++ [q])
                  | none => t.take (5 + (r1.takeWhile isJsSpace).length + 1 +
                      (r2.takeWhile isJsSpace).length + 1 + k2))
              | none => none
            else none) = some (k, r) := hA
          by_cases hq : isQuote3 q = true
          · rw [if_pos hq] at h2
            cases htm : tryMatch q r3 with
            | none => rw [htm] at h2; exact absurd h2 (by simp)
            | some p =>
              obtain ⟨url, k2⟩ := p
              rw [htm] at h2
              have h3 : (some (5 + (r1.takeWhile isJsSpace).length + 1 +
                    (r2.takeWhile isJsSpace).length + 1 + k2,
                  match urlRepl baseO fpm filePath url with
                  | some rel => "fetch(".data ++ q :: (rel.data ++ [q])
                  | none => t.take (5 + (r1.takeWhile isJsSpace).length + 1 +
                      (r2.takeWhile isJsSpace).length + 1 + k2)) :
                  Option (Nat × List Char)) = some (k, r) := h2
              injection h3 with h4
              injection h4 with hk hr
              refine ⟨r1, r2, r3, q, url, k2, rfl, hd1, hd2, hq, htm,
                hk.symm, ?_⟩
              rw [← hk]
              exact hr.symm
          · rw [if_neg hq] at h2
            exact absurd h2 (by simp)
      · exact absurd hA (by simp)

/-- The `fetch(` pass is the identity on a stable render. -/
theorem tryFetch_id_stable (baseO : Url) (fpm : List (String × String))
    (filePath : String) (cs : List Chunk) (hwf : wfChunks cs = true)
    (hadj : noAdjTexts cs = true)
    (hst : ∀ x ∈ cs, stableChunk baseO fpm filePath x) :
    scanPass (tryFetch baseO fpm filePath) (renderChunks cs) =
      renderChunks cs := by
  apply scanPass_id
  intro t hsuf k r htf
  obtain ⟨r1, r2, r3, q, url, k2, hs1, hd1, hd2, hq, htm, hk, hr⟩ :=
    tryFetch_some baseO fpm filePath t k r htf
  obtain ⟨w0, hw0⟩ := hsuf
  have ht : t = "fetch".data ++ r1 := stripLit_eq _ _ _ hs1
  have hr1 : r1 = r1.takeWhile isJsSpace ++ ('(' :: r2) :=
    takeWhile_drop_decomp _ _ _ hd1
  have hr2 : r2 = r2.takeWhile isJsSpace ++ (q :: r3) :=
    takeWhile_drop_decomp _ _ _ hd2
  have hrender : renderChunks cs =
      (w0 ++ "fetch".data ++ r1.takeWhile isJsSpace ++
        '(' :: r2.takeWhile isJsSpace) ++ q :: r3 := by
    rw [← hw0]
    conv in t => rw [ht, hr1]
    conv in r2 => rw [hr2]
    simp [List.append_assoc]
  have hrepl := tryMatch_stable_render baseO fpm filePath cs hwf hadj hst
    _ q r3 hq hrender url k2 htm
  constructor
  · rw [hr, hrepl]
  · omega

end Broddy

namespace Broddy

theorem tryNewUrl_some (baseO : Url) (fpm : List (String × String))
    (filePath : String) (t : List Char) (k : Nat) (r : List Char)
    (h : tryNewUrl baseO fpm filePath t = some (k, r)) :
    ∃ r1 r2 r3 r4 q url k2,
      stripLit "new".data t = some r1 ∧
      stripLit "URL".data (r1.drop (r1.takeWhile isJsSpace).length) = some r2 ∧
      r2.drop (r2.takeWhile isJsSpace).length = '(' :: r3 ∧
      r3.drop (r3.takeWhile isJsSpace).length = q :: r4 ∧
      isQuote3 q = true ∧
      tryMatch q r4 = some (url, k2) ∧
      k = 3 + (r1.takeWhile isJsSpace).length + 3 +
        (r2.takeWhile isJsSpace).length + 1 +
        (r3.takeWhile isJsSpace).length + 1 + k2 ∧
      r = (match urlRepl baseO fpm filePath url with
        | some rel => "new URL(".data ++ q :: (rel.data ++ [q])
        | none => t.take k) := by
  unfold tryNewUrl at h
  cases hs1 : stripLit "new".data t with
  | none => rw [hs1] at h; exact absurd h (by simp)
  | some r1 =>
    rw [hs1] at h
    have hA : (if (r1.takeWhile isJsSpace).isEmpty = true then none
      else
        match stripLit "URL".data (r1.drop (r1.takeWhile isJsSpace).length) with
        | none => none
        | some r2 =>
          match r2.drop (r2.takeWhile isJsSpace).length with
          | '(' :: r3 =>
            match r3.drop (r3.takeWhile isJsSpace).length with
            | q :: r4 =>
              if isQuote3 q = true then
                match tryMatch q r4 with
                | some (url, k2) =>
                  some (3 + (r1.takeWhile isJsSpace).length + 3 +
                      (r2.takeWhile isJsSpace).length + 1 +
                      (r3.takeWhile isJsSpace).length + 1 + k2,
                    match urlRepl baseO fpm filePath url with
                    | some rel => "new URL(".data ++ q :: (rel.data ++ [q])
                    | none => t.take (3 + (r1.takeWhile isJsSpace).length + 3 +
                        (r2.takeWhile isJsSpace).length + 1 +
                        (r3.takeWhile isJsSpace).length + 1 + k2))
                | none => none
              else none
            | [] => none
          | _ => none) = some (k, r) := h
    clear h
    by_cases hws1 : (r1.takeWhile isJsSpace).isEmpty = true
    · rw [if_pos hws1] at hA
      exact absurd hA (by simp)
    · rw [if_neg hws1] at hA
      cases hs2 : stripLit "URL".data (r1.drop (r1.takeWhile isJsSpace).length) with
      | none => rw [hs2] at hA; exact absurd hA (by simp)
      | some r2 =>
        rw [hs2] at hA
        have hB : (match r2.drop (r2.takeWhile isJsSpace).length with
          | '(' :: r3 =>
            match r3.drop (r3.takeWhile isJsSpace).length with
            | q :: r4 =>
              if isQuote3 q = true then
                match tryMatch q r4 with
                | some (url, k2) =>
                  some (3 + (r1.takeWhile isJsSpace).length + 3 +
                      (r2.takeWhile isJsSpace).length + 1 +
                      (r3.takeWhile isJsSpace).length + 1 + k2,
                    match urlRepl baseO fpm filePath url with
                    | some rel => "new URL(".data ++ q :: (rel.data ++ [q])
                    | none => t.take (3 + (r1.takeWhile isJsSpace).length + 3 +
                        (r2.takeWhile isJsSpace).length + 1 +
                        (r3.takeWhile isJsSpace).length + 1 + k2))
                | none => none
              else none
            | [] => none
          | _ => none) = some (k, r) := hA
        clear hA
        cases hd2 : r2.drop (r2.takeWhile isJsSpace).length with
        | nil => rw [hd2] at hB; exact absurd hB (by simp)
        | cons c1 r3 =>
          rw [hd2] at hB
          split at hB
          · rename_i r3x heq
            injection heq with hc1 hr3x
            subst hc1
            subst hr3x
            cases hd3 : r3.drop (r3.takeWhile isJsSpace).length with
            | nil => rw [hd3] at hB; exact absurd hB (by simp)
            | cons q r4 =>
              rw [hd3] at hB
              have h2 : (if isQuote3 q = true then
                  match tryMatch q r4 with
                  | some (url, k2) =>
                    some (3 + (r1.takeWhile isJsSpace).length + 3 +
                        (r2.takeWhile isJsSpace).length + 1 +
                        (r3.takeWhile isJsSpace).length + 1 + k2,
                      match urlRepl baseO fpm filePath url with
                      | some rel => "new URL(".data ++ q :: (rel.data ++ [q])
                      | none => t.take (3 + (r1.takeWhile isJsSpace).length + 3 +
                          (r2.takeWhile isJsSpace).length + 1 +
                          (r3.takeWhile isJsSpace).length + 1 + k2))
                  | none => none
                else none) = some (k, r) := hB
              by_cases hq : isQuote3 q = true
              · rw [if_pos hq] at h2
                cases htm : tryMatch q r4 with
                | none => rw [htm] at h2; exact absurd h2 (by simp)
                | some p =>
                  obtain ⟨url, k2⟩ := p
                  rw [htm] at h2
                  have h3 : (some (3 + (r1.takeWhile isJsSpace).length + 3 +
                        (r2.takeWhile isJsSpace).length + 1 +
                        (r3.takeWhile isJsSpace).length + 1 + k2,
                      match urlRepl baseO fpm filePath url with
                      | some rel => "new URL(".data ++ q :: (rel.data ++ [q])
                      | none => t.take (3 + (r1.takeWhile isJsSpace).length + 3 +
                          (r2.takeWhile isJsSpace).length + 1 +
                          (r3.takeWhile isJsSpace).length + 1 + k2)) :
                      Option (Nat × List Char)) = some (k, r) := h2
                  injection h3 with h4
                  injection h4 with hk hr
                  refine ⟨r1, r2, r3, r4, q, url, k2, rfl, hs2, hd2, hd3, hq,
                    htm, hk.symm, ?_⟩
                  rw [← hk]
                  exact hr.symm
              · rw [if_neg hq] at h2
                exact absurd h2 (by simp)
          · exact absurd hB (by simp)

/-- The `new URL(` pass is the identity on a stable render. -/
theorem tryNewUrl_id_stable (baseO : Url) (fpm : List (String × String))
    (filePath : String) (cs : List Chunk) (hwf : wfChunks cs = true)
    (hadj : noAdjTexts cs = true)
    (hst : ∀ x ∈ cs, stableChunk baseO fpm filePath x) :
    scanPass (tryNewUrl baseO fpm filePath) (renderChunks cs) =
      renderChunks cs := by
  apply scanPass_id
  intro t hsuf k r htf
  obtain ⟨r1, r2, r3, r4, q, url, k2, hs1, hs2, hd2, hd3, hq, htm, hk, hr⟩ :=
    tryNewUrl_some baseO fpm filePath t k r htf
  obtain ⟨w0, hw0⟩ := hsuf
  have ht : t = "new".data ++ r1 := stripLit_eq _ _ _ hs1
  have hURL : r1.drop (r1.takeWhile isJsSpace).length = "URL".data ++ r2 :=
    stripLit_eq _ _ _ hs2
  have hr1d : r1 = r1.takeWhile isJsSpace ++ ("URL".data ++ r2) :=
    takeWhile_drop_decomp _ _ _ hURL
  have hr2d : r2 = r2.takeWhile isJsSpace ++ ('(' :: r3) :=
    takeWhile_drop_decomp _ _ _ hd2
  have hr3d : r3 = r3.takeWhile isJsSpace ++ (q :: r4) :=
    takeWhile_drop_decomp _ _ _ hd3
  have hrender : renderChunks cs =
      (w0 ++ "new".data ++ r1.takeWhile isJsSpace ++ "URL".data ++
        r2.takeWhile isJsSpace ++ '(' :: r3.takeWhile isJsSpace) ++ q :: r4 := by
    rw [← hw0]
    conv in t => rw [ht, hr1d]
    conv in r2 => rw [hr2d]
    conv in r3 => rw [hr3d]
    simp [List.append_assoc]
  have hrepl := tryMatch_stable_render baseO fpm filePath cs hwf hadj hst
    _ q r4 hq hrender url k2 htm
  constructor
  · rw [hr, hrepl]
  · omega

end Broddy

namespace Broddy

theorem rewriteUrls_skip (st : AllocState)
    (baseUrl fileUrl content fileType : String) (baseO fileO : Url)
    (filePath : String) (st1 : AllocState)
    (hb : parseAbs baseUrl = some baseO)
    (hf : parseWith fileUrl baseUrl = some fileO)
    (hap : assetPath baseUrl st fileUrl = some (filePath, st1))
    (horig : fileO.origin ≠ baseO.origin) :
    rewriteUrls st baseUrl fileUrl content fileType = some (content, st1) := by
  unfold rewriteUrls
  rw [hb, hf, hap]
  simp [horig]

theorem rewriteUrls_js (st : AllocState) (baseUrl fileUrl content : String)
    (baseO fileO : Url) (filePath : String) (st1 : AllocState)
    (hb : parseAbs baseUrl = some baseO)
    (hf : parseWith fileUrl baseUrl = some fileO)
    (hap : assetPath baseUrl st fileUrl = some (filePath, st1))
    (horig : ¬fileO.origin ≠ baseO.origin) :
    rewriteUrls st baseUrl fileUrl content "js" =
      some (⟨scanPass (tryNewUrl baseO st1.filePathMap filePath)
        (scanPass (tryFetch baseO st1.filePathMap filePath)
          (scanPass (jsGenericTry baseO st1.filePathMap filePath)
            content.data))⟩, st1) := by
  unfold rewriteUrls
  rw [hb, hf, hap]
  simp [horig]

/-- C5 (amended): on script content whose quotes are balanced — a
sequence of quote-free text runs (with no `://`) and quoted literals —
and whose allocator map records only paths free of quotes, whitespace
and colons, `rewriteUrls` is idempotent: running it a second time on its
own output with the same (completed) map reproduces that output exactly,
because every rewritten relative path no longer matches the quoted
`scheme://` detection.  (Without the balanced-quote condition this
fails; see the counterexample.) -/
theorem rewriteUrls_idempotent (st : AllocState) (baseUrl fileUrl : String)
    (cs : List Chunk) (out : String) (stOut : AllocState)
    (hwf : wfChunks cs = true) (hadj : noAdjTexts cs = true)
    (hsafe : mapPathsSafe stOut.filePathMap = true)
    (h1 : rewriteUrls st baseUrl fileUrl ⟨renderChunks cs⟩ "js" =
      some (out, stOut)) :
    rewriteUrls stOut baseUrl fileUrl out "js" = some (out, stOut) := by
  cases hb : parseAbs baseUrl with
  | none =>
    unfold rewriteUrls at h1
    rw [hb] at h1
    exact absurd h1 (by simp)
  | some baseO =>
  cases hf : parseWith fileUrl baseUrl with
  | none =>
    unfold rewriteUrls at h1
    rw [hb, hf] at h1
    exact absurd h1 (by simp)
  | some fileO =>
  cases hap : assetPath baseUrl st fileUrl with
  | none =>
    unfold rewriteUrls at h1
    rw [hb, hf, hap] at h1
    exact absurd h1 (by simp)
  | some pst =>
  obtain ⟨filePath, st1⟩ := pst
  have hcache : alistGet st1.filePathMap fileUrl = some filePath :=
    assetPath_hit baseUrl st fileUrl filePath st1 hap
  by_cases horig : fileO.origin ≠ baseO.origin
  · rw [rewriteUrls_skip st baseUrl fileUrl ⟨renderChunks cs⟩ "js" baseO fileO
      filePath st1 hb hf hap horig] at h1
    injection h1 with h2
    injection h2 with hout hst
    rw [← hst, ← hout]
    exact rewriteUrls_skip st1 baseUrl fileUrl ⟨renderChunks cs⟩ "js" baseO
      fileO filePath st1 hb hf
      (assetPath_cached baseUrl st1 fileUrl filePath hcache) horig
  · rw [rewriteUrls_js st baseUrl fileUrl ⟨renderChunks cs⟩ baseO fileO
      filePath st1 hb hf hap horig] at h1
    injection h1 with h2
    injection h2 with hout hst
    have hsafe1 : mapPathsSafe st1.filePathMap = true := by
      rw [hst]
      exact hsafe
    have hwf2 := wfChunks_map baseO st1.filePathMap filePath hsafe1 cs hwf
    have hadj2 := noAdjTexts_map baseO st1.filePathMap filePath cs hadj
    have hst2 := stable_map baseO st1.filePathMap filePath hsafe1 cs
    have hhom := genericPass_hom baseO st1.filePathMap filePath cs hwf hadj
    have hfet := tryFetch_id_stable baseO st1.filePathMap filePath
      (cs.map (rewriteChunk baseO st1.filePathMap filePath)) hwf2 hadj2 hst2
    have hnew := tryNewUrl_id_stable baseO st1.filePathMap filePath
      (cs.map (rewriteChunk baseO st1.filePathMap filePath)) hwf2 hadj2 hst2
    have hchain : scanPass (tryNewUrl baseO st1.filePathMap filePath)
        (scanPass (tryFetch baseO st1.filePathMap filePath)
          (scanPass (jsGenericTry baseO st1.filePathMap filePath)
            (String.data ⟨renderChunks cs⟩))) =
        renderChunks (cs.map (rewriteChunk baseO st1.filePathMap filePath)) := by
      show scanPass (tryNewUrl baseO st1.filePathMap filePath)
        (scanPass (tryFetch baseO st1.filePathMap filePath)
          (scanPass (jsGenericTry baseO st1.filePathMap filePath)
            (renderChunks cs))) = _
      rw [hhom, hfet, hnew]
    have hout2 : out =
        ⟨renderChunks (cs.map (rewriteChunk baseO st1.filePathMap filePath))⟩ := by
      rw [← hout, hchain]
    have hgen2 := genericPass_id_stable baseO st1.filePathMap filePath
      (cs.map (rewriteChunk baseO st1.filePathMap filePath)) hwf2 hadj2 hst2
    have hchain2 : scanPass (tryNewUrl baseO st1.filePathMap filePath)
        (scanPass (tryFetch baseO st1.filePathMap filePath)
          (scanPass (jsGenericTry baseO st1.filePathMap filePath)
            (String.data (⟨renderChunks (cs.map
              (rewriteChunk baseO st1.filePathMap filePath))⟩ : String)))) =
        renderChunks (cs.map (rewriteChunk baseO st1.filePathMap filePath)) := by
      show scanPass (tryNewUrl baseO st1.filePathMap filePath)
        (scanPass (tryFetch baseO st1.filePathMap filePath)
          (scanPass (jsGenericTry baseO st1.filePathMap filePath)
            (renderChunks (cs.map
              (rewriteChunk baseO st1.filePathMap filePath))))) = _
      rw [hgen2, hfet, hnew]
    rw [← hst, hout2]
    rw [rewriteUrls_js st1 baseUrl fileUrl
      ⟨renderChunks (cs.map (rewriteChunk baseO st1.filePathMap filePath))⟩
      baseO fileO filePath st1 hb hf
      (assetPath_cached baseUrl st1 fileUrl filePath hcache) horig]
    rw [hchain2]

/-- Witness for C5 (amended): the script `import("https://x.test/chunk.js")`
is rewritten once to `import("chunk.js")`, and a second run on that
output changes nothing. -/
theorem rewriteUrls_idempotent_witness :
    rewriteUrls (allocFold "https://x.test" emptyAlloc
        ["https://x.test/app.js", "https://x.test/chunk.js"])
      "https://x.test" "https://x.test/app.js"
      "import(\"https://x.test/chunk.js\")" "js" =
      some ("import(\"chunk.js\")",
        allocFold "https://x.test" emptyAlloc
          ["https://x.test/app.js", "https://x.test/chunk.js"]) ∧
    rewriteUrls (allocFold "https://x.test" emptyAlloc
        ["https://x.test/app.js", "https://x.test/chunk.js"])
      "https://x.test" "https://x.test/app.js"
      "import(\"chunk.js\")" "js" =
      some ("import(\"chunk.js\")",
        allocFold "https://x.test" emptyAlloc
          ["https://x.test/app.js", "https://x.test/chunk.js"]) := by
  refine ⟨by decide, ?_⟩
  exact rewriteUrls_idempotent
    (allocFold "https://x.test" emptyAlloc
      ["https://x.test/app.js", "https://x.test/chunk.js"])
    "https://x.test" "https://x.test/app.js"
    [Chunk.text "import(".data,
     Chunk.lit quoteDouble "https://x.test/chunk.js".data,
     Chunk.text ")".data]
    "import(\"chunk.js\")"
    (allocFold "https://x.test" emptyAlloc
      ["https://x.test/app.js", "https://x.test/chunk.js"])
    (by decide) (by decide) (by decide) (by decide)

end Broddy

namespace Broddy

/-! ### Discovery worklist loop (claim C6)
Source src/index.js lines 1018-1053: `toProcess` starts as the known
asset URLs, is shifted from the front (FIFO), each shifted URL is
skipped when already in `processedAssets` and otherwise recorded there
and fetched-and-scanned; every found URL not already known is recorded
in `assetUrls` and pushed at the back.  `refs` abstracts the URLs that
`extractAssets` yields for a fetched URL (a failed fetch contributes
none).  `processed` doubles as the fetch log: JS `Set` preserves
insertion order. -/

structure DiscState where
  assetUrls : List String
  processed : List String
  toProcess : List String
deriving Repr, DecidableEq

/-- The inner `for (const foundUrl of found)` loop: record and enqueue
URLs that are in neither `assetUrls` nor `processedAssets`. -/
def discFold (processed : List String) :
    List String → List String → List String → List String × List String
  | [], au, q => (au, q)
  | f :: rest, au, q =>
    if f ∈ au ∨ f ∈ processed then discFold processed rest au q
    else discFold processed rest (au ++ [f]) (q ++ [f])

/-- One iteration of the `while (toProcess.length > 0)` loop. -/
def discStep (refs : String → List String) (st : DiscState) : DiscState :=
  match st.toProcess with
  | [] => st
  | url :: rest =>
    if url ∈ st.processed then ⟨st.assetUrls, st.processed, rest⟩
    else
      let pr := st.processed ++ [url]
      let r := discFold pr (refs url) st.assetUrls rest
      ⟨r.1, pr, r.2⟩

/-- The discovery loop, with structural fuel. -/
def discLoop (refs : String → List String) : Nat → DiscState → DiscState
  | 0, st => st
  | fuel + 1, st =>
    match st.toProcess with
    | [] => st
    | _ :: _ => discLoop refs fuel (discStep refs st)

/-- Invariant of the discovery loop over a finite URL universe. -/
def DiscInv (Univ : List String) (st : DiscState) : Prop :=
  (∀ u ∈ st.assetUrls, u ∈ Univ) ∧
  (∀ u ∈ st.toProcess, u ∈ st.assetUrls) ∧
  (∀ u ∈ st.processed, u ∈ Univ) ∧
  st.processed.Nodup ∧ st.toProcess.Nodup

/-- Termination measure: unprocessed budget times a queue bound, plus
the queue length. -/
def discMeasure (Univ : List String) (st : DiscState) : Nat :=
  (Univ.length - st.processed.length) * (Univ.length + 1) +
    st.toProcess.length

theorem nodup_subset_length (l U : List String) (hn : l.Nodup)
    (hs : ∀ x ∈ l, x ∈ U) : l.length ≤ U.length :=
  (hn.subperm hs).length_le

theorem discFold_inv (Univ processed : List String) :
    ∀ (found au q : List String),
      (∀ u ∈ au, u ∈ Univ) → (∀ u ∈ q, u ∈ au) → q.Nodup →
      (∀ f ∈ found, f ∈ Univ) →
      (∀ u ∈ (discFold processed found au q).1, u ∈ Univ) ∧
      (∀ u ∈ (discFold processed found au q).2,
        u ∈ (discFold processed found au q).1) ∧
      (discFold processed found au q).2.Nodup := by
  intro found
  induction found with
  | nil =>
    intro au q h1 h2 h3 _
    exact ⟨h1, h2, h3⟩
  | cons f rest ih =>
    intro au q h1 h2 h3 hf
    simp only [discFold]
    by_cases hc : f ∈ au ∨ f ∈ processed
    · rw [if_pos hc]
      exact ih au q h1 h2 h3 (fun x hx => hf x (List.mem_cons_of_mem _ hx))
    · rw [if_neg hc]
      push_neg at hc
      apply ih
      · intro u hu
        rcases List.mem_append.mp hu with h | h
        · exact h1 u h
        · rw [List.mem_singleton] at h
          subst h
          exact hf u (List.mem_cons_self _ _)
      · intro u hu
        rcases List.mem_append.mp hu with h | h
        · exact List.mem_append.mpr (Or.inl (h2 u h))
        · exact List.mem_append.mpr (Or.inr h)
      · apply List.Nodup.append h3 (List.nodup_singleton f)
        intro x hx hx2
        rw [List.mem_singleton] at hx2
        subst hx2
        exact hc.1 (h2 x hx)
      · exact fun x hx => hf x (List.mem_cons_of_mem _ hx)

theorem discStep_inv (refs : String → List String) (Univ : List String)
    (hclosed : ∀ u ∈ Univ, ∀ v ∈ refs u, v ∈ Univ)
    (st : DiscState) (hinv : DiscInv Univ st) :
    DiscInv Univ (discStep refs st) := by
  obtain ⟨au0, proc0, tp0⟩ := st
  obtain ⟨h1, h2, h3, h4, h5⟩ := hinv
  cases tp0 with
  | nil => exact ⟨h1, h2, h3, h4, h5⟩
  | cons url rest =>
    simp only [discStep]
    by_cases hp : url ∈ proc0
    · rw [if_pos hp]
      refine ⟨h1, ?_, h3, h4, ?_⟩
      · exact fun u hu => h2 u (List.mem_cons_of_mem _ hu)
      · exact (List.nodup_cons.mp h5).2
    · rw [if_neg hp]
      have hurlU : url ∈ Univ := h1 url (h2 url (List.mem_cons_self _ _))
      have hfound : ∀ f ∈ refs url, f ∈ Univ := hclosed url hurlU
      have hrest1 : ∀ u ∈ rest, u ∈ au0 :=
        fun u hu => h2 u (List.mem_cons_of_mem _ hu)
      have hrest2 : rest.Nodup := (List.nodup_cons.mp h5).2
      obtain ⟨k1, k2, k3⟩ := discFold_inv Univ (proc0 ++ [url]) (refs url)
        au0 rest h1 hrest1 hrest2 hfound
      refine ⟨k1, k2, ?_, ?_, k3⟩
      · intro u hu
        rcases List.mem_append.mp hu with h | h
        · exact h3 u h
        · rw [List.mem_singleton] at h
          subst h
          exact hurlU
      · apply List.Nodup.append h4 (List.nodup_singleton url)
        intro x hx hx2
        rw [List.mem_singleton] at hx2
        subst hx2
        exact hp hx

theorem discStep_mu (refs : String → List String) (Univ : List String)
    (st : DiscState) (hinv : DiscInv Univ st)
    (hclosed : ∀ u ∈ Univ, ∀ v ∈ refs u, v ∈ Univ)
    (hne : st.toProcess ≠ []) :
    discMeasure Univ (discStep refs st) < discMeasure Univ st := by
  obtain ⟨au0, proc0, tp0⟩ := st
  obtain ⟨h1, h2, h3, h4, h5⟩ := hinv
  cases tp0 with
  | nil => exact absurd rfl hne
  | cons url rest =>
    simp only [discStep, discMeasure]
    by_cases hp : url ∈ proc0
    · rw [if_pos hp]
      simp only [List.length_cons]
      omega
    · rw [if_neg hp]
      have hurlU : url ∈ Univ := h1 url (h2 url (List.mem_cons_self _ _))
      have hfound : ∀ f ∈ refs url, f ∈ Univ := hclosed url hurlU
      have hrest1 : ∀ u ∈ rest, u ∈ au0 :=
        fun u hu => h2 u (List.mem_cons_of_mem _ hu)
      have hrest2 : rest.Nodup := (List.nodup_cons.mp h5).2
      obtain ⟨k1, k2, k3⟩ := discFold_inv Univ (proc0 ++ [url]) (refs url)
        au0 rest h1 hrest1 hrest2 hfound
      have hq2 : (discFold (proc0 ++ [url]) (refs url) au0 rest).2.length ≤
          Univ.length :=
        nodup_subset_length _ _ k3 (fun x hx => k1 x (k2 x hx))
      have hpn : (proc0 ++ [url]).Nodup := by
        apply List.Nodup.append h4 (List.nodup_singleton url)
        intro x hx hx2
        rw [List.mem_singleton] at hx2
        subst hx2
        exact hp hx
      have hpU : ∀ x ∈ proc0 ++ [url], x ∈ Univ := by
        intro x hx
        rcases List.mem_append.mp hx with h | h
        · exact h3 x h
        · rw [List.mem_singleton] at h
          subst h
          exact hurlU
      have hple : proc0.length + 1 ≤ Univ.length := by
        have := nodup_subset_length _ _ hpn hpU
        simpa using this
      simp only [List.length_append, List.length_singleton, List.length_cons,
        List.length_nil, Nat.zero_add]
      have hmul : (Univ.length - proc0.length) * (Univ.length + 1) =
          (Univ.length - (proc0.length + 1)) * (Univ.length + 1) +
            (Univ.length + 1) := by
        have h6 : Univ.length - proc0.length =
            (Univ.length - (proc0.length + 1)) + 1 := by omega
        rw [h6, Nat.succ_mul]
      omega

end Broddy

namespace Broddy

theorem discLoop_halts (refs : String → List String) (Univ : List String)
    (hclosed : ∀ u ∈ Univ, ∀ v ∈ refs u, v ∈ Univ) :
    ∀ (fuel : Nat) (st : DiscState), DiscInv Univ st →
      discMeasure Univ st ≤ fuel →
      (discLoop refs fuel st).toProcess = [] ∧
      DiscInv Univ (discLoop refs fuel st) := by
  intro fuel
  induction fuel with
  | zero =>
    intro st hinv hm
    have h0 : st.toProcess = [] := by
      apply List.eq_nil_of_length_eq_zero
      unfold discMeasure at hm
      omega
    exact ⟨h0, hinv⟩
  | succ f ih =>
    intro st hinv hm
    cases hq : st.toProcess with
    | nil =>
      have hred : discLoop refs (f + 1) st = st := by
        show (match st.toProcess with
          | [] => st
          | _ :: _ => discLoop refs f (discStep refs st)) = st
        rw [hq]
      rw [hred]
      exact ⟨hq, hinv⟩
    | cons url rest =>
      have hne : st.toProcess ≠ [] := by rw [hq]; simp
      have hred : discLoop refs (f + 1) st =
          discLoop refs f (discStep refs st) := by
        show (match st.toProcess with
          | [] => st
          | _ :: _ => discLoop refs f (discStep refs st)) = _
        rw [hq]
      rw [hred]
      have hstep := discStep_inv refs Univ hclosed st hinv
      have hmu := discStep_mu refs Univ st hinv hclosed hne
      exact ih (discStep refs st) hstep (by omega)

/-- C6: on every finite reference graph — a universe `Univ` of URLs
closed under the scan results `refs`, cycles included — the discovery
worklist loop halts: with the stated (quadratic) fuel the worklist
empties, and each distinct URL is fetched-and-scanned at most once (the
insertion-ordered `processedAssets` log is duplicate-free).  The
worklist is FIFO by construction: `discStep` shifts the next URL from
the front and pushes newly found URLs at the back. -/
theorem discovery_loop_terminates (refs : String → List String)
    (Univ : List String)
    (hclosed : ∀ u ∈ Univ, ∀ v ∈ refs u, v ∈ Univ)
    (st : DiscState) (hinv : DiscInv Univ st)
    (fuel : Nat) (hfuel : discMeasure Univ st ≤ fuel) :
    (discLoop refs fuel st).toProcess = [] ∧
    (discLoop refs fuel st).processed.Nodup := by
  obtain ⟨h1, h2⟩ := discLoop_halts refs Univ hclosed fuel st hinv hfuel
  exact ⟨h1, h2.2.2.2.1⟩

/-- Witness for C6: the two-element cycle — `a.js` references `b.js`
and `b.js` references `a.js` — starting from the page-discovered
`a.js`.  The loop halts and the fetch log is exactly `[a.js, b.js]`:
each fetched exactly once, in FIFO order. -/
theorem discovery_loop_terminates_witness :
    (discLoop
        (fun u => if u = "https://x.test/a.js" then ["https://x.test/b.js"]
          else if u = "https://x.test/b.js" then ["https://x.test/a.js"]
          else [])
        7 ⟨["https://x.test/a.js"], [], ["https://x.test/a.js"]⟩).toProcess
      = [] ∧
    (discLoop
        (fun u => if u = "https://x.test/a.js" then ["https://x.test/b.js"]
          else if u = "https://x.test/b.js" then ["https://x.test/a.js"]
          else [])
        7 ⟨["https://x.test/a.js"], [], ["https://x.test/a.js"]⟩).processed.Nodup ∧
    (discLoop
        (fun u => if u = "https://x.test/a.js" then ["https://x.test/b.js"]
          else if u = "https://x.test/b.js" then ["https://x.test/a.js"]
          else [])
        7 ⟨["https://x.test/a.js"], [], ["https://x.test/a.js"]⟩).processed
      = ["https://x.test/a.js", "https://x.test/b.js"] := by
  have h := discovery_loop_terminates
    (fun u => if u = "https://x.test/a.js" then ["https://x.test/b.js"]
      else if u = "https://x.test/b.js" then ["https://x.test/a.js"]
      else [])
    ["https://x.test/a.js", "https://x.test/b.js"]
    (by decide)
    ⟨["https://x.test/a.js"], [], ["https://x.test/a.js"]⟩
    (by unfold DiscInv; decide) 7 (by decide)
  exact ⟨h.1, h.2, by decide⟩

end Broddy

namespace Broddy

/-! ### `extractAssets` (claims C8, C9)
Source src/index.js lines 775-855 with the `PATTERNS` table at lines
599-629.  Each regex is modelled as a matcher returning the consumed
length of the full match and the URL capture; `matchAll`/`firstMatch`
drive them exactly as `String.prototype.matchAll`/`match` do. -/

/-- Substring test (JS `RegExp.test` for a literal alternative). -/
def containsSub (pat : List Char) : List Char → Bool
  | [] => decide (pat = [])
  | c :: rest => (stripLit pat (c :: rest)).isSome || containsSub pat rest

/-- JS `String.prototype.startsWith`. -/
def sstarts (s lit : String) : Bool := (stripLit lit.data s.data).isSome

/-- `new URL(url, baseUrl).href`, with a thrown `TypeError` as `none`. -/
def resolveHref (baseUrl url : String) : Option String :=
  match parseWith url baseUrl with
  | some u => some u.href
  | none => none

/-- Quoted capture core shared by the JS import patterns:
`[` + "\x60" + `'"]([^` + "\x60" + `"']+?)[` + "\x60" + `"']` — any
opening quote, a lazy non-empty run of non-quote characters, any
closing quote. -/
def quotedCap (s : List Char) : Option (Nat × List Char) :=
  match s with
  | [] => none
  | q :: rest =>
    if isQuote3 q then
      let cap := rest.takeWhile (fun c => !isQuote3 c)
      if cap.isEmpty then none
      else
        match rest.drop cap.length with
        | q2 :: _ => if isQuote3 q2 then some (cap.length + 2, cap) else none
        | [] => none
    else none

/-- Quoted capture followed by `\s*\)`. -/
def quotedCapClose (s : List Char) : Option (Nat × List Char) :=
  match quotedCap s with
  | none => none
  | some (k, cap) =>
    let rest := s.drop k
    let ws := rest.takeWhile isJsSpace
    match rest.drop ws.length with
    | ')' :: _ => some (k + ws.length + 1, cap)
    | _ => none

/-- JS_IMPORTS pattern 1: dynamic `import\s*\(\s*` + quoted capture +
`\s*\)`. -/
def patImportCall (s : List Char) : Option (Nat × List Char) :=
  match stripLit "import".data s with
  | none => none
  | some r1 =>
    let ws1 := r1.takeWhile isJsSpace
    match r1.drop ws1.length with
    | '(' :: r2 =>
      let ws2 := r2.takeWhile isJsSpace
      match quotedCapClose (r2.drop ws2.length) with
      | some (k, cap) => some (6 + ws1.length + 1 + ws2.length + k, cap)
      | none => none
    | _ => none

/-- Tail `\s+from\s+` + quoted capture of JS_IMPORTS pattern 2. -/
def fromTail (s : List Char) : Option (Nat × List Char) :=
  let ws1 := s.takeWhile isJsSpace
  if ws1.isEmpty then none
  else
    match stripLit "from".data (s.drop ws1.length) with
    | none => none
    | some r2 =>
      let ws2 := r2.takeWhile isJsSpace
      if ws2.isEmpty then none
      else
        match quotedCap (r2.drop ws2.length) with
        | some (k, cap) => some (ws1.length + 4 + ws2.length + k, cap)
        | none => none

/-- Lazy `.*?` expansion (no newline) before `fromTail`. -/
def lazyDotGo : Nat → Nat → List Char → Option (Nat × List Char)
  | 0, _, _ => none
  | fuel + 1, consumed, s =>
    match fromTail s with
    | some (k, cap) => some (consumed + k, cap)
    | none =>
      match s with
      | [] => none
      | c :: rest =>
        if c = '\n' then none else lazyDotGo fuel (consumed + 1) rest

/-- JS_IMPORTS pattern 2: `import\s+.*?\s+from\s+` + quoted capture. -/
def patImportFrom (s : List Char) : Option (Nat × List Char) :=
  match stripLit "import".data s with
  | none => none
  | some r1 =>
    let ws1 := r1.takeWhile isJsSpace
    if ws1.isEmpty then none
    else
      match lazyDotGo ((r1.drop ws1.length).length + 1) 0 (r1.drop ws1.length) with
      | some (k, cap) => some (6 + ws1.length + k, cap)
      | none => none

/-- JS_IMPORTS pattern 3: `require\s*\(\s*` + quoted capture + `\s*\)`. -/
def patRequire (s : List Char) : Option (Nat × List Char) :=
  match stripLit "require".data s with
  | none => none
  | some r1 =>
    let ws1 := r1.takeWhile isJsSpace
    match r1.drop ws1.length with
    | '(' :: r2 =>
      let ws2 := r2.takeWhile isJsSpace
      match quotedCapClose (r2.drop ws2.length) with
      | some (k, cap) => some (7 + ws1.length + 1 + ws2.length + k, cap)
      | none => none
    | _ => none

/-- JS_IMPORTS pattern 4: `new\s+URL\s*\(\s*` + quoted capture. -/
def patNewUrl (s : List Char) : Option (Nat × List Char) :=
  match stripLit "new".data s with
  | none => none
  | some r1 =>
    let ws1 := r1.takeWhile isJsSpace
    if ws1.isEmpty then none
    else
      match stripLit "URL".data (r1.drop ws1.length) with
      | none => none
      | some r2 =>
        let ws2 := r2.takeWhile isJsSpace
        match r2.drop ws2.length with
        | '(' :: r3 =>
          let ws3 := r3.takeWhile isJsSpace
          match quotedCap (r3.drop ws3.length) with
          | some (k, cap) =>
            some (3 + ws1.length + 3 + ws2.length + 1 + ws3.length + k, cap)
          | none => none
        | _ => none

/-- JS_IMPORTS pattern 5: `__webpack_require__\.p\s*\+\s*` + quoted
capture. -/
def patWebpackP (s : List Char) : Option (Nat × List Char) :=
  match stripLit "__webpack_require__.p".data s with
  | none => none
  | some r1 =>
    let ws1 := r1.takeWhile isJsSpace
    match r1.drop ws1.length with
    | '+' :: r2 =>
      let ws2 := r2.takeWhile isJsSpace
      match quotedCap (r2.drop ws2.length) with
      | some (k, cap) => some (21 + ws1.length + 1 + ws2.length + k, cap)
      | none => none
    | _ => none

/-- JS_IMPORTS pattern 6: `__webpack_public_path__\s*\+\s*` + quoted
capture. -/
def patWebpackPublic (s : List Char) : Option (Nat × List Char) :=
  match stripLit "__webpack_public_path__".data s with
  | none => none
  | some r1 =>
    let ws1 := r1.takeWhile isJsSpace
    match r1.drop ws1.length with
    | '+' :: r2 =>
      let ws2 := r2.takeWhile isJsSpace
      match quotedCap (r2.drop ws2.length) with
      | some (k, cap) => some (23 + ws1.length + 1 + ws2.length + k, cap)
      | none => none
    | _ => none

/-- JS_IMPORTS pattern 7: `__framer__url\s*` + quoted capture. -/
def patFramer (s : List Char) : Option (Nat × List Char) :=
  match stripLit "__framer__url".data s with
  | none => none
  | some r1 =>
    let ws1 := r1.takeWhile isJsSpace
    match quotedCap (r1.drop ws1.length) with
    | some (k, cap) => some (13 + ws1.length + k, cap)
    | none => none

/-- JS_IMPORTS pattern 8: `fetch\s*\(\s*` + quoted capture + `\s*\)`. -/
def patFetch (s : List Char) : Option (Nat × List Char) :=
  match stripLit "fetch".data s with
  | none => none
  | some r1 =>
    let ws1 := r1.takeWhile isJsSpace
    match r1.drop ws1.length with
    | '(' :: r2 =>
      let ws2 := r2.takeWhile isJsSpace
      match quotedCapClose (r2.drop ws2.length) with
      | some (k, cap) => some (5 + ws1.length + 1 + ws2.length + k, cap)
      | none => none
    | _ => none

/-- JS_IMPORTS pattern 9: `loadScript\s*\(\s*` + quoted capture +
`\s*\)`. -/
def patLoadScript (s : List Char) : Option (Nat × List Char) :=
  match stripLit "loadScript".data s with
  | none => none
  | some r1 =>
    let ws1 := r1.takeWhile isJsSpace
    match r1.drop ws1.length with
    | '(' :: r2 =>
      let ws2 := r2.takeWhile isJsSpace
      match quotedCapClose (r2.drop ws2.length) with
      | some (k, cap) => some (10 + ws1.length + 1 + ws2.length + k, cap)
      | none => none
    | _ => none

/-- JS_IMPORTS pattern 10: `\.lazy\s*\(\s*\(\)\s*=>\s*import\s*\(\s*` +
quoted capture + `\s*\)`. -/
def patLazy (s : List Char) : Option (Nat × List Char) :=
  match stripLit ".lazy".data s with
  | none => none
  | some r1 =>
    let ws1 := r1.takeWhile isJsSpace
    match r1.drop ws1.length with
    | '(' :: r2 =>
      let ws2 := r2.takeWhile isJsSpace
      match stripLit "()".data (r2.drop ws2.length) with
      | none => none
      | some r3 =>
        let ws3 := r3.takeWhile isJsSpace
        match stripLit "=>".data (r3.drop ws3.length) with
        | none => none
        | some r4 =>
          let ws4 := r4.takeWhile isJsSpace
          match stripLit "import".data (r4.drop ws4.length) with
          | none => none
          | some r5 =>
            let ws5 := r5.takeWhile isJsSpace
            match r5.drop ws5.length with
            | '(' :: r6 =>
              let ws6 := r6.takeWhile isJsSpace
              match quotedCapClose (r6.drop ws6.length) with
              | some (k, cap) =>
                some (5 + ws1.length + 1 + ws2.length + 2 + ws3.length + 2 +
                  ws4.length + 6 + ws5.length + 1 + ws6.length + k, cap)
              | none => none
            | _ => none
    | _ => none

/-- JS_IMPORTS pattern 11: `chunk:\s*` + quoted capture. -/
def patChunk (s : List Char) : Option (Nat × List Char) :=
  match stripLit "chunk:".data s with
  | none => none
  | some r1 =>
    let ws1 := r1.takeWhile isJsSpace
    match quotedCap (r1.drop ws1.length) with
    | some (k, cap) => some (6 + ws1.length + k, cap)
    | none => none

/-- The `PATTERNS.JS_IMPORTS` table, in source order. -/
def jsImportPats : List (List Char → Option (Nat × List Char)) :=
  [patImportCall, patImportFrom, patRequire, patNewUrl, patWebpackP,
   patWebpackPublic, patFramer, patFetch, patLoadScript, patLazy, patChunk]

end Broddy

namespace Broddy

/-- CSS_URLS pattern 1: `url\s*\(\s*(['"]?)([^)]+?)\1\s*\)`; on a
failed back-referenced close the optional quote group backtracks to
empty and the quote joins the body. -/
def patCssUrl (s : List Char) : Option (Nat × List Char) :=
  match stripLit "url".data s with
  | none => none
  | some r1 =>
    let ws1 := r1.takeWhile isJsSpace
    match r1.drop ws1.length with
    | '(' :: r2 =>
      let ws2 := r2.takeWhile isJsSpace
      match r2.drop ws2.length with
      | q :: r3 =>
        if q = quoteSingle ∨ q = quoteDouble then
          match cssLazyBodyQ q r3 with
          | some (b, k) => some (3 + ws1.length + 1 + ws2.length + 1 + k, b)
          | none =>
            match cssLazyBodyNoQ (q :: r3) with
            | some (b, k) => some (3 + ws1.length + 1 + ws2.length + k, b)
            | none => none
        else
          match cssLazyBodyNoQ (q :: r3) with
          | some (b, k) => some (3 + ws1.length + 1 + ws2.length + k, b)
          | none => none
      | [] => none
    | _ => none

/-- CSS_URLS pattern 2:
`@import\s+(?:url\s*\(\s*)?['"]([^'"]+?)['"](?:\s*\))?`; the quoted
part with the optional trailing `\s*\)`. -/
def atImportQuoted (s : List Char) : Option (Nat × List Char) :=
  match s with
  | [] => none
  | q :: r =>
    if q = quoteSingle ∨ q = quoteDouble then
      let cap := r.takeWhile (fun c => !(c = quoteSingle ∨ c = quoteDouble))
      if cap.isEmpty then none
      else
        match r.drop cap.length with
        | _ :: r2 =>
          let ws := r2.takeWhile isJsSpace
          match r2.drop ws.length with
          | ')' :: _ => some (1 + cap.length + 1 + ws.length + 1, cap)
          | _ => some (1 + cap.length + 1, cap)
        | [] => none
    else none

/-- CSS_URLS pattern 2, full matcher. -/
def patAtImport (s : List Char) : Option (Nat × List Char) :=
  match stripLit "@import".data s with
  | none => none
  | some r1 =>
    let ws1 := r1.takeWhile isJsSpace
    if ws1.isEmpty then none
    else
      let r2 := r1.drop ws1.length
      let withUrl : Option (Nat × List Char) :=
        match stripLit "url".data r2 with
        | some r3 =>
          let ws2 := r3.takeWhile isJsSpace
          match r3.drop ws2.length with
          | '(' :: r4 =>
            let ws3 := r4.takeWhile isJsSpace
            match atImportQuoted (r4.drop ws3.length) with
            | some (k, cap) => some (3 + ws2.length + 1 + ws3.length + k, cap)
            | none => none
          | _ => none
        | none => none
      match withUrl with
      | some (k, cap) => some (7 + ws1.length + k, cap)
      | none =>
        match atImportQuoted r2 with
        | some (k, cap) => some (7 + ws1.length + k, cap)
        | none => none

/-- CSS_URLS pattern 3: `src:\s*url\s*\(\s*(['"]?)([^)]+?)\1\s*\)`. -/
def patSrcUrl (s : List Char) : Option (Nat × List Char) :=
  match stripLit "src:".data s with
  | none => none
  | some r1 =>
    let ws1 := r1.takeWhile isJsSpace
    match patCssUrl (r1.drop ws1.length) with
    | some (k, cap) => some (4 + ws1.length + k, cap)
    | none => none

/-- The `PATTERNS.CSS_URLS` table, in source order. -/
def cssUrlPats : List (List Char → Option (Nat × List Char)) :=
  [patCssUrl, patAtImport, patSrcUrl]

/-- The key alternation of the JSON_ASSETS pattern: a key alternative
followed by the closing double quote; alternatives tried left to
right. -/
def keyAlt : List String → List Char → Option Nat
  | [], _ => none
  | k :: ks, s =>
    match stripLit k.data s with
    | some r =>
      match r with
      | c :: _ =>
        if c = quoteDouble then some (k.data.length + 1) else keyAlt ks s
      | [] => keyAlt ks s
    | none => keyAlt ks s

/-- JSON_ASSETS pattern:
`"(?:src|href|url|image|icon|logo|poster|thumbnail)"\s*:\s*"([^"]+?)"`. -/
def patJsonAsset (s : List Char) : Option (Nat × List Char) :=
  match s with
  | [] => none
  | c :: r =>
    if c = quoteDouble then
      match keyAlt ["src", "href", "url", "image", "icon", "logo",
          "poster", "thumbnail"] r with
      | some kk =>
        let r2 := r.drop kk
        let ws1 := r2.takeWhile isJsSpace
        match r2.drop ws1.length with
        | ':' :: r3 =>
          let ws2 := r3.takeWhile isJsSpace
          match r3.drop ws2.length with
          | c2 :: r4 =>
            if c2 = quoteDouble then
              let cap := r4.takeWhile (fun ch => !(ch = quoteDouble))
              if cap.isEmpty then none
              else
                match r4.drop cap.length with
                | _ :: _ =>
                  some (1 + kk + ws1.length + 1 + ws2.length + 1 +
                    cap.length + 1, cap)
                | [] => none
            else none
          | [] => none
        | _ => none
      | none => none
    else none

/-- The `PATTERNS.JSON_ASSETS` table. -/
def jsonAssetPats : List (List Char → Option (Nat × List Char)) :=
  [patJsonAsset]

/-- SOURCE_MAP pattern 1: `\/\/[#@]\s*sourceMappingURL=([^\s]+)`. -/
def patSmLine (s : List Char) : Option (Nat × List Char) :=
  match stripLit "//".data s with
  | none => none
  | some r1 =>
    match r1 with
    | [] => none
    | c :: r2 =>
      if c = '#' ∨ c = '@' then
        let ws := r2.takeWhile isJsSpace
        match stripLit "sourceMappingURL=".data (r2.drop ws.length) with
        | none => none
        | some r3 =>
          let cap := r3.takeWhile (fun ch => !isJsSpace ch)
          if cap.isEmpty then none
          else some (2 + 1 + ws.length + 17 + cap.length, cap)
      else none

/-- SOURCE_MAP pattern 2:
`\/\*[#@]\s*sourceMappingURL=([^\s*]+)\s*\*\/`. -/
def patSmBlock (s : List Char) : Option (Nat × List Char) :=
  match stripLit "/*".data s with
  | none => none
  | some r1 =>
    match r1 with
    | [] => none
    | c :: r2 =>
      if c = '#' ∨ c = '@' then
        let ws := r2.takeWhile isJsSpace
        match stripLit "sourceMappingURL=".data (r2.drop ws.length) with
        | none => none
        | some r3 =>
          let cap := r3.takeWhile (fun ch => !(isJsSpace ch ∨ ch = '*'))
          if cap.isEmpty then none
          else
            let r4 := r3.drop cap.length
            let ws2 := r4.takeWhile isJsSpace
            match stripLit "*/".data (r4.drop ws2.length) with
            | some _ =>
              some (2 + 1 + ws.length + 17 + cap.length + ws2.length + 2, cap)
            | none => none
      else none

/-- The `PATTERNS.SOURCE_MAP` table, in source order. -/
def sourceMapPats : List (List Char → Option (Nat × List Char)) :=
  [patSmLine, patSmBlock]

/-- The JS-branch per-capture decision (src lines 782-795): keep
absolute/`//` URLs, ignore `data:`/`#`, and resolve path-looking
references, dropping failures. -/
def classifyJs (baseUrl url : String) : Option String :=
  if url = "" then none
  else if sstarts url "http" || sstarts url "//" then
    some (if sstarts url "//" then ⟨"https:".data ++ url.data⟩ else url)
  else if !sstarts url "data:" && !sstarts url "#" then
    if (match url.data with
        | c :: _ => decide (c = '.') || decide (c = '/')
        | [] => false) ||
        containsSub ".js".data url.data || containsSub ".mjs".data url.data ||
        containsSub ".css".data url.data || containsSub ".json".data url.data ||
        containsSub ".wasm".data url.data || containsSub ".map".data url.data
    then resolveHref baseUrl url
    else none
  else none

/-- The CSS-branch per-capture decision (src lines 823-835). -/
def classifyCss (baseUrl url : String) : Option String :=
  if url = "" then none
  else if !sstarts url "data:" && !sstarts url "#" then
    if sstarts url "http" || sstarts url "//" then
      some (if sstarts url "//" then ⟨"https:".data ++ url.data⟩ else url)
    else resolveHref baseUrl url
  else none

/-- The JSON-branch per-capture decision (src lines 845-849). -/
def classifyJson (url : String) : Option String :=
  if url ≠ "" && sstarts url "http" then some url else none

/-- The source-map per-capture decision (src lines 801-816); note the
missing `data:`/`#` guard. -/
def classifySourceMap (baseUrl mapUrl : String) : Option String :=
  if mapUrl = "" then none
  else if sstarts mapUrl "http" then some mapUrl
  else resolveHref baseUrl mapUrl

/-- `found.add` of a classified reference (`Set` keeps insertion
order). -/
def addIf (found : List String) (o : Option String) : List String :=
  match o with
  | some u => setAdd found u
  | none => found

/-- `PATTERNS.X.forEach(pattern => [...code.matchAll(pattern)].forEach)`. -/
def scanBranch (pats : List (List Char → Option (Nat × List Char)))
    (classify : String → Option String) (code : String)
    (found : List String) : List String :=
  pats.foldl (fun acc p =>
    (matchAll p code.data).foldl (fun a cap => addIf a (classify ⟨cap⟩)) acc)
    found

/-- The source-map branch uses `code.match` (first match only). -/
def smBranch (pats : List (List Char → Option (Nat × List Char)))
    (classify : String → Option String) (code : String)
    (found : List String) : List String :=
  pats.foldl (fun acc p =>
    match firstMatch p code.data with
    | some cap => addIf acc (classify ⟨cap⟩)
    | none => acc) found

/-- Source `extractAssets` (src/index.js lines 775-855): scan the code
with the type-specific pattern tables and collect the classified
references. -/
def extractAssets (enableSourceMaps : Bool) (code fileType baseUrl : String) :
    List String :=
  let f0 : List String := []
  let f1 :=
    if fileType = "js" ∨ fileType = "mjs" then
      let fj := scanBranch jsImportPats (classifyJs baseUrl) code f0
      if enableSourceMaps then
        smBranch sourceMapPats (classifySourceMap baseUrl) code fj
      else fj
    else f0
  let f2 :=
    if fileType = "css" then scanBranch cssUrlPats (classifyCss baseUrl) code f1
    else f1
  if fileType = "json" then
    scanBranch jsonAssetPats (fun u => classifyJson u) code f2
  else f2

end Broddy

namespace Broddy

theorem sstarts_head (s lit : String) (c : Char) (t : List Char)
    (hl : lit.data = c :: t) (h : sstarts s lit = true) :
    ∃ r, s.data = c :: r := by
  unfold sstarts stripLit at h
  split at h
  · rename_i htake
    rw [hl] at htake
    simp only [List.length_cons] at htake
    cases hs : s.data with
    | nil => rw [hs] at htake; exact absurd htake (by simp)
    | cons d r =>
      rw [hs] at htake
      simp only [List.take_succ_cons] at htake
      injection htake with h1 h2
      subst h1
      exact ⟨r, rfl⟩
  · exact absurd h (by simp)

theorem sstarts_head_ne (s l1 l2 : String) (c1 c2 : Char)
    (t1 t2 : List Char) (h1d : l1.data = c1 :: t1) (h2d : l2.data = c2 :: t2)
    (hne : c1 ≠ c2) (h : sstarts s l1 = true) : sstarts s l2 = false := by
  obtain ⟨r, hr⟩ := sstarts_head s l1 c1 t1 h1d h
  cases hs : sstarts s l2
  · rfl
  · obtain ⟨r2, hr2⟩ := sstarts_head s l2 c2 t2 h2d hs
    rw [hr] at hr2
    injection hr2 with h3
    exact absurd h3 hne

theorem sstarts_ne_empty (s lit : String) (c : Char) (t : List Char)
    (hl : lit.data = c :: t) (h : sstarts s lit = true) : s ≠ "" := by
  obtain ⟨r, hr⟩ := sstarts_head s lit c t hl h
  intro he
  rw [he] at hr
  exact List.noConfusion hr

theorem classifyJs_data_none (baseUrl cap : String)
    (h : sstarts cap "data:" = true ∨ sstarts cap "#" = true) :
    classifyJs baseUrl cap = none := by
  rcases h with h | h
  · have hcap : cap ≠ "" := sstarts_ne_empty cap "data:" 'd' _ rfl h
    have hh : sstarts cap "http" = false :=
      sstarts_head_ne cap "data:" "http" 'd' 'h' _ _ rfl rfl (by decide) h
    have hs : sstarts cap "//" = false :=
      sstarts_head_ne cap "data:" "//" 'd' '/' _ _ rfl rfl (by decide) h
    simp [classifyJs, hcap, hh, hs, h]
  · have hcap : cap ≠ "" := sstarts_ne_empty cap "#" '#' _ rfl h
    have hh : sstarts cap "http" = false :=
      sstarts_head_ne cap "#" "http" '#' 'h' _ _ rfl rfl (by decide) h
    have hs : sstarts cap "//" = false :=
      sstarts_head_ne cap "#" "//" '#' '/' _ _ rfl rfl (by decide) h
    simp [classifyJs, hcap, hh, hs, h]

theorem classifyCss_data_none (baseUrl cap : String)
    (h : sstarts cap "data:" = true ∨ sstarts cap "#" = true) :
    classifyCss baseUrl cap = none := by
  rcases h with h | h
  · have hcap : cap ≠ "" := sstarts_ne_empty cap "data:" 'd' _ rfl h
    simp [classifyCss, hcap, h]
  · have hcap : cap ≠ "" := sstarts_ne_empty cap "#" '#' _ rfl h
    simp [classifyCss, hcap, h]

theorem classifyJson_data_none (cap : String)
    (h : sstarts cap "data:" = true ∨ sstarts cap "#" = true) :
    classifyJson cap = none := by
  rcases h with h | h
  · have hh : sstarts cap "http" = false :=
      sstarts_head_ne cap "data:" "http" 'd' 'h' _ _ rfl rfl (by decide) h
    simp [classifyJson, hh]
  · have hh : sstarts cap "http" = false :=
      sstarts_head_ne cap "#" "http" '#' 'h' _ _ rfl rfl (by decide) h
    simp [classifyJson, hh]

theorem mem_setAdd (l : List String) (v u : String) (h : u ∈ setAdd l v) :
    u ∈ l ∨ u = v := by
  unfold setAdd at h
  split at h
  · exact Or.inl h
  · rcases List.mem_append.mp h with h2 | h2
    · exact Or.inl h2
    · rw [List.mem_singleton] at h2
      exact Or.inr h2

theorem mem_addIf (l : List String) (o : Option String) (u : String)
    (h : u ∈ addIf l o) : u ∈ l ∨ o = some u := by
  cases o with
  | none => exact Or.inl h
  | some v =>
    rcases mem_setAdd l v u h with h2 | h2
    · exact Or.inl h2
    · exact Or.inr (by rw [h2])

theorem mem_capsFold (cl : String → Option String) :
    ∀ (caps : List (List Char)) (acc : List String) (u : String),
      u ∈ caps.foldl (fun a cap => addIf a (cl ⟨cap⟩)) acc →
      u ∈ acc ∨ ∃ cap : String, cl cap = some u := by
  intro caps
  induction caps with
  | nil =>
    intro acc u h
    exact Or.inl h
  | cons c cs ih =>
    intro acc u h
    simp only [List.foldl_cons] at h
    rcases ih _ u h with h2 | h2
    · rcases mem_addIf acc (cl ⟨c⟩) u h2 with h3 | h3
      · exact Or.inl h3
      · exact Or.inr ⟨⟨c⟩, h3⟩
    · exact Or.inr h2

theorem mem_scanBranch (cl : String → Option String) (code : String) :
    ∀ (pats : List (List Char → Option (Nat × List Char)))
      (found : List String) (u : String),
      u ∈ scanBranch pats cl code found →
      u ∈ found ∨ ∃ cap : String, cl cap = some u := by
  intro pats
  induction pats with
  | nil =>
    intro found u h
    exact Or.inl h
  | cons p ps ih =>
    intro found u h
    have h2 : scanBranch (p :: ps) cl code found =
        scanBranch ps cl code ((matchAll p code.data).foldl
          (fun a cap => addIf a (cl ⟨cap⟩)) found) := rfl
    rw [h2] at h
    rcases ih _ u h with h3 | h3
    · rcases mem_capsFold cl (matchAll p code.data) found u h3 with h4 | h4
      · exact Or.inl h4
      · exact Or.inr h4
    · exact Or.inr h3

theorem mem_extractAssets_false (code fileType baseUrl u : String)
    (h : u ∈ extractAssets false code fileType baseUrl) :
    (∃ cap, classifyJs baseUrl cap = some u) ∨
    (∃ cap, classifyCss baseUrl cap = some u) ∨
    (∃ cap, classifyJson cap = some u) := by
  unfold extractAssets at h
  simp only [Bool.false_eq_true, if_false] at h
  by_cases h1 : fileType = "js" ∨ fileType = "mjs"
  · have h2 : ¬fileType = "css" := by
      rcases h1 with h1 | h1 <;> rw [h1] <;> decide
    have h3 : ¬fileType = "json" := by
      rcases h1 with h1 | h1 <;> rw [h1] <;> decide
    rw [if_pos h1, if_neg h2, if_neg h3] at h
    rcases mem_scanBranch _ code _ _ u h with h4 | h4
    · exact absurd h4 (by simp)
    · exact Or.inl h4
  · rw [if_neg h1] at h
    by_cases h2 : fileType = "css"
    · have h3 : ¬fileType = "json" := by rw [h2]; decide
      rw [if_pos h2, if_neg h3] at h
      rcases mem_scanBranch _ code _ _ u h with h4 | h4
      · exact absurd h4 (by simp)
      · exact Or.inr (Or.inl h4)
    · rw [if_neg h2] at h
      by_cases h3 : fileType = "json"
      · rw [if_pos h3] at h
        rcases mem_scanBranch _ code _ _ u h with h4 | h4
        · exact absurd h4 (by simp)
        · exact Or.inr (Or.inr h4)
      · rw [if_neg h3] at h
        exact absurd h (by simp)

end Broddy

namespace Broddy

/-- C8 (amended): extraction is total — malformed references whose
resolution fails yield `none` inside the classifiers and are silently
dropped — and, with source maps disabled, every extracted reference is
produced by one of the three branch classifiers from a capture that
does not start with `data:` or `#`: such captures are always ignored.
(With source maps enabled the source-map branch lacks this guard and a
`data:` directive IS extracted; see the counterexample.) -/
theorem extractAssets_ignores_data_and_frag (code fileType baseUrl : String) :
    ∀ u ∈ extractAssets false code fileType baseUrl,
      ∃ cap : String,
        sstarts cap "data:" = false ∧ sstarts cap "#" = false ∧
        (classifyJs baseUrl cap = some u ∨ classifyCss baseUrl cap = some u ∨
          classifyJson cap = some u) := by
  intro u hu
  rcases mem_extractAssets_false code fileType baseUrl u hu with
    ⟨cap, hc⟩ | ⟨cap, hc⟩ | ⟨cap, hc⟩
  · refine ⟨cap, ?_, ?_, Or.inl hc⟩
    · cases hb : sstarts cap "data:"
      · rfl
      · rw [classifyJs_data_none baseUrl cap (Or.inl hb)] at hc
        exact absurd hc (by simp)
    · cases hb : sstarts cap "#"
      · rfl
      · rw [classifyJs_data_none baseUrl cap (Or.inr hb)] at hc
        exact absurd hc (by simp)
  · refine ⟨cap, ?_, ?_, Or.inr (Or.inl hc)⟩
    · cases hb : sstarts cap "data:"
      · rfl
      · rw [classifyCss_data_none baseUrl cap (Or.inl hb)] at hc
        exact absurd hc (by simp)
    · cases hb : sstarts cap "#"
      · rfl
      · rw [classifyCss_data_none baseUrl cap (Or.inr hb)] at hc
        exact absurd hc (by simp)
  · refine ⟨cap, ?_, ?_, Or.inr (Or.inr hc)⟩
    · cases hb : sstarts cap "data:"
      · rfl
      · rw [classifyJson_data_none cap (Or.inl hb)] at hc
        exact absurd hc (by simp)
    · cases hb : sstarts cap "#"
      · rfl
      · rw [classifyJson_data_none cap (Or.inr hb)] at hc
        exact absurd hc (by simp)

/-- Witness for C8 (amended): a script referencing a real chunk, a
`data:` URI and a fragment: only the chunk is extracted, and the
guarantee applies to it. -/
theorem extractAssets_ignores_data_and_frag_witness :
    extractAssets false
      "import(\"https://x.test/chunk.js\");import(\"data:text/javascript,1\");import(\"#f\")"
      "js" "https://x.test" = ["https://x.test/chunk.js"] ∧
    (∃ cap : String,
      sstarts cap "data:" = false ∧ sstarts cap "#" = false ∧
      (classifyJs "https://x.test" cap = some "https://x.test/chunk.js" ∨
        classifyCss "https://x.test" cap = some "https://x.test/chunk.js" ∨
        classifyJson cap = some "https://x.test/chunk.js")) :=
  ⟨by decide,
    extractAssets_ignores_data_and_frag
      "import(\"https://x.test/chunk.js\");import(\"data:text/javascript,1\");import(\"#f\")"
      "js" "https://x.test" "https://x.test/chunk.js" (by decide)⟩

/-- C8 counterexample: with source maps enabled, a `data:` source-map
directive is NOT treated as ignore — the source-map branch
(src/index.js lines 800-818) has no `data:`/`#` guard, so the data URI
is added to the extracted set. -/
theorem extractAssets_data_uri_cex :
    extractAssets true "//# sourceMappingURL=data:application/json,e30"
      "js" "https://x.test" = ["data:application/json,e30"] ∧
    sstarts "data:application/json,e30" "data:" = true :=
  ⟨by decide, by decide⟩

end Broddy

namespace Broddy

/-! ### Full-run pipeline (claims C1, C7, C9)
Source src/index.js lines 859-1195: page download and rewrite (phase 1),
HTML scan (phase 2), dependency discovery (phase 3), path pre-allocation
(phase 4), asset download/rewrite/source-map handling (phase 5), and
asset save (phase 6).  Cheerio documents are modelled as flat element
lists (`load`/`$.html()` round-trip the structure, so saved pages store
the document); `fetch`+`download` are a partial map from URL to body;
the dead `sourceMapUrls` map (written at line 811, never read) is not
tracked. -/

structure Elem where
  tag : String
  attrs : List (String × String)
  inner : String
deriving Repr, DecidableEq

inductive FileContent
  | doc (d : List Elem)
  | bin (s : String)
deriving Repr, DecidableEq

/-- Output-directory lookup (`fs.stat`/`fs.readFile`). -/
def fsGet (m : List (String × FileContent)) (k : String) : Option FileContent :=
  match m with
  | [] => none
  | (k2, v) :: rest => if k2 = k then some v else fsGet rest k

/-- `save` (overwrite in place, append new). -/
def fsSet (m : List (String × FileContent)) (k : String) (v : FileContent) :
    List (String × FileContent) :=
  match m with
  | [] => [(k, v)]
  | (k2, v2) :: rest =>
    if k2 = k then (k, v) :: rest else (k2, v2) :: fsSet rest k v

/-- JS `String.prototype.endsWith`. -/
def sends (s lit : String) : Bool :=
  (stripLit lit.data.reverse s.data.reverse).isSome

/-- Parsing modes of the `JSON.parse` validity model. -/
inductive JMode
  | val
  | members
  | items
deriving Repr

/-- `JSON.parse` validity (no string escapes, as the scenarios need
none); fuel-indexed recognizer returning the unconsumed rest. -/
def jsonGo : Nat → JMode → List Char → Option (List Char)
  | 0, _, _ => none
  | fuel + 1, JMode.val, s0 =>
    let s := s0.dropWhile isJsSpace
    match s with
    | [] => none
    | c :: rest =>
      if c = quoteDouble then
        let body := rest.takeWhile (fun d => !(d = quoteDouble))
        match rest.drop body.length with
        | _ :: r2 => some r2
        | [] => none
      else if c = Char.ofNat 123 then
        let r1 := rest.dropWhile isJsSpace
        match r1 with
        | [] => none
        | d :: r2 =>
          if d = Char.ofNat 125 then some r2 else jsonGo fuel JMode.members r1
      else if c = '[' then
        let r1 := rest.dropWhile isJsSpace
        match r1 with
        | [] => none
        | d :: r2 => if d = ']' then some r2 else jsonGo fuel JMode.items r1
      else if c.isDigit || decide (c = '-') then
        some (rest.dropWhile (fun d =>
          d.isDigit || decide (d = '.') || decide (d = '-') ||
          decide (d = '+') || decide (d = 'e') || decide (d = 'E')))
      else if (stripLit "true".data s).isSome then some (s.drop 4)
      else if (stripLit "false".data s).isSome then some (s.drop 5)
      else if (stripLit "null".data s).isSome then some (s.drop 4)
      else none
  | fuel + 1, JMode.members, s =>
    match s with
    | [] => none
    | c :: rest =>
      if c = quoteDouble then
        let key := rest.takeWhile (fun d => !(d = quoteDouble))
        match rest.drop key.length with
        | [] => none
        | _ :: r2 =>
          let r3 := r2.dropWhile isJsSpace
          match r3 with
          | ':' :: r4 =>
            match jsonGo fuel JMode.val r4 with
            | none => none
            | some r5 =>
              let r6 := r5.dropWhile isJsSpace
              match r6 with
              | [] => none
              | ',' :: r7 => jsonGo fuel JMode.members (r7.dropWhile isJsSpace)
              | d :: r7 => if d = Char.ofNat 125 then some r7 else none
          | _ => none
      else none
  | fuel + 1, JMode.items, s =>
    match jsonGo fuel JMode.val s with
    | none => none
    | some r1 =>
      let r2 := r1.dropWhile isJsSpace
      match r2 with
      | [] => none
      | ',' :: r3 => jsonGo fuel JMode.items r3
      | d :: r3 => if d = ']' then some r3 else none

/-- `JSON.parse(s)` succeeds. -/
def jsonParseable (s : String) : Bool :=
  match jsonGo (s.data.length + 8) JMode.val s.data with
  | some r => (r.dropWhile isJsSpace).isEmpty
  | none => false

/-- The excluded class of the data-attribute URL regex
`https?:\/\/[^\s"'<>\x7b\x7d|\\^\x60\]]+`. -/
def urlAttrStop (c : Char) : Bool :=
  isJsSpace c ∨ c = quoteDouble ∨ c = quoteSingle ∨ c = '<' ∨ c = '>' ∨
  c = Char.ofNat 123 ∨ c = Char.ofNat 125 ∨ c = '|' ∨ c = '\\' ∨ c = '^' ∨
  c = backQuote ∨ c = ']'

/-- The `http://` arm of the URL regex (the `s?` backtracked away). -/
def patAbsUrlNoS (r1 : List Char) : Option (Nat × List Char) :=
  match stripLit "://".data r1 with
  | some r3 =>
    let body := r3.takeWhile (fun c => !urlAttrStop c)
    if body.isEmpty then none
    else some (4 + 3 + body.length, "http://".data ++ body)
  | none => none

/-- Wildcard attribute scan regex (src line 996); payload is the full
match. -/
def patAbsUrlHttp (s : List Char) : Option (Nat × List Char) :=
  match stripLit "http".data s with
  | none => none
  | some r1 =>
    match r1 with
    | 's' :: r2 =>
      match stripLit "://".data r2 with
      | some r3 =>
        let body := r3.takeWhile (fun c => !urlAttrStop c)
        if body.isEmpty then patAbsUrlNoS r1
        else some (4 + 1 + 3 + body.length, "https://".data ++ body)
      | none => patAbsUrlNoS r1
    | _ => patAbsUrlNoS r1

/-- `url.replace(/[,;]$/, "")` (src line 1000). -/
def stripTrailingPunct (s : List Char) : List Char :=
  match s.reverse with
  | c :: r => if c = ',' ∨ c = ';' then r.reverse else s
  | [] => s

/-- `path.extname(pathname).toLowerCase()` classified into the four
types. -/
def extTypeFromPathname (p : String) : String :=
  let ext : String := ⟨(pathExtname p).data.map Char.toLower⟩
  if ext = ".js" ∨ ext = ".mjs" then "js"
  else if ext = ".css" then "css"
  else if ext = ".json" then "json"
  else "other"

/-- Phase-1 rewrite of one attribute of one element (src lines
872-920): absolute same-origin URLs present in `filePathMap` become
relative paths; everything else is untouched. -/
def rewriteAttrPhase1 (baseO : Url) (fpm : List (String × String))
    (file attrName : String) (e : Elem) : Elem :=
  match alistGet e.attrs attrName with
  | none => e
  | some v =>
    if v ≠ "" ∧ sstarts v "http" then
      match parseAbs v with
      | none => e
      | some vu =>
        if vu.origin = baseO.origin ∧ alistHas fpm v then
          match alistGet fpm v with
          | some targetPath =>
            ⟨e.tag, alistSet e.attrs attrName (getRelativePath file targetPath),
              e.inner⟩
          | none => e
        else e
    else e

/-- Phase-1 rewrite of a whole page: the `[href]`, `[src]` and `[data]`
passes in source order. -/
def phase1Doc (baseO : Url) (fpm : List (String × String)) (file : String)
    (d : List Elem) : List Elem :=
  ((d.map (rewriteAttrPhase1 baseO fpm file "href")).map
    (rewriteAttrPhase1 baseO fpm file "src")).map
    (rewriteAttrPhase1 baseO fpm file "data")

/-- Saved page file name (src line 865). -/
def pageFileName (page : String) : String :=
  if page = "/" then "index.html" else ⟨page.data.drop 1 ++ ".html".data⟩

/-- Phase 1: fetch every page, rewrite with the (still empty) map and
save.  A page fetch failure is uncaught and aborts the run. -/
def runPages (baseUrl : String) (baseO : Url)
    (pageDoc : String → Option (List Elem)) (fpm : List (String × String)) :
    List String → List (String × FileContent) →
    Option (List (String × FileContent))
  | [], fs => some fs
  | p :: rest, fs =>
    match parseWith p baseUrl with
    | none => none
    | some pu =>
      match pageDoc pu.href with
      | none => none
      | some d =>
        let file := pageFileName p
        runPages baseUrl baseO pageDoc fpm rest
          (fsSet fs file (FileContent.doc (phase1Doc baseO fpm file d)))

/-- The phase-2 selector
`link[href], script[src], ..., object[data], iframe[src]`. -/
def selectorPairs : List (String × String) :=
  [("link", "href"), ("script", "src"), ("img", "src"), ("source", "src"),
   ("video", "src"), ("audio", "src"), ("embed", "src"), ("object", "data"),
   ("iframe", "src")]

def elemMatchesSel (e : Elem) : Bool :=
  selectorPairs.any (fun p => e.tag = p.1 && (alistGet e.attrs p.2).isSome)

/-- Phase-2 per-attribute classification (src lines 944-965). -/
def classifyHtmlAttr (baseUrl val : String) : Option String :=
  if val = "" then none
  else if !sstarts val "data:" && !sstarts val "#" then
    if sstarts val "http" then some val
    else if sstarts val "//" then some ⟨"https:".data ++ val.data⟩
    else resolveHref baseUrl val
  else none

/-- Record one classified HTML attribute reference with its type; the
type computation re-parses the URL and a failure skips the entry. -/
def addHtmlAsset (baseUrl : String) (au : List (String × String))
    (val : String) : List (String × String) :=
  match classifyHtmlAttr baseUrl val with
  | none => au
  | some url =>
    match parseAbs url with
    | none => au
    | some uu => alistSet au url (extTypeFromPathname uu.pathname)

/-- Phase-2 scan of one parsed HTML document: the selector pass, inline
scripts, inline styles, and the wildcard data-attribute URL regex. -/
def scanHtmlDoc (esm : Bool) (baseUrl : String)
    (au0 : List (String × String)) (d : List Elem) :
    List (String × String) :=
  let au1 := d.foldl (fun au e =>
    if elemMatchesSel e then
      ["href", "src", "data"].foldl (fun au2 attr =>
        match alistGet e.attrs attr with
        | some v => addHtmlAsset baseUrl au2 v
        | none => au2) au
    else au) au0
  let au2 := d.foldl (fun au e =>
    if e.tag = "script" && (alistGet e.attrs "src").isNone then
      if e.inner ≠ "" then
        (extractAssets esm e.inner "js" baseUrl).foldl
          (fun a u => alistSet a u "js") au
      else au
    else au) au1
  let au3 := d.foldl (fun au e =>
    if e.tag = "style" then
      if e.inner ≠ "" then
        (extractAssets esm e.inner "css" baseUrl).foldl
          (fun a u => alistSet a u "css") au
      else au
    else au) au2
  d.foldl (fun au e =>
    e.attrs.foldl (fun a p =>
      (matchAll patAbsUrlHttp p.2.data).foldl (fun a2 m =>
        let clean : String := ⟨stripTrailingPunct m⟩
        match parseAbs clean with
        | some uu => alistSet a2 clean (extTypeFromPathname uu.pathname)
        | none => a2) a) au) au3

/-- Phase 2: scan every saved `.html` file. -/
def phase2 (esm : Bool) (baseUrl : String)
    (fs : List (String × FileContent)) : List (String × String) :=
  (fs.filter (fun p => sends p.1 ".html")).foldl (fun au p =>
    match p.2 with
    | FileContent.doc d => scanHtmlDoc esm baseUrl au d
    | FileContent.bin _ => au) []

end Broddy

namespace Broddy

/-- Phase-3 state: the url→type map, the processed set, and the FIFO
worklist. -/
structure Phase3State where
  au : List (String × String)
  processed : List String
  queue : List String
deriving Repr, DecidableEq

/-- The inner found-URL loop of phase 3 (src lines 1037-1050): keep
newly found URLs; a URL-parse throw aborts the rest of this file's
found list (the per-URL `new URL` is inside the per-file try). -/
def discAddFound (processed : List String) :
    List String → List (String × String) → List String →
    List (String × String) × List String
  | [], au, q => (au, q)
  | f :: rest, au, q =>
    if (alistGet au f).isSome ∨ f ∈ processed then
      discAddFound processed rest au q
    else
      match parseAbs f with
      | none => (au, q)
      | some uu =>
        discAddFound processed rest
          (alistSet au f (extTypeFromPathname uu.pathname)) (q ++ [f])

/-- Phase 3 (src lines 1020-1053): FIFO worklist; a download failure is
caught and the URL stays processed. -/
def phase3Go (esm : Bool) (download : String → Option String) :
    Nat → Phase3State → Phase3State
  | 0, st => st
  | fuel + 1, st =>
    match st.queue with
    | [] => st
    | url :: rest =>
      if url ∈ st.processed then
        phase3Go esm download fuel ⟨st.au, st.processed, rest⟩
      else
        let processed := st.processed ++ [url]
        let ty := (alistGet st.au url).getD "other"
        match download url with
        | none => phase3Go esm download fuel ⟨st.au, processed, rest⟩
        | some text =>
          let found := extractAssets esm text ty url
          let r := discAddFound processed found st.au rest
          phase3Go esm download fuel ⟨r.1, processed, r.2⟩

/-- Phase 4 (src lines 1056-1062): pre-allocate a path for every
discovered asset except root and `.html` pathnames. -/
def phase4 (baseUrl : String) (alloc : AllocState)
    (au : List (String × String)) : AllocState :=
  au.foldl (fun a p =>
    match parseWith p.1 baseUrl with
    | none => a
    | some uu =>
      if uu.pathname = "/" ∨ sends uu.pathname ".html" then a
      else
        match assetPath baseUrl a p.1 with
        | some r => r.2
        | none => a) alloc

/-- Phase-5 accumulating state. -/
structure DlState where
  alloc : AllocState
  fs : List (String × FileContent)
  downloaded : List (String × String)
deriving Repr, DecidableEq

/-- First source-map directive reference in a text (the pattern loop
with `break`, src lines 1104-1116). -/
def smFirstRef (text : String) : Option String :=
  match firstMatch patSmLine text.data with
  | some cap => some ⟨cap⟩
  | none =>
    match firstMatch patSmBlock text.data with
    | some cap => some ⟨cap⟩
    | none => none

/-- Resolution of the directive reference: `some (some u)` resolved,
`some none` left `null` (a `data:` reference), `none` a thrown
`TypeError` (aborts the asset, as it is outside the inner try). -/
def smResolve (url mapRef : String) : Option (Option String) :=
  if sstarts mapRef "http" then some (some mapRef)
  else if !sstarts mapRef "data:" then
    match parseWith mapRef url with
    | some mu => some (some mu.href)
    | none => none
  else some none

/-- Replacement of the single-line directive
(`\/\/[#@]\s*sourceMappingURL=[^\s]+` → canonical `//#` form, src
lines 1143-1146). -/
def smLineReplace (name : String) (s : List Char) : Option (Nat × List Char) :=
  match patSmLine s with
  | some (k, _) => some (k, ("//# sourceMappingURL=" ++ name).data)
  | none => none

/-- Replacement of the block directive (stays in block form, src lines
1147-1150). -/
def smBlockReplace (name : String) (s : List Char) :
    Option (Nat × List Char) :=
  match patSmBlock s with
  | some (k, _) => some (k, ("/*# sourceMappingURL=" ++ name ++ " */").data)
  | none => none

/-- Phase-5 processing of one `[url, type]` entry (src lines
1068-1175). -/
def processOneAsset (esm : Bool) (baseUrl : String)
    (download : String → Option String) (st : DlState) (url ty : String) :
    DlState :=
  match parseWith url baseUrl with
  | none => st
  | some uu =>
    if uu.pathname = "/" ∨ sends uu.pathname ".html" then st
    else
      match assetPath baseUrl st.alloc url with
      | none => st
      | some (filePath, alloc1) =>
        if (fsGet st.fs filePath).isSome then ⟨alloc1, st.fs, st.downloaded⟩
        else
          match download url with
          | none => ⟨alloc1, st.fs, st.downloaded⟩
          | some content =>
            let rw := rewriteUrls alloc1 baseUrl url content ty
            let processed1 : String :=
              match rw with
              | some r => r.1
              | none => content
            let alloc2 : AllocState :=
              match rw with
              | some r => r.2
              | none => alloc1
            if esm ∧ (ty = "js" ∨ ty = "mjs") then
              match smFirstRef processed1 with
              | none => ⟨alloc2, st.fs, alistSet st.downloaded url content⟩
              | some mapRef =>
                match smResolve url mapRef with
                | none => ⟨alloc2, st.fs, st.downloaded⟩
                | some none => ⟨alloc2, st.fs, alistSet st.downloaded url content⟩
                | some (some smu) =>
                  if sstarts smu "data:" then
                    ⟨alloc2, st.fs, alistSet st.downloaded url content⟩
                  else
                    match assetPath baseUrl alloc2 url with
                    | none => ⟨alloc2, st.fs, alistSet st.downloaded url content⟩
                    | some (p2, alloc3) =>
                      let mapPath := p2 ++ ".map"
                      match (match fsGet st.fs mapPath with
                        | some (FileContent.bin m) => some (m, st.fs)
                        | some (FileContent.doc _) => none
                        | none =>
                          match download smu with
                          | some m =>
                            some (m, fsSet st.fs mapPath (FileContent.bin m))
                          | none => none) with
                      | none => ⟨alloc3, st.fs, alistSet st.downloaded url content⟩
                      | some (mapContent, fs2) =>
                        if jsonParseable mapContent then
                          let name := pathBasename mapPath
                          let final : String := ⟨replaceFirst (smBlockReplace name)
                            (replaceFirst (smLineReplace name) processed1.data)⟩
                          ⟨alloc3, fs2, alistSet st.downloaded url final⟩
                        else ⟨alloc3, fs2, alistSet st.downloaded url content⟩
            else ⟨alloc2, st.fs, alistSet st.downloaded url content⟩

/-- Phase 5 over all discovered assets. -/
def phase5 (esm : Bool) (baseUrl : String)
    (download : String → Option String) (alloc : AllocState)
    (fs : List (String × FileContent)) (au : List (String × String)) :
    DlState :=
  au.foldl (fun st p => processOneAsset esm baseUrl download st p.1 p.2)
    ⟨alloc, fs, []⟩

/-- Phase 6 (src lines 1177-1180): save every downloaded asset at its
allocated path (a cache hit, so the state is unchanged). -/
def phase6 (baseUrl : String) (st : DlState) :
    AllocState × List (String × FileContent) :=
  st.downloaded.foldl (fun r p =>
    match assetPath baseUrl r.1 p.1 with
    | some (fp, a2) => (a2, fsSet r.2 fp (FileContent.bin p.2))
    | none => r) (st.alloc, st.fs)

/-- The world a run interacts with: page routes, fetched page
documents, and asset downloads (`none` = network error or non-2xx). -/
structure World where
  pages : List String
  pageDoc : String → Option (List Elem)
  download : String → Option String

/-- A finished run: the output folder, the reported asset count
(`downloadedAssets.size`), the allocator state and the discovered
url→type map. -/
structure RunResult where
  fs : List (String × FileContent)
  downloadedCount : Nat
  alloc : AllocState
  assetUrls : List (String × String)
deriving Repr, DecidableEq

/-- The whole `broddy` run (src lines 533-1195).  `none` models an
uncaught throw (bad base URL or a failed page fetch). -/
def broddy (esm : Bool) (baseUrl : String) (world : World) (fuel : Nat) :
    Option RunResult :=
  match parseAbs baseUrl with
  | none => none
  | some baseO =>
    match runPages baseUrl baseO world.pageDoc emptyAlloc.filePathMap
        world.pages [] with
    | none => none
    | some fs1 =>
      let au1 := phase2 esm baseUrl fs1
      let st3 := phase3Go esm world.download fuel
        ⟨au1, [], au1.map Prod.fst⟩
      let alloc4 := phase4 baseUrl emptyAlloc st3.au
      let st5 := phase5 esm baseUrl world.download alloc4 fs1 st3.au
      let r6 := phase6 baseUrl st5
      some ⟨r6.2, st5.downloaded.length, r6.1, st3.au⟩

end Broddy

namespace Broddy

/-- The C1 scenario world: page `/` with
`<script src="https://x.test/app.js">`; `app.js` dynamically imports
`chunk.js`. -/
def scenarioC1 : World :=
  ⟨["/"],
   fun u => if u = "https://x.test/" then
     some [⟨"script", [("src", "https://x.test/app.js")], ""⟩] else none,
   fun u =>
     if u = "https://x.test/app.js" then
       some "import(\"https://x.test/chunk.js\")"
     else if u = "https://x.test/chunk.js" then some "console.log(1)"
     else none⟩

/-- C1: the claimed scenario FAILS in the code.  The run completes,
discovers both assets and reports count 2, but the saved `index.html`
still carries the absolute `src` (pages are rewritten in phase 1 with
the still-empty `filePathMap` and never revisited — there is no final
rewrite pass), and the saved `app.js` is the ORIGINAL downloaded
content: phase 5 computes `rewriteUrls` into `processedContent` but the
default non-source-map path stores the un-rewritten `content`
(src/index.js line 1170), which phase 6 saves.  No saved file is ever
rewritten with the final complete map. -/
theorem broddy_saves_unrewritten_output :
    broddy false "https://x.test" scenarioC1 100 =
      some ⟨[("index.html", FileContent.doc
                [⟨"script", [("src", "https://x.test/app.js")], ""⟩]),
             ("/app.js",
              FileContent.bin "import(\"https://x.test/chunk.js\")"),
             ("/chunk.js", FileContent.bin "console.log(1)")],
        2,
        ⟨[("https://x.test/app.js", "/app.js"),
          ("https://x.test/chunk.js", "/chunk.js")],
         ["/chunk.js", "/app.js"]⟩,
        [("https://x.test/app.js", "js"), ("https://x.test/chunk.js", "js")]⟩ := by
  decide

/-- The C7 scenario world: `app.js` imports `chunk.js` and the
permanently failing `broken.js` (HTTP 404 → `download` throws →
`none`). -/
def scenarioC7 : World :=
  ⟨["/"],
   fun u => if u = "https://x.test/" then
     some [⟨"script", [("src", "https://x.test/app.js")], ""⟩] else none,
   fun u =>
     if u = "https://x.test/app.js" then
       some "import(\"https://x.test/chunk.js\");import(\"https://x.test/broken.js\")"
     else if u = "https://x.test/chunk.js" then some "console.log(1)"
     else none⟩

/-- C7 (amended, default configuration): a 404 asset is non-fatal.
The run completes; the failed `broken.js` is absent from the download
set (count 2) and from the output folder; every saved reference to it
is the original absolute URL — in the default configuration nothing is
ever rewritten in saved files (see C1), so references are trivially
unrewritten. -/
theorem broddy_failed_fetch_nonfatal :
    broddy false "https://x.test" scenarioC7 100 =
      some ⟨[("index.html", FileContent.doc
                [⟨"script", [("src", "https://x.test/app.js")], ""⟩]),
             ("/app.js", FileContent.bin
              "import(\"https://x.test/chunk.js\");import(\"https://x.test/broken.js\")"),
             ("/chunk.js", FileContent.bin "console.log(1)")],
        2,
        ⟨[("https://x.test/app.js", "/app.js"),
          ("https://x.test/chunk.js", "/chunk.js"),
          ("https://x.test/broken.js", "/broken.js")],
         ["/broken.js", "/chunk.js", "/app.js"]⟩,
        [("https://x.test/app.js", "js"), ("https://x.test/chunk.js", "js"),
         ("https://x.test/broken.js", "js")]⟩ ∧
    fsGet [("index.html", FileContent.doc
             [⟨"script", [("src", "https://x.test/app.js")], ""⟩]),
           ("/app.js", FileContent.bin
            "import(\"https://x.test/chunk.js\");import(\"https://x.test/broken.js\")"),
           ("/chunk.js", FileContent.bin "console.log(1)")] "/broken.js" = none :=
  ⟨by decide, by decide⟩

/-- The C7 counterexample world: source-map mode; `app.js` has a valid
source map and imports the failing `broken.js`. -/
def scenarioC7sm : World :=
  ⟨["/"],
   fun u => if u = "https://x.test/" then
     some [⟨"script", [("src", "https://x.test/app.js")], ""⟩] else none,
   fun u =>
     if u = "https://x.test/app.js" then
       some "import(\"https://x.test/broken.js\")\n//# sourceMappingURL=app.js.map"
     else if u = "https://x.test/app.js.map" then
       some "\x7b\"version\":3\x7d"
     else none⟩

/-- C7 counterexample: with source maps enabled, the saved `app.js`
goes through the source-map path, which stores `processedContent` —
the `rewriteUrls` output.  `broken.js` was pre-allocated a path in
phase 4 although its download fails, so the saved `app.js` references
it by the dangling RELATIVE path `broken.js`, not the original
absolute URL. -/
theorem broddy_failed_asset_dangling_rewrite_cex :
    broddy true "https://x.test" scenarioC7sm 100 =
      some ⟨[("index.html", FileContent.doc
                [⟨"script", [("src", "https://x.test/app.js")], ""⟩]),
             ("/app.js.map", FileContent.bin "\x7b\"version\":3\x7d"),
             ("/app.js", FileContent.bin
              "import(\"broken.js\")\n//# sourceMappingURL=app.js.map")],
        1,
        ⟨[("https://x.test/app.js", "/app.js"),
          ("https://x.test/broken.js", "/broken.js"),
          ("https://x.test/app.js.map", "/app.js.map")],
         ["/app.js.map", "/broken.js", "/app.js"]⟩,
        [("https://x.test/app.js", "js"), ("https://x.test/broken.js", "js"),
         ("https://x.test/app.js.map", "other")]⟩ ∧
    containsSub "https://x.test/broken.js".data
      "import(\"broken.js\")\n//# sourceMappingURL=app.js.map".data = false :=
  ⟨by decide, by decide⟩

/-- The C9 scenario world: `app.js` carries a single-line `//@`
directive pointing at a valid relative map. -/
def scenarioC9 : World :=
  ⟨["/"],
   fun u => if u = "https://x.test/" then
     some [⟨"script", [("src", "https://x.test/app.js")], ""⟩] else none,
   fun u =>
     if u = "https://x.test/app.js" then
       some "console.log(1)\n//@ sourceMappingURL=app.js.map"
     else if u = "https://x.test/app.js.map" then
       some "\x7b\"version\":3\x7d"
     else none⟩

/-- C9 (amended): in source-map mode, a fetchable JSON-parseable map is
persisted next to the script as `<scriptpath>.map`, and a SINGLE-LINE
directive (`//#` or `//@`) is rewritten to the canonical
`//# sourceMappingURL=<local name>` form.  (Block directives are NOT
normalized to the `//#` form; see the counterexample.) -/
theorem broddy_sourcemap_saved_and_canonicalized :
    broddy true "https://x.test" scenarioC9 100 =
      some ⟨[("index.html", FileContent.doc
                [⟨"script", [("src", "https://x.test/app.js")], ""⟩]),
             ("/app.js.map", FileContent.bin "\x7b\"version\":3\x7d"),
             ("/app.js", FileContent.bin
              "console.log(1)\n//# sourceMappingURL=app.js.map")],
        1,
        ⟨[("https://x.test/app.js", "/app.js"),
          ("https://x.test/app.js.map", "/app.js.map")],
         ["/app.js.map", "/app.js"]⟩,
        [("https://x.test/app.js", "js"),
         ("https://x.test/app.js.map", "other")]⟩ := by
  decide

/-- The C9 counterexample world: the directive is in BLOCK form. -/
def scenarioC9block : World :=
  ⟨["/"],
   fun u => if u = "https://x.test/" then
     some [⟨"script", [("src", "https://x.test/app.js")], ""⟩] else none,
   fun u =>
     if u = "https://x.test/app.js" then
       some "console.log(1)\n/*# sourceMappingURL=app.js.map */"
     else if u = "https://x.test/app.js.map" then
       some "\x7b\"version\":3\x7d"
     else none⟩

/-- C9 counterexample: a block `/*# ... */` directive is replaced in
place in BLOCK form (src lines 1147-1150 substitute
`/*# sourceMappingURL=<name> */`), not normalized to the claimed
canonical `//# sourceMappingURL=<name>` form — the saved script
contains no `//#` directive at all. -/
theorem broddy_sourcemap_block_not_canonical_cex :
    broddy true "https://x.test" scenarioC9block 100 =
      some ⟨[("index.html", FileContent.doc
                [⟨"script", [("src", "https://x.test/app.js")], ""⟩]),
             ("/app.js.map", FileContent.bin "\x7b\"version\":3\x7d"),
             ("/app.js", FileContent.bin
              "console.log(1)\n/*# sourceMappingURL=app.js.map */")],
        1,
        ⟨[("https://x.test/app.js", "/app.js"),
          ("https://x.test/app.js.map", "/app.js.map")],
         ["/app.js.map", "/app.js"]⟩,
        [("https://x.test/app.js", "js"),
         ("https://x.test/app.js.map", "other")]⟩ ∧
    containsSub "//# sourceMappingURL".data
      "console.log(1)\n/*# sourceMappingURL=app.js.map */".data = false :=
  ⟨by decide, by decide⟩

end Broddy
